import Mathlib

/-!
Verification development for the PicoOS Config Manager (`src/config.py`).

The Python module implements a TOML-like configuration store:

* a line classifier (`_isClass`, `_isSubClass`, `_isComment`, `_isProperty`,
  `_isBlank`),
* a document builder (`_parse`, `_newClass`, `_newSubClass`, `_newProperty`),
* a value codec (`_convert_value`, `_parse_inline_dict`, `_value_to_string`),
* a serializer (`_save`),
* a dotted-path accessor (`get`, `set`).

The shallow embedding below represents Python strings as `List Char`
(`PyStr`), Python dictionaries as insertion-ordered association lists whose
key uniqueness is maintained by the same operations the code uses
(`setdefault`, item assignment), and Python's numeric `float` as an exact
rational (`Rat`).  File I/O is factored out: parsing consumes the loaded
text, the serializer produces the text that would be written.

Modelling notes (divergences are deliberately conservative):
* `float(...)` is modelled for finite decimal literals
  (sign, digits, optional point, optional exponent).  IEEE-754 rounding,
  `inf`/`nan` forms and underscore separators are outside the model.
* `str.strip()` strips the four ASCII whitespace characters recognised by
  `Char.isWhitespace`; exotic Unicode whitespace is outside the model.
* `str.splitlines()` is modelled for `'\n'`-separated text, the only
  separator the serializer emits.
* `str.isdigit()` is modelled as ASCII digits.
* recursion through string fragments is implemented with an explicit fuel
  that starts strictly above the string length, so every definition is
  structurally recursive and therefore executable by the kernel.
-/

set_option maxHeartbeats 1000000
set_option maxRecDepth 8000

abbrev PyStr := List Char

/-- Python `str.strip()` from the left: drop leading whitespace. -/
def lstripC (s : PyStr) : PyStr := s.dropWhile Char.isWhitespace

/-- Python `str.strip()`: drop leading and trailing whitespace. -/
def pstripC (s : PyStr) : PyStr :=
  ((s.dropWhile Char.isWhitespace).reverse.dropWhile Char.isWhitespace).reverse

/-- Python `str.strip(c)` for a single character `c`: drop every copy of `c`
from both ends. -/
def stripAllC (c : Char) (s : PyStr) : PyStr :=
  ((s.dropWhile (· = c)).reverse.dropWhile (· = c)).reverse

/-- Python `str.lower()` (ASCII). -/
def lowerC (s : PyStr) : PyStr := s.map Char.toLower

/-- Python `str.isdigit()` (ASCII digits; true only on nonempty strings). -/
def isdigitC (s : PyStr) : Bool := !s.isEmpty && s.all Char.isDigit

/-- Python `s[1:-1]`: drop the first and the last character. -/
def innerC (s : PyStr) : PyStr := (s.drop 1).dropLast

/-- Python `str.split(sep)` for a one-character separator: split on every
occurrence; the result list is never empty. -/
def splitOnC (c : Char) : PyStr → List PyStr
  | [] => [[]]
  | x :: rest =>
    if x = c then [] :: splitOnC c rest
    else match splitOnC c rest with
      | [] => [[x]]
      | p :: ps => (x :: p) :: ps

/-- Python `str.split(sep, 1)` for a one-character separator, in the shape
used by `key, value = line.split("=", 1)`: `some (before, after)` when the
separator occurs, `none` otherwise (where the two-name unpacking would
raise `ValueError`). -/
def splitFirstC (c : Char) : PyStr → Option (PyStr × PyStr)
  | [] => none
  | x :: rest =>
    if x = c then some ([], rest)
    else match splitFirstC c rest with
      | some (a, b) => some (x :: a, b)
      | none => none

/-- Python `str.splitlines()` restricted to `'\n'` separators: a trailing
newline does not contribute a final empty line. -/
def splitlinesC : PyStr → List PyStr
  | [] => []
  | x :: rest =>
    if x = '\n' then [] :: splitlinesC rest
    else match splitlinesC rest with
      | [] => [[x]]
      | p :: ps => (x :: p) :: ps

/-- Python `sep.join(pieces)`. -/
def joinSepC (sep : PyStr) : List PyStr → PyStr
  | [] => []
  | [x] => x
  | x :: y :: rest => x ++ sep ++ joinSepC sep (y :: rest)

/-- Numeric value of a list of ASCII digit characters (most significant
first), as computed by Python `int(...)` on an all-digit string. -/
def digitsValC (s : PyStr) : Nat :=
  s.foldl (fun acc c => 10 * acc + (c.toNat - 48)) 0

/-- Decimal digits of a natural number (fuelled; adequate whenever the fuel
is positive and at least the number of digits, which `natDigits` ensures). -/
def natDigitsAux : Nat → Nat → PyStr
  | 0, _ => []
  | fuel + 1, n =>
    if n < 10 then [Char.ofNat (48 + n)]
    else natDigitsAux fuel (n / 10) ++ [Char.ofNat (48 + n % 10)]

/-- Decimal digit characters of a natural number, as produced by
Python `str(...)` on a nonnegative integer. -/
def natDigits (n : Nat) : PyStr := natDigitsAux (n + 1) n

/-- Python `str(...)` on an integer. -/
def intStr (n : Int) : PyStr :=
  if n < 0 then '-' :: natDigits n.natAbs else natDigits n.natAbs

example : pstripC "  a b ".data = "a b".data := by decide
example : stripAllC '"' "\"\"x\"".data = "x".data := by decide
example : splitOnC ',' "a,b,,c".data = ["a".data, "b".data, [], "c".data] := by decide
example : splitOnC ',' [] = [[]] := by decide
example : splitFirstC '=' "a=b=c".data = some ("a".data, "b=c".data) := by decide
example : splitlinesC "a\nb\n".data = ["a".data, "b".data] := by decide
example : splitlinesC "\n".data = [[]] := by decide
example : splitlinesC [] = [] := by decide
example : digitsValC "105".data = 105 := by decide
example : natDigits 105 = "105".data := by decide
example : intStr (-12) = "-12".data := by decide

/-- Python `float(...)` on an already trimmed token, for finite decimal
literals: optional sign, digits with an optional single point, optional
decimal exponent.  The value is represented exactly as a rational, built
with `mkRat` from integer arithmetic (so that the kernel can evaluate it:
the `Rat` field operations are irreducible, `mkRat` is not).
`inf`/`nan`/underscore forms are outside the model. -/
def pySign (s : PyStr) : Bool × PyStr :=
  if s.head? = some '+' then (false, s.tail)
  else if s.head? = some '-' then (true, s.tail)
  else (false, s)

def pyFloat (s : PyStr) : Option Rat :=
  let (neg, s1) := pySign s
  let ip := s1.takeWhile Char.isDigit
  let r1 := s1.dropWhile Char.isDigit
  let (fp, r2) : PyStr × PyStr :=
    if r1.head? = some '.' then (r1.tail.takeWhile Char.isDigit, r1.tail.dropWhile Char.isDigit)
    else ([], r1)
  if ip.isEmpty && fp.isEmpty then none
  else
    let m : Nat := digitsValC ip * 10 ^ fp.length + digitsValC fp
    let num : Int := if neg then -(m : Int) else (m : Int)
    match r2 with
    | [] => some (mkRat num (10 ^ fp.length))
    | e :: r3 =>
      if e = 'e' || e = 'E' then
        let (eneg, r4) := pySign r3
        let ed := r4.takeWhile Char.isDigit
        if ed.isEmpty || !(r4.dropWhile Char.isDigit).isEmpty then none
        else
          let ex := digitsValC ed
          if eneg then some (mkRat num (10 ^ (fp.length + ex)))
          else some (mkRat (num * 10 ^ ex) (10 ^ fp.length))
      else none

example : pyFloat "".data = none := by decide
example : pyFloat "5x".data = none := by decide
example : pyFloat "\"5\"".data = none := by decide
example : pyFloat "-5".data = some (mkRat (-5) 1) := by decide
example : pyFloat "1.25".data = some (mkRat 125 100) := by decide
example : pyFloat "25e-1".data = some (mkRat 25 10) := by decide
example : pyFloat "2e3".data = some (mkRat 2000 1) := by decide
example : mkRat (-5) 1 = -5 := by rw [Rat.mkRat_eq_div]; norm_num

/-- The Python values the configuration store traffics in: the image of the
value codec plus anything `set` is given.  Python `float` is modelled as an
exact rational; dictionaries are insertion-ordered association lists. -/
inductive Value where
  | bool (b : Bool)
  | int (n : Int)
  | float (q : Rat)
  | str (s : PyStr)
  | list (xs : List Value)
  | dict (d : List (PyStr × Value))
deriving Repr

mutual
/-- Structural (Python `is`-free, type-strict) equality test on values,
used only to obtain a kernel-executable `DecidableEq Value`; the
cross-type numeric equality of Python `==` is `pyEqV` below. -/
def vbeq : Value → Value → Bool
  | .bool a, .bool b => a == b
  | .int a, .int b => a == b
  | .float a, .float b => a == b
  | .str a, .str b => a == b
  | .list xs, .list ys => vbeqL xs ys
  | .dict d, .dict e => vbeqD d e
  | _, _ => false

def vbeqL : List Value → List Value → Bool
  | [], [] => true
  | x :: xs, y :: ys => vbeq x y && vbeqL xs ys
  | _, _ => false

def vbeqD : List (PyStr × Value) → List (PyStr × Value) → Bool
  | [], [] => true
  | (k, v) :: d, (k', w) :: e => k == k' && vbeq v w && vbeqD d e
  | _, _ => false
end

theorem vbeq_iff : ∀ v w : Value, vbeq v w = true ↔ v = w :=
  @Value.rec (fun v => ∀ w, vbeq v w = true ↔ v = w)
    (fun xs => ∀ ys, vbeqL xs ys = true ↔ xs = ys)
    (fun d => ∀ e, vbeqD d e = true ↔ d = e)
    (fun kv => ∀ w, vbeq kv.2 w = true ↔ kv.2 = w)
    (fun b w => by cases w <;> simp [vbeq])
    (fun n w => by cases w <;> simp [vbeq])
    (fun q w => by cases w <;> simp [vbeq])
    (fun s w => by cases w <;> simp [vbeq])
    (fun xs ih w => by cases w <;> simp [vbeq, ih])
    (fun d ih w => by cases w <;> simp [vbeq, ih])
    (fun ys => by cases ys <;> simp [vbeqL])
    (fun x xs ihx ihxs ys => by
      cases ys with
      | nil => simp [vbeqL]
      | cons y ys => simp [vbeqL, ihx, ihxs])
    (fun e => by cases e <;> simp [vbeqD])
    (fun kv d ihkv ihd e => by
      obtain ⟨k, v⟩ := kv
      cases e with
      | nil => simp [vbeqD]
      | cons kw e =>
        obtain ⟨k', w⟩ := kw
        simp only [vbeqD, Bool.and_eq_true, List.cons.injEq, Prod.mk.injEq]
        constructor
        · rintro ⟨⟨hk, hv⟩, hd⟩
          exact ⟨⟨by simpa using hk, (ihkv w).mp hv⟩, (ihd e).mp hd⟩
        · rintro ⟨⟨hk, hv⟩, hd⟩
          exact ⟨⟨by simpa using hk, (ihkv w).mpr hv⟩, (ihd e).mpr hd⟩)
    (fun k v ihv => ihv)

instance : DecidableEq Value := fun v w => decidable_of_iff _ (vbeq_iff v w)

/-- Python `d.get(k)` on an insertion-ordered dictionary. -/
def alistGet? {α : Type} : List (PyStr × α) → PyStr → Option α
  | [], _ => none
  | (k', v) :: rest, k => if k' = k then some v else alistGet? rest k

/-- Python `d[k] = v`: update in place (keeping the key's position) when the
key is present, append otherwise. -/
def alistAssign {α : Type} : List (PyStr × α) → PyStr → α → List (PyStr × α)
  | [], k, v => [(k, v)]
  | (k', v') :: rest, k, v =>
    if k' = k then (k, v) :: rest else (k', v') :: alistAssign rest k v

/-- Python `d.setdefault(k, v)` (the returned value is not modelled; the
callers in `config.py` discard it). -/
def alistSetdefault {α : Type} (d : List (PyStr × α)) (k : PyStr) (v : α) :
    List (PyStr × α) :=
  if (alistGet? d k).isSome then d else d ++ [(k, v)]

/-- Python `s.add(x)` on a set modelled as a membership list. -/
def addToSet (l : List PyStr) (x : PyStr) : List PyStr :=
  if l.contains x then l else l ++ [x]

mutual
/-- Fuelled core of `Config._convert_value`.  The fuel strictly exceeds the
string length at every call (`_convert_value` arranges this), so the
exhaustion branch is never reached; fuel makes the recursion structural and
hence kernel-executable. -/
def convertValueF : Nat → PyStr → Value
  | 0, value => .str (stripAllC '"' (pstripC value))
  | fuel + 1, value =>
    let v := pstripC value
    if lowerC v = "true".data ∨ lowerC v = "false".data then
      .bool (lowerC v == "true".data)
    else if isdigitC v then .int (digitsValC v)
    else match pyFloat v with
    | some q => .float q
    | none =>
      if v.head? = some '[' ∧ v.getLast? = some ']' then
        .list (((splitOnC ',' (innerC v)).filter
            (fun item => !(pstripC item).isEmpty)).map
          (fun item => convertValueF fuel (pstripC item)))
      else if v.head? = some '{' ∧ v.getLast? = some '}' then
        parseInlineDictF fuel v
      else .str (stripAllC '"' v)

/-- Fuelled core of `Config._parse_inline_dict`.  In the source this sits in
a `try`/`except` that degrades to the bare-string branch; the model's
function is total, so the exception path is dead. -/
def parseInlineDictF : Nat → PyStr → Value
  | 0, _ => .dict []
  | fuel + 1, value =>
    let inner := pstripC (innerC value)
    .dict (if inner.isEmpty then []
      else (splitOnC ',' inner).foldl (fun result part =>
        match splitFirstC '=' part with
        | some (k0, v0) =>
          let k := stripAllC '\'' (stripAllC '"' (pstripC k0))
          alistAssign result k (convertValueF fuel (pstripC v0))
        | none => result) [])
end

/-- `Config._convert_value`: decode a literal to a typed value, trying in
order booleans, unsigned integers, floats, lists, inline dictionaries, and
finally a bare string with one layer of double quotes stripped. -/
def _convert_value (value : PyStr) : Value :=
  convertValueF (value.length + 1) value

/-- `Config._parse_inline_dict`: decode `{ "a" = 1, "b" = 2 }`. -/
def _parse_inline_dict (value : PyStr) : Value :=
  parseInlineDictF (value.length + 1) value

/-- Number of times `p` divides `n` (for the decimal expansion of `Rat`
denominators in `floatRepr`). -/
def countFactorAux : Nat → Nat → Nat → Nat
  | 0, _, _ => 0
  | fuel + 1, p, n =>
    if 2 ≤ p ∧ 2 ≤ n ∧ n % p = 0 then countFactorAux fuel p (n / p) + 1 else 0

def countFactor (p n : Nat) : Nat := countFactorAux n p n

def stripTrailingZeros (s : PyStr) : PyStr :=
  (s.reverse.dropWhile (· = '0')).reverse

/-- Python `str(...)` on a float, for the exact-decimal model: sign, integer
digits, a point, fractional digits with trailing zeros removed (but at
least one digit), e.g. `-5.0`, `1.25`, `0.3`.  CPython switches to exponent
notation for very large or very small magnitudes; that formatting choice is
outside the model (the decoded value is unaffected). -/
def floatRepr (q : Rat) : PyStr :=
  let k := countFactor 2 q.den + countFactor 5 q.den
  let m : Nat := q.num.natAbs * 10 ^ k / q.den
  let ds := natDigits m
  let ds' := List.replicate (k + 1 - ds.length) '0' ++ ds
  let ip := ds'.take (ds'.length - k)
  let fp := stripTrailingZeros (ds'.drop (ds'.length - k))
  (if q.num < 0 then ['-'] else []) ++ ip ++ '.' :: (if fp.isEmpty then ['0'] else fp)

example : floatRepr (mkRat (-5) 1) = "-5.0".data := by decide
example : floatRepr (mkRat 125 100) = "1.25".data := by decide
example : floatRepr (mkRat 3 10) = "0.3".data := by decide
example : floatRepr (mkRat 0 1) = "0.0".data := by decide

mutual
/-- `Config._value_to_string`: encode a typed value back to its literal. -/
def _value_to_string : Value → PyStr
  | .bool b => if b then "true".data else "false".data
  | .int n => intStr n
  | .float q => floatRepr q
  | .str s => '"' :: s ++ ['"']
  | .list xs => '[' :: joinSepC ", ".data (encList xs) ++ [']']
  | .dict d => "\x7b ".data ++ joinSepC ", ".data (encEntries d) ++ " \x7d".data

def encList : List Value → List PyStr
  | [] => []
  | x :: xs => _value_to_string x :: encList xs

def encEntries : List (PyStr × Value) → List PyStr
  | [] => []
  | (k, v) :: d => ('"' :: k ++ "\" = ".data ++ _value_to_string v) :: encEntries d
end

example : _value_to_string (.list [.int 5, .str "hi".data]) = "[5, \"hi\"]".data := by decide
example : _value_to_string (.dict [("a".data, .int 7)]) = "\x7b \"a\" = 7 \x7d".data := by decide
example : _value_to_string (.dict []) = "\x7b  \x7d".data := by decide
example : _convert_value "[5, \"hi\"]".data = .list [.int 5, .str "hi".data] := by decide
example : _convert_value "\x7b \"a\" = 7 \x7d".data = .dict [("a".data, .int 7)] := by decide
example : _convert_value "tRue".data = .bool true := by decide
example : _convert_value " x y ".data = .str "x y".data := by decide

/-- The exceptions the embedded operations can raise. -/
inductive PyError where
  | valueError
  | keyError
  | attributeError
deriving DecidableEq, Repr

/-- The mutable state of a `Config` object: `file_object` (the Document),
`current_class` (the parse-time pointer, `none` for the initial empty
tuple), and `subclasses` (the sub-table index, each set modelled as a
membership list). -/
structure ConfigState where
  file_object : List (PyStr × Value)
  current_class : Option (PyStr × Option PyStr × Bool)
  subclasses : List (PyStr × List PyStr)
deriving Repr, DecidableEq

def initState : ConfigState := ⟨[], none, []⟩

/-- `Config._isClass`. -/
def _isClass (line : PyStr) : Bool :=
  line.head? = some '[' && line.getLast? = some ']' && !line.contains '.'

/-- `Config._isSubClass`. -/
def _isSubClass (line : PyStr) : Bool :=
  line.head? = some '[' && line.getLast? = some ']' && line.contains '.'

/-- `Config._isComment`. -/
def _isComment (line : PyStr) : Bool := line.head? = some '#'

/-- `Config._isProperty`. -/
def _isProperty (line : PyStr) : Bool := line.contains '='

/-- `Config._isBlank`. -/
def _isBlank (line : PyStr) : Bool := (pstripC line).isEmpty

/-- `Config._getClassSubClass`. -/
def _getClassSubClass (line : PyStr) : List PyStr := splitOnC '.' (innerC line)

/-- `Config._classExists`. -/
def _classExists (st : ConfigState) (key : PyStr) : Bool :=
  (alistGet? st.file_object key).isSome

/-- `Config._newClass` (total: it can only read and write plain fields). -/
def _newClass (st : ConfigState) (line : PyStr) : ConfigState :=
  let class_name := innerC line
  if _classExists st class_name then st
  else
    { file_object := alistSetdefault st.file_object class_name (.dict []),
      current_class := some (class_name, none, false),
      subclasses := alistAssign st.subclasses class_name [] }

/-- `Config._newSubClass`.  The two-name unpacking of
`self._getClassSubClass(line)` raises `ValueError` unless the split has
exactly two parts; the later subscripts can raise `KeyError`/
`AttributeError` (kept even where unreachable, to mirror the source). -/
def _newSubClass (st : ConfigState) (line : PyStr) : Except PyError ConfigState :=
  match _getClassSubClass line with
  | [cls, subclass] =>
    let st1 : ConfigState := { st with current_class := some (cls, some subclass, true) }
    let st2 : ConfigState :=
      if _classExists st1 cls then st1
      else { st1 with
              file_object := alistSetdefault st1.file_object cls (Value.dict []),
              subclasses := alistAssign st1.subclasses cls [] }
    match alistGet? st2.subclasses cls with
    | none => .error .keyError
    | some subs =>
      let st3 : ConfigState := { st2 with
        subclasses := alistAssign st2.subclasses cls (addToSet subs subclass) }
      match alistGet? st3.file_object cls with
      | some (Value.dict d) =>
        .ok { st3 with
               file_object := alistAssign st3.file_object cls
                 (Value.dict (alistSetdefault d subclass (Value.dict []))) }
      | some _ => .error .attributeError
      | none => .error .keyError
  | _ => .error .valueError

/-- `Config._newProperty`.  With no current class the line is dropped with
a warning; `line.split("=", 1)` into two names raises `ValueError` when no
`=` is present (unreachable from `_parse`); the nested subscripts raise
`AttributeError` when they land on a non-dictionary. -/
def _newProperty (st : ConfigState) (line : PyStr) : Except PyError ConfigState :=
  match st.current_class with
  | none => .ok st
  | some (cls0, sub?, isSub) =>
    match splitFirstC '=' line with
    | none => .error .valueError
    | some (k0, v0) =>
      let key := pstripC k0
      let value := _convert_value (pstripC v0)
      if isSub then
        match sub? with
        | none => .error .keyError
        | some subclass =>
          match alistGet? st.file_object cls0 with
          | some (Value.dict d) =>
            match alistGet? d subclass with
            | some (Value.dict sd) =>
              .ok { st with
                     file_object := alistAssign st.file_object cls0
                       (Value.dict (alistAssign d subclass
                         (Value.dict (alistSetdefault sd key value)))) }
            | some _ => .error .attributeError
            | none => .error .keyError
          | some _ => .error .attributeError
          | none => .error .keyError
      else
        match alistGet? st.file_object cls0 with
        | some (Value.dict d) =>
          .ok { st with
                 file_object := alistAssign st.file_object cls0
                   (Value.dict (alistSetdefault d key value)) }
        | some _ => .error .attributeError
        | none => .error .keyError

/-- The classification taxonomy of §4.1, in the order `_parse` tests the
predicates (comment/blank first, then class, subclass, property, unknown). -/
inductive LineTag where
  | comment
  | blank
  | classHeader
  | subclassHeader
  | property
  | unknown
deriving DecidableEq, Repr

/-- The Line Classifier: the dispatch order of `Config._parse`. -/
def classifyLine (line : PyStr) : LineTag :=
  if _isComment line then .comment
  else if _isBlank line then .blank
  else if _isClass line then .classHeader
  else if _isSubClass line then .subclassHeader
  else if _isProperty line then .property
  else .unknown

/-- One dispatch step of `Config._parse` (unknown lines only produce a
warning). -/
def processLine (st : ConfigState) (line : PyStr) : Except PyError ConfigState :=
  if _isComment line || _isBlank line then .ok st
  else if _isClass line then .ok (_newClass st line)
  else if _isSubClass line then _newSubClass st line
  else if _isProperty line then _newProperty st line
  else .ok st

def processLines : ConfigState → List PyStr → Except PyError ConfigState
  | st, [] => .ok st
  | st, l :: ls =>
    match processLine st l with
    | .ok st' => processLines st' ls
    | .error e => .error e

/-- `Config._parse` applied to the loaded text (`_load` and its
`LoadFailure` on a missing file are file I/O, outside the model). -/
def parseConfig (text : String) : Except PyError ConfigState :=
  processLines initState (splitlinesC text.data)

/-- One serialized property line `key = value`. -/
def propLine (kv : PyStr × Value) : PyStr :=
  kv.1 ++ " = ".data ++ _value_to_string kv.2

/-- The `[class.sub]` blocks of `Config._save` for the sub-tables of one
section; `sub_data.items()` on a non-dictionary raises `AttributeError`
(the model returns the error in place of the partially written file). -/
def subBlocks (class_name : PyStr) : List (PyStr × Value) → Except PyError (List PyStr)
  | [] => .ok []
  | (sub_name, v) :: rest =>
    match v with
    | .dict sd =>
      match subBlocks class_name rest with
      | .ok ls =>
        .ok ((('[' :: class_name ++ '.' :: sub_name ++ [']']) ::
          sd.map propLine ++ [[]]) ++ ls)
      | .error e => .error e
    | _ => .error .attributeError

/-- The lines `Config._save` emits for one section: partition its items
into properties and sub-tables by membership in the recorded subclass set,
emit `[class]` plus the properties plus a blank line when there are
properties, then the sub-table blocks. -/
def sectionLines (subsS : List PyStr) (class_name : PyStr)
    (data : List (PyStr × Value)) : Except PyError (List PyStr) :=
  let props := data.filter (fun kv => !subsS.contains kv.1)
  let subs := data.filter (fun kv => subsS.contains kv.1)
  let headerPart : List PyStr :=
    if props.isEmpty then []
    else ('[' :: class_name ++ [']']) :: props.map propLine ++ [[]]
  match subBlocks class_name subs with
  | .ok ls => .ok (headerPart ++ ls)
  | .error e => .error e

def saveSections (scs : List (PyStr × List PyStr)) :
    List (PyStr × Value) → Except PyError (List PyStr)
  | [] => .ok []
  | (class_name, v) :: rest =>
    match v with
    | .dict data =>
      match sectionLines ((alistGet? scs class_name).getD []) class_name data with
      | .ok ls =>
        match saveSections scs rest with
        | .ok ls2 => .ok (ls ++ ls2)
        | .error e => .error e
      | .error e => .error e
    | _ => .error .attributeError

/-- `Config._save` as the list of lines written (`data.items()` on a
non-dictionary top-level value raises `AttributeError`). -/
def saveLines (st : ConfigState) : Except PyError (List PyStr) :=
  saveSections st.subclasses st.file_object

/-- `Config._save` as the full text written to the backing file (each line
is written with a trailing newline). -/
def saveText (st : ConfigState) : Except PyError String :=
  match saveLines st with
  | .ok ls => .ok (String.mk (ls.foldr (fun l acc => l ++ '\n' :: acc) []))
  | .error e => .error e

/-- The walking loop of `Config.get`: `return None` when the current node
is `None`, `d.get(part)` otherwise — which raises `AttributeError` when the
current node is a present non-dictionary. -/
def getWalk : Option Value → List PyStr → Except PyError (Option Value)
  | cur, [] => .ok cur
  | none, _ :: _ => .ok none
  | some (.dict d), p :: ps => getWalk (alistGet? d p) ps
  | some _, _ :: _ => .error .attributeError

/-- `Config.get`: `"*"` returns the whole Document, otherwise split the key
on dots and walk. -/
def Config.get (st : ConfigState) (key : String) : Except PyError (Option Value) :=
  if key = "*" then .ok (some (.dict st.file_object))
  else getWalk (some (.dict st.file_object)) (splitOnC '.' key.data)

/-- The walking loop of `Config.set`: on every part but the last, replace a
missing or non-dictionary entry with a fresh empty dictionary and descend;
assign the value at the last part. -/
def setWalk (d : List (PyStr × Value)) : List PyStr → Value → List (PyStr × Value)
  | [], _ => d
  | [p], v => alistAssign d p v
  | p :: p' :: rest, v =>
    let sub := match alistGet? d p with
      | some (.dict s) => s
      | _ => []
    alistAssign d p (.dict (setWalk sub (p' :: rest) v))

/-- `Config.set`: mutate the Document along the dotted key, then save; the
second component is the text `_save` writes through (or the error it
raises). -/
def Config.set (st : ConfigState) (key : String) (value : Value) :
    ConfigState × Except PyError String :=
  let st' := { st with
    file_object := setWalk st.file_object (splitOnC '.' key.data) value }
  (st', saveText st')

instance {ε α : Type} [DecidableEq ε] [DecidableEq α] : DecidableEq (Except ε α) :=
  fun x y =>
    match x, y with
    | .ok a, .ok b => decidable_of_iff (a = b) (by simp)
    | .error e, .error f => decidable_of_iff (e = f) (by simp)
    | .ok _, .error _ => isFalse (by simp)
    | .error _, .ok _ => isFalse (by simp)

/-- The state the §8 scenario input parses to (used in scratch checks). -/
def scenarioState : ConfigState :=
  ConfigState.mk
    [("unit".data, Value.dict [("x".data, Value.int 5),
      ("test".data, Value.dict [("y".data, Value.bool true)])])]
    (some ("unit".data, some "test".data, true))
    [("unit".data, ["test".data])]

example : parseConfig "[unit]\nx = 5\n[unit.test]\ny = true\n" = .ok scenarioState := by
  decide

example : Config.get scenarioState "unit.test.y" = .ok (some (.bool true)) := by decide

example : Config.get scenarioState "unit.x" = .ok (some (.int 5)) := by decide

example : saveText scenarioState = .ok "[unit]\nx = 5\n\n[unit.test]\ny = true\n\n" := by
  decide

/-- Whether a value is a Python `int`. -/
def Value.isInt : Value → Bool
  | .int _ => true
  | _ => false

/-- Whether a value is a Python `dict` (a mapping). -/
def Value.isDict : Value → Bool
  | .dict _ => true
  | _ => false

/-- The state parsed from `"[a]\nb = 5\n[a.b]"`: the sub-table index lists
`b` under `a` while `Document[a][b]` is the scalar `5`. -/
def clashState : ConfigState :=
  ConfigState.mk [("a".data, Value.dict [("b".data, Value.int 5)])]
    (some ("a".data, some "b".data, true))
    [("a".data, ["b".data])]

/-- A document whose `a.b` entry is a scalar (for probing `get` past a
non-mapping). -/
def scalarPathState : ConfigState :=
  ConfigState.mk [("a".data, Value.dict [("b".data, Value.int 5)])] none []

/-- The state parsed from `"[a]\nx = 1\n[b]\n[a]\ny = 2"`: re-entering `[a]`
does not move the current pointer, so `y` lands in `b`. -/
def reentryState : ConfigState :=
  ConfigState.mk
    [("a".data, Value.dict [("x".data, Value.int 1)]),
     ("b".data, Value.dict [("y".data, Value.int 2)])]
    (some ("b".data, none, false))
    [("a".data, []), ("b".data, [])]

/-- The existence half of the C5 invariant: every class listed in the
sub-table index is present in the Document as a dictionary that contains
every one of its recorded sub-table keys (the keys may map to scalars). -/
def SubInv (st : ConfigState) : Prop :=
  ∀ (scls : PyStr) (subs : List PyStr),
    alistGet? st.subclasses scls = some subs →
    ∃ d, alistGet? st.file_object scls = some (Value.dict d) ∧
      ∀ sub ∈ subs, (alistGet? d sub).isSome

/-- The numeric tower: Python `bool` and `int` coerce into the rational
value of a `float` for `==`. -/
def numVal? : Value → Option Rat
  | .bool b => some (mkRat (if b then 1 else 0) 1)
  | .int n => some (mkRat n 1)
  | .float q => some q
  | _ => none

mutual
/-- Python `==` on values: cross-type numeric equality on the
bool/int/float tower (`True == 1 == 1.0`), positional equality on lists,
extensional (insertion-order-insensitive) equality on dictionaries. -/
def pyEqV : Value → Value → Bool
  | .list xs, .list ys => pyEqL xs ys
  | .dict d, .dict e => d.length == e.length && pyEqEntries d e
  | .str s, .str t => s == t
  | v, w =>
    match numVal? v, numVal? w with
    | some a, some b => a == b
    | _, _ => false

def pyEqL : List Value → List Value → Bool
  | [], [] => true
  | x :: xs, y :: ys => pyEqV x y && pyEqL xs ys
  | _, _ => false

def pyEqEntries : List (PyStr × Value) → List (PyStr × Value) → Bool
  | [], _ => true
  | (k, v) :: rest, e =>
    (match alistGet? e k with
     | some w => pyEqV v w
     | none => false) && pyEqEntries rest e
end

/-- Python `==` on two dictionaries: same size, and every entry of the
first is present in the second with a `pyEqV`-equal value. -/
def pyEqD (d e : List (PyStr × Value)) : Bool :=
  d.length == e.length && pyEqEntries d e

/-- Key sets without duplicates (the shape every dictionary built by
`setdefault`/assignment has). -/
def keysUniqueB : List PyStr → Bool
  | [] => true
  | k :: rest => !rest.contains k && keysUniqueB rest

/-- A `Rat` whose denominator is a product of twos and fives — the exact
values Python float literals denote in the decimal model. -/
def decimalOkB (q : Rat) : Bool :=
  q.den == 2 ^ countFactor 2 q.den * 5 ^ countFactor 5 q.den

/-- A string value that survives the quote-wrapping round trip at
property-value position. -/
def strOkTopB (s : PyStr) : Bool :=
  !s.contains '\n' && s.head? != some '"' && s.getLast? != some '"'

/-- Scalar values the serializer can emit and the decoder maps back. -/
def scalarOkB : Value → Bool
  | .bool _ => true
  | .int _ => true
  | .float q => decimalOkB q
  | .str s => strOkTopB s
  | _ => false

/-- Scalars allowed inside list/inline-table literals: additionally
comma-free (the decoder splits naively on every comma). -/
def scalarCommaFreeB : Value → Bool
  | .str s => strOkTopB s && !s.contains ','
  | v => scalarOkB v

/-- A key of an inline-table literal that survives
`.strip().strip(quote chars)` on re-parse. -/
def dictKeyOkB (k : PyStr) : Bool :=
  !k.contains '\n' && !k.contains ',' && !k.contains '=' &&
  k.head? != some '"' && k.getLast? != some '"' &&
  k.head? != some '\'' && k.getLast? != some '\''

/-- Property values that round-trip: scalars, lists of comma-free scalars,
flat inline tables with clean keys. -/
def propValOkB : Value → Bool
  | .list xs => xs.all scalarCommaFreeB
  | .dict d =>
    d.all (fun kv => dictKeyOkB kv.1 && scalarCommaFreeB kv.2) &&
    keysUniqueB (d.map Prod.fst)
  | v => scalarOkB v

/-- A property key that re-parses from its own serialized line: already
stripped, no `=`/newline, and not starting like a comment or a header. -/
def propKeyOkB (k : PyStr) : Bool :=
  pstripC k == k && !k.contains '\n' && !k.contains '=' &&
  k.head? != some '#' && k.head? != some '['

/-- The contents of a sub-table: a dictionary of well-formed properties. -/
def subValOkB : Value → Bool
  | .dict sd =>
    keysUniqueB (sd.map Prod.fst) &&
    sd.all (fun kv => propKeyOkB kv.1 && propValOkB kv.2)
  | _ => false

/-- One entry of a section, judged against the recorded sub-table set. -/
def sectionEntryOkB (subsS : List PyStr) (kv : PyStr × Value) : Bool :=
  if subsS.contains kv.1 then
    !kv.1.contains '.' && !kv.1.contains '\n' && subValOkB kv.2
  else propKeyOkB kv.1 && propValOkB kv.2

/-- A section's data: nonempty, unique keys, each entry well formed. -/
def sectionDataOkB (subsS : List PyStr) (data : List (PyStr × Value)) : Bool :=
  !data.isEmpty && keysUniqueB (data.map Prod.fst) &&
  data.all (sectionEntryOkB subsS)

/-- One top-level Document entry. -/
def sectionOkB (scs : List (PyStr × List PyStr)) (kv : PyStr × Value) : Bool :=
  !kv.1.contains '.' && !kv.1.contains '\n' &&
  (match kv.2 with
   | .dict data => sectionDataOkB ((alistGet? scs kv.1).getD []) data
   | _ => false)

/-- Well-formedness of a parsed state under which serialize-then-reparse
reproduces the Document (up to Python `==`): unique section names, every
section a nonempty dictionary of round-trippable entries.  The
counterexamples to the original claim (empty sections, keys that re-parse
as headers or comments, nested literal values) are exactly what this
excludes. -/
def WFState (st : ConfigState) : Bool :=
  keysUniqueB (st.file_object.map Prod.fst) &&
  st.file_object.all (sectionOkB st.subclasses)

/-- The state parsed from the single line `[a]`. -/
def emptySectionState : ConfigState :=
  ConfigState.mk [("a".data, Value.dict [])] (some ("a".data, none, false))
    [("a".data, [])]

-- ===================================================================
-- Lemmas
-- ===================================================================

theorem splitOnC_not_mem {c : Char} {l : PyStr} (h : ¬ c ∈ l) :
    splitOnC c l = [l] := by
  induction l with
  | nil => rfl
  | cons x rest ih =>
    simp only [List.mem_cons, not_or] at h
    simp [splitOnC, Ne.symm h.1, ih h.2]

theorem splitOnC_ne_nil (c : Char) (l : PyStr) : splitOnC c l ≠ [] := by
  cases l with
  | nil => simp [splitOnC]
  | cons x rest =>
    simp only [splitOnC]
    split
    · simp
    · split <;> simp

theorem splitOnC_append_cons {c : Char} {a : PyStr} (h : ¬ c ∈ a) (b : PyStr) :
    splitOnC c (a ++ c :: b) = a :: splitOnC c b := by
  induction a with
  | nil => simp [splitOnC]
  | cons x rest ih =>
    simp only [List.mem_cons, not_or] at h
    have hrec := ih h.2
    simp only [List.cons_append, splitOnC, if_neg (Ne.symm h.1), List.append_eq]
    rw [hrec]

theorem splitOnC_two {c : Char} {a b : PyStr} (ha : ¬ c ∈ a) (hb : ¬ c ∈ b) :
    splitOnC c (a ++ c :: b) = [a, b] := by
  rw [splitOnC_append_cons ha, splitOnC_not_mem hb]

theorem pstripC_eq_nil_iff {s : PyStr} :
    pstripC s = [] ↔ ∀ x ∈ s, x.isWhitespace := by
  unfold pstripC
  rw [List.reverse_eq_nil_iff, List.dropWhile_eq_nil_iff]
  constructor
  · intro h x hx
    rw [← List.takeWhile_append_dropWhile Char.isWhitespace s] at hx
    rcases List.mem_append.mp hx with h1 | h2
    · exact List.mem_takeWhile_imp h1
    · exact h x (List.mem_reverse.mpr h2)
  · intro h x hx
    exact h x ((List.dropWhile_sublist _).subset (List.mem_reverse.mp hx))

theorem containsC_iff {l : PyStr} {c : Char} : l.contains c = true ↔ c ∈ l := by
  simp [List.contains, List.elem_iff]

theorem isBlank_false_of_head {line : PyStr} {c : Char} (h : line.head? = some c)
    (hc : ¬ c.isWhitespace) : _isBlank line = false := by
  unfold _isBlank
  rw [List.isEmpty_eq_false]
  intro hnil
  have hcin : c ∈ line := by
    cases line with
    | nil => simp at h
    | cons x rest =>
      simp only [List.head?_cons, Option.some.injEq] at h
      exact h ▸ List.mem_cons_self x rest
  exact hc (pstripC_eq_nil_iff.mp hnil c hcin)

theorem isComment_false_of_head {line : PyStr} {c : Char} (h : line.head? = some c)
    (hc : c ≠ '#') : _isComment line = false := by
  unfold _isComment
  simp [h, hc]

theorem innerC_wrap (a : PyStr) : innerC ('[' :: a ++ [']']) = a := by
  simp [innerC]

theorem header_head (a : PyStr) : ('[' :: a ++ [']']).head? = some '[' := rfl

theorem header_getLast (a : PyStr) : ('[' :: a ++ [']']).getLast? = some ']' := by
  have : '[' :: a ++ [']'] = ('[' :: a) ++ [']'] := by simp
  rw [this, List.getLast?_concat]

theorem header_contains_dot (a : PyStr) :
    (('[' :: a ++ [']']).contains '.') = a.contains '.' := by
  by_cases h : '.' ∈ a
  · rw [containsC_iff.mpr (by simp [h]), Eq.comm, containsC_iff.mpr h]
  · have h1 : ('.' : Char) ∉ '[' :: a ++ [']'] := by
      simp only [List.cons_append, List.mem_cons, List.mem_append, List.mem_singleton]
      rintro (h' | h' | h') <;> first | exact absurd h'.symm (by decide) | exact h h'
    rw [Bool.eq_iff_iff]
    constructor
    · intro hc; exact absurd (containsC_iff.mp hc) h1
    · intro hc; exact absurd (containsC_iff.mp hc) h

/-- Classification of a tight (no surrounding whitespace) dot-free header
line, regardless of any `=` inside. -/
theorem classify_class_header {line : PyStr} (h1 : line.head? = some '[')
    (h2 : line.getLast? = some ']') (h3 : line.contains '.' = false) :
    classifyLine line = .classHeader := by
  unfold classifyLine
  rw [isComment_false_of_head h1 (by decide),
      isBlank_false_of_head h1 (by decide)]
  have hcls : _isClass line = true := by
    unfold _isClass
    rw [h3]
    simp [h1, h2]
  simp [hcls]

theorem alistGet?_assign {α : Type} (d : List (PyStr × α)) (k : PyStr) (v : α)
    (k2 : PyStr) :
    alistGet? (alistAssign d k v) k2 = if k = k2 then some v else alistGet? d k2 := by
  induction d with
  | nil => by_cases h : k = k2 <;> simp [alistAssign, alistGet?, h]
  | cons kv rest ih =>
    obtain ⟨k', v'⟩ := kv
    by_cases h1 : k' = k
    · subst h1
      by_cases h2 : k' = k2 <;> simp [alistAssign, alistGet?, h2]
    · by_cases h2 : k' = k2
      · subst h2
        have : k ≠ k' := fun h => h1 h.symm
        simp [alistAssign, h1, alistGet?, this]
      · simp [alistAssign, h1, alistGet?, h2, ih]

theorem alistGet?_append_some {α : Type} {d : List (PyStr × α)} {k : PyStr}
    {v : α} (h : alistGet? d k = some v) (e : List (PyStr × α)) :
    alistGet? (d ++ e) k = some v := by
  induction d with
  | nil => simp [alistGet?] at h
  | cons kv rest ih =>
    obtain ⟨k', v'⟩ := kv
    by_cases h1 : k' = k
    · simp only [alistGet?, if_pos h1] at h
      simp [alistGet?, h1, h]
    · simp only [alistGet?, if_neg h1] at h
      simp [alistGet?, h1, ih h]

theorem alistGet?_append_none {α : Type} {d : List (PyStr × α)} {k : PyStr}
    (h : alistGet? d k = none) (e : List (PyStr × α)) :
    alistGet? (d ++ e) k = alistGet? e k := by
  induction d with
  | nil => simp
  | cons kv rest ih =>
    obtain ⟨k', v'⟩ := kv
    by_cases h1 : k' = k
    · simp [alistGet?, h1] at h
    · simp only [alistGet?, if_neg h1] at h
      simp [alistGet?, h1, ih h]

theorem alistAssign_absent {α : Type} {d : List (PyStr × α)} {k : PyStr}
    (h : alistGet? d k = none) (v : α) :
    alistAssign d k v = d ++ [(k, v)] := by
  induction d with
  | nil => rfl
  | cons kv rest ih =>
    obtain ⟨k', v'⟩ := kv
    by_cases h1 : k' = k
    · simp [alistGet?, h1] at h
    · simp only [alistGet?, if_neg h1] at h
      simp [alistAssign, h1, ih h]

theorem alistAssign_present_self {α : Type} {d : List (PyStr × α)} {k : PyStr}
    {v : α} (h : alistGet? d k = some v) :
    alistAssign d k v = d := by
  induction d with
  | nil => simp [alistGet?] at h
  | cons kv rest ih =>
    obtain ⟨k', v'⟩ := kv
    by_cases h1 : k' = k
    · simp only [alistGet?, if_pos h1] at h
      injection h with h2
      simp [alistAssign, h1, h2]
    · simp only [alistGet?, if_neg h1] at h
      simp [alistAssign, h1, ih h]

theorem alistSetdefault_present {α : Type} {d : List (PyStr × α)} {k : PyStr}
    (h : (alistGet? d k).isSome) (v : α) :
    alistSetdefault d k v = d := by
  simp [alistSetdefault, h]

theorem alistSetdefault_absent {α : Type} {d : List (PyStr × α)} {k : PyStr}
    (h : alistGet? d k = none) (v : α) :
    alistSetdefault d k v = d ++ [(k, v)] := by
  simp [alistSetdefault, h]

theorem getWalk_none : ∀ parts : List PyStr, getWalk none parts = .ok none
  | [] => rfl
  | _ :: _ => rfl

theorem getWalk_nondict {v : Value} (h : Value.isDict v = false) (p : PyStr)
    (parts : List PyStr) :
    getWalk (some v) (p :: parts) = .error .attributeError := by
  cases v <;> first | rfl | simp [Value.isDict] at h

theorem not_mem_of_contains_false {l : PyStr} {c : Char}
    (h : l.contains c = false) : ¬ c ∈ l := by
  intro hmem
  rw [containsC_iff.mpr hmem] at h
  cases h

theorem string_with_dot_ne_star {a b : PyStr} :
    String.mk (a ++ '.' :: b) ≠ "*" := by
  intro h
  have hdata : a ++ '.' :: b = "*".data := congrArg String.data h
  have hmem : ('.' : Char) ∈ "*".data :=
    hdata ▸ List.mem_append.mpr (Or.inr (List.mem_cons_self _ _))
  simp at hmem

-- ===================================================================
-- Claim theorems
-- ===================================================================

/-- C7: the literal `-5` decodes to a float of numeric value `-5.0` (not an
integer): the all-digit integer test rejects the sign and the float test
then succeeds. -/
theorem C7_minus5_decodes_to_float :
    _convert_value "-5".data = Value.float (mkRat (-5) 1) ∧
    (mkRat (-5) 1 : Rat) = -5 ∧
    Value.isInt (_convert_value "-5".data) = false ∧
    isdigitC (pstripC "-5".data) = false ∧
    pyFloat (pstripC "-5".data) = some (mkRat (-5) 1) :=
  ⟨by decide, by rw [Rat.mkRat_eq_div]; norm_num, by decide, by decide, by decide⟩

/-- C3 counterexample: a subclass header whose bracket-inner text has two
dots makes parsing raise `ValueError` (the two-name unpacking of the split
fails), rather than discarding the extra parts. -/
theorem C3_counterexample_multidot_header_raises :
    parseConfig "[a.b.c]" = .error .valueError := by decide

/-- C3 amended: a bracketed header line whose inner text splits into three
or more dot-separated parts is classified as a subclass header, and
processing it fails with `ValueError` from the two-name tuple unpacking in
`_newSubClass`; the extra parts are not discarded and parsing does not
continue.  (Construction-time `LoadFailure` is therefore not the only fault
parsing can raise.) -/
theorem C3_amended_multidot_header_is_value_error :
    ∀ (st : ConfigState) (inner : PyStr),
      3 ≤ (splitOnC '.' inner).length →
      processLine st ('[' :: inner ++ [']']) = .error .valueError := by
  intro st inner hlen
  have hdot : ('.' : Char) ∈ inner := by
    by_contra hnot
    rw [splitOnC_not_mem hnot] at hlen
    simp at hlen
  have hcont : ('[' :: inner ++ [']']).contains '.' = true := by
    rw [header_contains_dot]
    exact containsC_iff.mpr hdot
  unfold processLine
  rw [isComment_false_of_head (header_head inner) (by decide),
      isBlank_false_of_head (header_head inner) (by decide)]
  have hcls : _isClass ('[' :: inner ++ [']']) = false := by
    unfold _isClass
    rw [hcont]
    simp
  have hsub : _isSubClass ('[' :: inner ++ [']']) = true := by
    unfold _isSubClass
    rw [hcont, header_getLast inner]
    simp [header_head]
  rw [hcls, hsub]
  simp only [Bool.false_eq_true, if_false, if_true]
  unfold _newSubClass _getClassSubClass
  rw [innerC_wrap]
  rcases hp : splitOnC '.' inner with _ | ⟨a, _ | ⟨b, _ | ⟨c, rest⟩⟩⟩ <;>
    rw [hp] at hlen <;> simp at hlen
  rfl

/-- C3 witness. -/
theorem C3_amended_witness :
    3 ≤ (splitOnC '.' "a.b.c".data).length ∧
    processLine initState ('[' :: "a.b.c".data ++ [']']) = .error .valueError :=
  ⟨by decide, C3_amended_multidot_header_is_value_error initState "a.b.c".data (by decide)⟩

/-- C4 counterexample: after `[a] x=1 [b] [a] y=2`, the repeated `[a]`
header does not switch the builder back to section `a`: the following
property `y` is stored in `b`, and `a` has no key `y`. -/
theorem C4_counterexample_reentry_does_not_switch :
    parseConfig "[a]\nx = 1\n[b]\n[a]\ny = 2" = .ok reentryState ∧
    Config.get reentryState "a.y" = .ok none ∧
    Config.get reentryState "b.y" = .ok (some (.int 2)) := by
  refine ⟨by decide, by decide, by decide⟩

/-- C4 amended: a class header naming an already-seen section is a complete
no-op in `_newClass`: the existing data is preserved, but the current
pointer also stays wherever it was, so subsequent properties are inserted
into the previously current section, not the re-entered one. -/
theorem C4_amended_reentry_is_noop :
    ∀ (st : ConfigState) (line : PyStr),
      _isClass line = true →
      _classExists st (innerC line) = true →
      _newClass st line = st := by
  intro st line _ hex
  unfold _newClass
  simp [hex]

/-- C4 witness. -/
theorem C4_amended_witness :
    (_isClass "[a]".data = true ∧ _classExists reentryState (innerC "[a]".data) = true) ∧
    _newClass reentryState "[a]".data = reentryState :=
  ⟨⟨by decide, by decide⟩,
    C4_amended_reentry_is_noop reentryState "[a]".data (by decide) (by decide)⟩

/-- C9 counterexample: classification is not whitespace-insensitive — the
line `" [a]"` (a class header with a leading space) is classified
`unknown`, not `classHeader`, while the tight `"[a]"` is a class header. -/
theorem C9_counterexample_whitespace_header_unknown :
    classifyLine " [a]".data = LineTag.unknown ∧
    classifyLine "[a] ".data = LineTag.unknown ∧
    classifyLine "[a]".data = LineTag.classHeader := by
  refine ⟨by decide, by decide, by decide⟩

/-- C9 amended: the classifier assigns exactly one tag to every line (it is
a function through an if/else-if chain), and any line that itself starts
with `[` and ends with `]` with no dot anywhere is classified as a class
header — even if it contains `=` — but only without surrounding
whitespace: untrimmed header-shaped lines fall through to `unknown`/
`property`. -/
theorem C9_amended_tight_headers_classify :
    ∀ line : PyStr,
      line.head? = some '[' →
      line.getLast? = some ']' →
      line.contains '.' = false →
      classifyLine line = .classHeader :=
  fun _ h1 h2 h3 => classify_class_header h1 h2 h3

/-- C9 witness: `"[a=b]"` contains `=` yet is a class header. -/
theorem C9_amended_witness :
    ("[a=b]".data.head? = some '[' ∧ "[a=b]".data.getLast? = some ']' ∧
      "[a=b]".data.contains '.' = false ∧ _isProperty "[a=b]".data = true) ∧
    classifyLine "[a=b]".data = .classHeader :=
  ⟨⟨by decide, by decide, by decide, by decide⟩,
    C9_amended_tight_headers_classify "[a=b]".data (by decide) (by decide) (by decide)⟩

/-- C2 counterexample: `get` can raise.  On a Document where `a.b` is the
scalar `5`, `get "a.b.c"` walks onto the present non-mapping `5` with a
part remaining and calls `.get` on it — an `AttributeError` — instead of
returning an absence-marker. -/
theorem C2_counterexample_get_raises_on_scalar :
    Config.get scalarPathState "a.b.c" = .error .attributeError ∧
    alistGet? scalarPathState.file_object "a".data =
      some (Value.dict [("b".data, Value.int 5)]) := by
  refine ⟨by decide, by decide⟩

/-- C2 amended: `get` splits the key on `.` and walks part by part; when a
key is absent at a mapping node (the node becomes `None`), every further
step returns the absence-marker `None` and no exception is raised — but
when the walk lands on a *present non-mapping* value with parts remaining,
`get` raises `AttributeError` rather than returning an absence-marker. -/
theorem C2_amended_get_absence_and_fault :
    (∀ (st : ConfigState) (key : String), key ≠ "*" →
      Config.get st key =
        getWalk (some (.dict st.file_object)) (splitOnC '.' key.data)) ∧
    (∀ (d : List (PyStr × Value)) (k : PyStr) (parts : List PyStr),
      alistGet? d k = none →
      getWalk (some (.dict d)) (k :: parts) = .ok none) ∧
    (∀ (d : List (PyStr × Value)) (k p : PyStr) (parts : List PyStr) (v : Value),
      alistGet? d k = some v → Value.isDict v = false →
      getWalk (some (.dict d)) (k :: p :: parts) = .error .attributeError) := by
  refine ⟨?_, ?_, ?_⟩
  · intro st key hne
    simp [Config.get, hne]
  · intro d k parts h
    simp only [getWalk, h]
    exact getWalk_none parts
  · intro d k p parts v h hv
    simp only [getWalk, h]
    exact getWalk_nondict hv p parts

/-- C2 witness. -/
theorem C2_amended_witness :
    (("nope.nope" : String) ≠ "*" ∧
      alistGet? scalarPathState.file_object "nope".data = none ∧
      alistGet? [("b".data, Value.int 5)] "b".data = some (Value.int 5) ∧
      Value.isDict (Value.int 5) = false) ∧
    Config.get scalarPathState "nope.nope" =
      getWalk (some (.dict scalarPathState.file_object))
        (splitOnC '.' "nope.nope".data) ∧
    getWalk (some (.dict scalarPathState.file_object))
      ("nope".data :: ["nope".data]) = .ok none ∧
    getWalk (some (.dict [("b".data, Value.int 5)]))
      ("b".data :: "c".data :: []) = .error .attributeError :=
  ⟨⟨by decide, by decide, by decide, by decide⟩,
    C2_amended_get_absence_and_fault.1 scalarPathState "nope.nope" (by decide),
    C2_amended_get_absence_and_fault.2.1 scalarPathState.file_object "nope".data
      ["nope".data] (by decide),
    C2_amended_get_absence_and_fault.2.2 [("b".data, Value.int 5)] "b".data
      "c".data [] (Value.int 5) (by decide) (by decide)⟩

/-- C6: first write wins.  A property line whose (stripped) key already
exists in the active section — plain or subsection — leaves the state
completely unchanged (`setdefault` ignores the new value), and `get` on
`section.key` returns the stored first value. -/
theorem C6_first_write_wins :
    (∀ (st : ConfigState) (cls : PyStr) (d : List (PyStr × Value)) (w : Value)
        (line k0 v0 : PyStr),
      st.current_class = some (cls, none, false) →
      alistGet? st.file_object cls = some (.dict d) →
      splitFirstC '=' line = some (k0, v0) →
      alistGet? d (pstripC k0) = some w →
      _newProperty st line = .ok st) ∧
    (∀ (st : ConfigState) (cls sub : PyStr) (d sd : List (PyStr × Value))
        (w : Value) (line k0 v0 : PyStr),
      st.current_class = some (cls, some sub, true) →
      alistGet? st.file_object cls = some (.dict d) →
      alistGet? d sub = some (.dict sd) →
      splitFirstC '=' line = some (k0, v0) →
      alistGet? sd (pstripC k0) = some w →
      _newProperty st line = .ok st) ∧
    (∀ (st : ConfigState) (cls k : PyStr) (d : List (PyStr × Value)) (w : Value),
      alistGet? st.file_object cls = some (.dict d) →
      alistGet? d k = some w →
      cls.contains '.' = false → k.contains '.' = false →
      Config.get st (String.mk (cls ++ '.' :: k)) = .ok (some w)) := by
  refine ⟨?_, ?_, ?_⟩
  · intro st cls d w line k0 v0 hcur hfo hsplit hdk
    unfold _newProperty
    rw [hcur, hsplit]
    simp only [Bool.false_eq_true, if_false, hfo]
    rw [alistSetdefault_present (by simp [hdk]), alistAssign_present_self hfo,
        ← hcur]
  · intro st cls sub d sd w line k0 v0 hcur hfo hsub hsplit hdk
    unfold _newProperty
    rw [hcur, hsplit]
    simp only [if_true, hfo, hsub]
    rw [alistSetdefault_present (by simp [hdk]),
        alistAssign_present_self hsub, alistAssign_present_self hfo, ← hcur]
  · intro st cls k d w hfo hdk hcl hkl
    unfold Config.get
    rw [if_neg string_with_dot_ne_star]
    have hsplit : splitOnC '.' (String.mk (cls ++ '.' :: k)).data = [cls, k] :=
      splitOnC_two (not_mem_of_contains_false hcl) (not_mem_of_contains_false hkl)
    rw [hsplit]
    simp only [getWalk, hfo, hdk]

/-- C6 witness: under `[s]` with `k = 1` already stored, a duplicate
`k = 2` line is ignored in both section kinds, and `get "s.k"` is `1`. -/
theorem C6_first_write_wins_witness :
    _newProperty (ConfigState.mk [("s".data, Value.dict [("k".data, Value.int 1)])]
        (some ("s".data, none, false)) [("s".data, [])]) "k = 2".data =
      .ok (ConfigState.mk [("s".data, Value.dict [("k".data, Value.int 1)])]
        (some ("s".data, none, false)) [("s".data, [])]) ∧
    _newProperty (ConfigState.mk
        [("s".data, Value.dict [("t".data, Value.dict [("k".data, Value.int 1)])])]
        (some ("s".data, some "t".data, true)) [("s".data, ["t".data])]) "k = 2".data =
      .ok (ConfigState.mk
        [("s".data, Value.dict [("t".data, Value.dict [("k".data, Value.int 1)])])]
        (some ("s".data, some "t".data, true)) [("s".data, ["t".data])]) ∧
    Config.get (ConfigState.mk [("s".data, Value.dict [("k".data, Value.int 1)])]
        (some ("s".data, none, false)) [("s".data, [])])
      (String.mk ("s".data ++ '.' :: "k".data)) = .ok (some (Value.int 1)) :=
  ⟨C6_first_write_wins.1 _ "s".data [("k".data, Value.int 1)] (Value.int 1)
      "k = 2".data "k ".data " 2".data rfl (by decide) (by decide) (by decide),
    C6_first_write_wins.2.1 _ "s".data "t".data
      [("t".data, Value.dict [("k".data, Value.int 1)])] [("k".data, Value.int 1)]
      (Value.int 1) "k = 2".data "k ".data " 2".data rfl (by decide) (by decide)
      (by decide) (by decide),
    C6_first_write_wins.2.2 _ "s".data "k".data [("k".data, Value.int 1)]
      (Value.int 1) (by decide) (by decide) (by decide) (by decide)⟩

/-- `set` on a three-part dotted key whose head is absent: the shape of the
mutated Document, the subsequent `get`, and the write-through text (shared
by the `set` claims). -/
theorem set_fresh_triple :
    ∀ (st : ConfigState) (a b c : PyStr) (v : Value) (key : String),
      key.data = a ++ '.' :: b ++ '.' :: c →
      a.contains '.' = false → b.contains '.' = false → c.contains '.' = false →
      alistGet? st.file_object a = none →
      (Config.set st key v).1.file_object
          = st.file_object ++ [(a, Value.dict [(b, Value.dict [(c, v)])])] ∧
      Config.get (Config.set st key v).1 key = .ok (some v) ∧
      (Config.set st key v).2 = saveText (Config.set st key v).1 := by
  intro st a b c v key hkey ha hb hc hfo
  have hassoc : a ++ '.' :: b ++ '.' :: c = a ++ '.' :: (b ++ '.' :: c) := by simp
  have hsplit : splitOnC '.' key.data = [a, b, c] := by
    rw [hkey, hassoc, splitOnC_append_cons (not_mem_of_contains_false ha),
        splitOnC_two (not_mem_of_contains_false hb) (not_mem_of_contains_false hc)]
  have hwalk : setWalk st.file_object [a, b, c] v
      = st.file_object ++ [(a, Value.dict [(b, Value.dict [(c, v)])])] := by
    unfold setWalk
    rw [hfo]
    simp only []
    rw [alistAssign_absent hfo]
    rfl
  have hfo' : (Config.set st key v).1.file_object
      = st.file_object ++ [(a, Value.dict [(b, Value.dict [(c, v)])])] := by
    show setWalk st.file_object (splitOnC '.' key.data) v = _
    rw [hsplit, hwalk]
  refine ⟨hfo', ?_, rfl⟩
  have hkne : key ≠ "*" := by
    intro h
    rw [h] at hkey
    have hmem : ('.' : Char) ∈ "*".data := by
      rw [hkey, hassoc]
      exact List.mem_append.mpr (Or.inr (List.mem_cons_self _ _))
    simp at hmem
  unfold Config.get
  rw [if_neg hkne, hsplit, hfo']
  simp only [getWalk, alistGet?_append_none hfo]
  simp [getWalk, alistGet?]

/-- C8: `set "a.b.c" v` with `a` absent creates the intermediate mappings
`a` and `a.b`, stores `v` at `a.b.c` (so the new section is appended as
`{a: {b: {c: v}}}`), a subsequent `get "a.b.c"` returns `v`, and the text
handed to the backing store is exactly the serialization of the mutated
Document (write-through before `set` returns). -/
theorem C8_set_creates_intermediate_mappings :
    ∀ (st : ConfigState) (a b c : PyStr) (v : Value) (key : String),
      key.data = a ++ '.' :: b ++ '.' :: c →
      a.contains '.' = false → b.contains '.' = false → c.contains '.' = false →
      alistGet? st.file_object a = none →
      (Config.set st key v).1.file_object
          = st.file_object ++ [(a, Value.dict [(b, Value.dict [(c, v)])])] ∧
      Config.get (Config.set st key v).1 key = .ok (some v) ∧
      (Config.set st key v).2 = saveText (Config.set st key v).1 :=
  set_fresh_triple

/-- C8 witness. -/
theorem C8_set_witness :
    (("a.b.c" : String).data = "a".data ++ '.' :: "b".data ++ '.' :: "c".data ∧
      alistGet? initState.file_object "a".data = none) ∧
    (Config.set initState "a.b.c" (Value.int 5)).1.file_object
        = initState.file_object ++
          [("a".data, Value.dict [("b".data, Value.dict [("c".data, Value.int 5)])])] ∧
    Config.get (Config.set initState "a.b.c" (Value.int 5)).1 "a.b.c"
        = .ok (some (Value.int 5)) ∧
    (Config.set initState "a.b.c" (Value.int 5)).2
        = saveText (Config.set initState "a.b.c" (Value.int 5)).1 :=
  ⟨⟨by decide, by decide⟩,
    C8_set_creates_intermediate_mappings initState "a".data "b".data "c".data
      (Value.int 5) "a.b.c" (by decide) (by decide) (by decide) (by decide)
      (by decide)⟩

/-- C10: `set` never touches the sub-table index, and the intermediate
mappings it creates are therefore serialized as inline-table property
values under the top-level section header: for a fresh `a` (absent from
both the Document and the index), the section `a` created by
`set "a.b.c" v` is emitted as `[a]` followed by the inline property line
`b = { "c" = v }` and a blank line — no `[a.b]` header. -/
theorem C10_set_leaves_subtable_index_unchanged :
    (∀ (st : ConfigState) (key : String) (v : Value),
      (Config.set st key v).1.subclasses = st.subclasses) ∧
    (∀ (st : ConfigState) (a b c : PyStr) (v : Value) (key : String),
      key.data = a ++ '.' :: b ++ '.' :: c →
      a.contains '.' = false → b.contains '.' = false → c.contains '.' = false →
      alistGet? st.file_object a = none →
      alistGet? st.subclasses a = none →
      alistGet? (Config.set st key v).1.file_object a
          = some (Value.dict [(b, Value.dict [(c, v)])]) ∧
      sectionLines ((alistGet? (Config.set st key v).1.subclasses a).getD []) a
          [(b, Value.dict [(c, v)])]
        = .ok [('[' :: a ++ [']']),
               b ++ " = ".data ++ _value_to_string (Value.dict [(c, v)]),
               []]) := by
  constructor
  · intro st key v
    rfl
  · intro st a b c v key hkey ha hb hc hfo hsc
    have hfo' := (set_fresh_triple st a b c v key hkey ha hb hc hfo).1
    constructor
    · rw [hfo', alistGet?_append_none hfo]
      simp [alistGet?]
    · have hsc' : (alistGet? (Config.set st key v).1.subclasses a).getD [] = [] := by
        show (alistGet? st.subclasses a).getD [] = []
        rw [hsc]
        rfl
      rw [hsc']
      rfl

/-- C10 witness. -/
theorem C10_set_witness :
    (Config.set scenarioState "q" (Value.int 1)).1.subclasses
        = scenarioState.subclasses ∧
    (("a.b.c" : String).data = "a".data ++ '.' :: "b".data ++ '.' :: "c".data ∧
      alistGet? initState.file_object "a".data = none ∧
      alistGet? initState.subclasses "a".data = none) ∧
    alistGet? (Config.set initState "a.b.c" (Value.int 5)).1.file_object "a".data
        = some (Value.dict [("b".data, Value.dict [("c".data, Value.int 5)])]) ∧
    sectionLines
        ((alistGet? (Config.set initState "a.b.c" (Value.int 5)).1.subclasses
          "a".data).getD [])
        "a".data [("b".data, Value.dict [("c".data, Value.int 5)])]
      = .ok [('[' :: "a".data ++ [']']),
             "b".data ++ " = ".data ++
               _value_to_string (Value.dict [("c".data, Value.int 5)]),
             []] :=
  ⟨C10_set_leaves_subtable_index_unchanged.1 scenarioState "q" (Value.int 1),
    ⟨by decide, by decide, by decide⟩,
    C10_set_leaves_subtable_index_unchanged.2 initState "a".data "b".data
      "c".data (Value.int 5) "a.b.c" (by decide) (by decide) (by decide)
      (by decide) (by decide) (by decide)⟩

theorem alistGet?_setdefault_self_isSome {α : Type} (d : List (PyStr × α))
    (k : PyStr) (v : α) : (alistGet? (alistSetdefault d k v) k).isSome := by
  unfold alistSetdefault
  split
  · assumption
  · next h =>
    rw [alistGet?_append_none (by simpa using h)]
    simp [alistGet?]

theorem alistGet?_setdefault_of_isSome {α : Type} {d : List (PyStr × α)}
    {k2 : PyStr} (h : (alistGet? d k2).isSome) (k : PyStr) (v : α) :
    alistGet? (alistSetdefault d k v) k2 = alistGet? d k2 := by
  unfold alistSetdefault
  split
  · rfl
  · obtain ⟨w, hw⟩ := Option.isSome_iff_exists.mp h
    rw [alistGet?_append_some hw]
    exact hw.symm

theorem processLines_inv {P : ConfigState → Prop}
    (hstep : ∀ st l st', P st → processLine st l = .ok st' → P st') :
    ∀ (lines : List PyStr) (st st' : ConfigState),
      P st → processLines st lines = .ok st' → P st' := by
  intro lines
  induction lines with
  | nil =>
    intro st st' hP h
    simp only [processLines] at h
    injection h with h
    exact h ▸ hP
  | cons l ls ih =>
    intro st st' hP h
    simp only [processLines] at h
    rcases hpl : processLine st l with e | st1
    · rw [hpl] at h; cases h
    · rw [hpl] at h
      exact ih st1 st' (hstep st l st1 hP hpl) h

theorem subInv_newClass {st : ConfigState} (hInv : SubInv st) (line : PyStr) :
    SubInv (_newClass st line) := by
  unfold _newClass
  dsimp only
  split
  · exact hInv
  · next hex =>
    have habs : alistGet? st.file_object (innerC line) = none := by
      unfold _classExists at hex
      simpa using hex
    intro scls subs hsc
    simp only [alistGet?_assign] at hsc
    by_cases he : innerC line = scls
    · rw [if_pos he] at hsc
      injection hsc with hs
      subst hs
      refine ⟨[], ?_, by simp⟩
      rw [alistSetdefault_absent habs, ← he, alistGet?_append_none habs]
      simp [alistGet?]
    · rw [if_neg he] at hsc
      obtain ⟨d, hd, hsubs⟩ := hInv scls subs hsc
      refine ⟨d, ?_, hsubs⟩
      rw [alistSetdefault_absent habs]
      exact alistGet?_append_some hd _

theorem subInv_newSubClass {st st' : ConfigState} (hInv : SubInv st)
    {line : PyStr} (hp : _newSubClass st line = .ok st') : SubInv st' := by
  unfold _newSubClass at hp
  rcases hgc : _getClassSubClass line with _ | ⟨cls, _ | ⟨sub, _ | ⟨x, rest⟩⟩⟩ <;>
    rw [hgc] at hp
  · cases hp
  · cases hp
  · simp only [_classExists] at hp
    try dsimp only at hp
    by_cases hex : (alistGet? st.file_object cls).isSome
    · -- the class already exists: only the current pointer moves before the
      -- index/document updates
      rw [if_pos hex] at hp
      try dsimp only at hp
      rcases hsc : alistGet? st.subclasses cls with _ | subs <;>
        rw [hsc] at hp
      · cases hp
      · try dsimp only at hp
        rcases hfo : alistGet? st.file_object cls with _ | v <;>
          rw [hfo] at hp
        · cases hp
        · cases v <;> cases hp
          rename_i d
          intro scls subs2 hsc2
          simp only [alistGet?_assign] at hsc2
          by_cases hcs : cls = scls
          · rw [if_pos hcs] at hsc2
            injection hsc2 with hsubs2
            subst hsubs2
            refine ⟨alistSetdefault d sub (Value.dict []), ?_, ?_⟩
            · show alistGet? (alistAssign st.file_object cls _) scls = _
              rw [alistGet?_assign, if_pos hcs]
            · intro s hs
              obtain ⟨d0, hd0, hs0⟩ := hInv cls subs hsc
              rw [hfo] at hd0
              injection hd0 with hd0
              injection hd0 with hd0
              subst hd0
              unfold addToSet at hs
              split at hs
              · rw [alistGet?_setdefault_of_isSome (hs0 s hs)]
                exact hs0 s hs
              · rcases List.mem_append.mp hs with hs' | hs'
                · rw [alistGet?_setdefault_of_isSome (hs0 s hs')]
                  exact hs0 s hs'
                · have : s = sub := by simpa using hs'
                  subst this
                  exact alistGet?_setdefault_self_isSome d s (Value.dict [])
          · rw [if_neg hcs] at hsc2
            obtain ⟨d0, hd0, hs0⟩ := hInv scls subs2 hsc2
            refine ⟨d0, ?_, hs0⟩
            show alistGet? (alistAssign st.file_object cls _) scls = _
            rw [alistGet?_assign, if_neg hcs]
            exact hd0
    · -- fresh class: created with an empty dictionary and an empty set
      rw [if_neg hex] at hp
      have habs : alistGet? st.file_object cls = none :=
        Option.not_isSome_iff_eq_none.mp hex
      try dsimp only at hp
      rw [alistGet?_assign, if_pos rfl] at hp
      try dsimp only at hp
      rw [alistSetdefault_absent habs, alistGet?_append_none habs] at hp
      simp only [alistGet?, if_pos rfl] at hp
      injection hp with hst
      subst hst
      intro scls subs2 hsc2
      simp only [alistGet?_assign] at hsc2
      by_cases hcs : cls = scls
      · rw [if_pos hcs] at hsc2
        injection hsc2 with hsubs2
        subst hsubs2
        refine ⟨alistSetdefault [] sub (Value.dict []), ?_, ?_⟩
        · show alistGet? (alistAssign _ cls _) scls = _
          rw [alistGet?_assign, if_pos hcs]
        · intro s hs
          have hsub : s = sub := by
            unfold addToSet at hs
            simpa using hs
          subst hsub
          exact alistGet?_setdefault_self_isSome [] s (Value.dict [])
      · rw [if_neg hcs, if_neg hcs] at hsc2
        obtain ⟨d0, hd0, hs0⟩ := hInv scls subs2 hsc2
        refine ⟨d0, ?_, hs0⟩
        show alistGet? (alistAssign _ cls _) scls = _
        rw [alistGet?_assign, if_neg hcs]
        exact alistGet?_append_some hd0 _
  · cases hp

theorem subInv_newProperty {st st' : ConfigState} (hInv : SubInv st)
    {line : PyStr} (hp : _newProperty st line = .ok st') : SubInv st' := by
  unfold _newProperty at hp
  rcases hcur : st.current_class with _ | ⟨cls0, sub?, isSub⟩ <;> rw [hcur] at hp
  · cases hp
    exact hInv
  · rcases hsp : splitFirstC '=' line with _ | ⟨k0, v0⟩ <;> rw [hsp] at hp
    · cases hp
    · dsimp only at hp
      cases isSub
      · rw [if_neg (by simp)] at hp
        rcases hfo : alistGet? st.file_object cls0 with _ | v <;> rw [hfo] at hp
        · cases hp
        · cases v <;> cases hp
          rename_i d
          intro scls subs2 hsc2
          obtain ⟨d0, hd0, hs0⟩ := hInv scls subs2 hsc2
          by_cases hcs : cls0 = scls
          · subst hcs
            rw [hfo] at hd0
            injection hd0 with hd0
            injection hd0 with hd0
            subst hd0
            refine ⟨alistSetdefault d (pstripC k0) (_convert_value (pstripC v0)), ?_, ?_⟩
            · show alistGet? (alistAssign st.file_object cls0 _) cls0 = _
              rw [alistGet?_assign, if_pos rfl]
            · intro s hs
              rw [alistGet?_setdefault_of_isSome (hs0 s hs)]
              exact hs0 s hs
          · refine ⟨d0, ?_, hs0⟩
            show alistGet? (alistAssign st.file_object cls0 _) scls = _
            rw [alistGet?_assign, if_neg hcs]
            exact hd0
      · rw [if_pos rfl] at hp
        rcases sub? with _ | subcl
        · cases hp
        · dsimp only at hp
          rcases hfo : alistGet? st.file_object cls0 with _ | v <;> rw [hfo] at hp
          · cases hp
          · cases v <;> try cases hp
            rename_i d
            try dsimp only at hp
            rcases hsd : alistGet? d subcl with _ | w <;> rw [hsd] at hp
            · cases hp
            · cases w <;> cases hp
              rename_i sd
              intro scls subs2 hsc2
              obtain ⟨d0, hd0, hs0⟩ := hInv scls subs2 hsc2
              by_cases hcs : cls0 = scls
              · subst hcs
                rw [hfo] at hd0
                injection hd0 with hd0
                injection hd0 with hd0
                subst hd0
                refine ⟨alistAssign d subcl
                  (Value.dict (alistSetdefault sd (pstripC k0)
                    (_convert_value (pstripC v0)))), ?_, ?_⟩
                · show alistGet? (alistAssign st.file_object cls0 _) cls0 = _
                  rw [alistGet?_assign, if_pos rfl]
                · intro s hs
                  rw [alistGet?_assign]
                  by_cases hss : subcl = s
                  · rw [if_pos hss]
                    rfl
                  · rw [if_neg hss]
                    exact hs0 s hs
              · refine ⟨d0, ?_, hs0⟩
                show alistGet? (alistAssign st.file_object cls0 _) scls = _
                rw [alistGet?_assign, if_neg hcs]
                exact hd0

theorem subInv_step {st st' : ConfigState} {line : PyStr} (hInv : SubInv st)
    (hp : processLine st line = .ok st') : SubInv st' := by
  unfold processLine at hp
  split at hp
  · cases hp
    exact hInv
  · split at hp
    · cases hp
      exact subInv_newClass hInv line
    · split at hp
      · exact subInv_newSubClass hInv hp
      · split at hp
        · exact subInv_newProperty hInv hp
        · cases hp
          exact hInv

theorem subInv_initState : SubInv initState := by
  intro scls subs hsc
  simp [initState, alistGet?] at hsc

/-- C5 counterexample: the input `[a]`, `b = 5`, `[a.b]` parses without
fault, registers `b` in `SubtableIndex[a]`, yet leaves `Document[a][b]`
equal to the scalar `5` (the `setdefault` in `_newSubClass` keeps the
existing scalar) — so a registered sub-table key is not a Section. -/
theorem C5_counterexample_subtable_key_is_scalar :
    parseConfig "[a]\nb = 5\n[a.b]" = .ok clashState ∧
    alistGet? clashState.subclasses "a".data = some ["b".data] ∧
    alistGet? clashState.file_object "a".data
        = some (Value.dict [("b".data, Value.int 5)]) ∧
    Value.isDict (Value.int 5) = false := by
  refine ⟨by decide, by decide, by decide, by decide⟩

/-- C5 amended: after construction-time parsing, every key recorded in
`SubtableIndex[S]` does exist in `Document[S]` (which is itself a mapping),
but the entry need not be a Section — it can be a scalar when the key was
first written as a plain property (and under later `get`/`set` operations
even existence is not maintained, since `set` can overwrite `Document[S]`
itself). -/
theorem C5_amended_subtable_keys_exist_after_parse :
    ∀ (text : String) (st : ConfigState),
      parseConfig text = .ok st →
      ∀ (scls : PyStr) (subs : List PyStr),
        alistGet? st.subclasses scls = some subs →
        ∃ d, alistGet? st.file_object scls = some (Value.dict d) ∧
          ∀ sub ∈ subs, (alistGet? d sub).isSome := by
  intro text st hparse
  exact processLines_inv (fun st l st' hP hpl => subInv_step hP hpl)
    (splitlinesC text.data) initState st subInv_initState hparse

/-- C5 witness. -/
theorem C5_amended_witness :
    (parseConfig "[a]\nb = 5\n[a.b]" = .ok clashState ∧
      alistGet? clashState.subclasses "a".data = some ["b".data]) ∧
    ∃ d, alistGet? clashState.file_object "a".data = some (Value.dict d) ∧
      ∀ sub ∈ ["b".data], (alistGet? d sub).isSome :=
  ⟨⟨by decide, by decide⟩,
    C5_amended_subtable_keys_exist_after_parse "[a]\nb = 5\n[a.b]" clashState
      (by decide) "a".data ["b".data] (by decide)⟩

/-- C1 counterexample: parsing `[a]` yields the Document `{a: {}}`, its
serialization is the empty text (a section with no properties and no
sub-tables emits nothing), and re-parsing the empty text yields the empty
Document — not `==`-equal to `{a: {}}`. -/
theorem C1_counterexample_empty_section_dropped :
    parseConfig "[a]" = .ok emptySectionState ∧
    saveText emptySectionState = .ok "" ∧
    parseConfig "" = .ok initState ∧
    pyEqD initState.file_object emptySectionState.file_object = false := by
  refine ⟨by decide, by decide, by decide, by decide⟩

theorem toLower_eq_self_of_isDigit {c : Char} (h : c.isDigit = true) :
    c.toLower = c := by
  unfold Char.toLower
  have h2 : c.toNat ≤ 57 := by
    unfold Char.isDigit at h
    simp only [Bool.and_eq_true, decide_eq_true_eq] at h
    have h3 := h.2
    rw [UInt32.le_def, BitVec.le_def] at h3
    exact h3
  rw [if_neg (by omega)]

theorem not_isWhitespace_of_isDigit {c : Char} (h : c.isDigit = true) :
    c.isWhitespace = false := by
  have h1 : 48 ≤ c.toNat ∧ c.toNat ≤ 57 := by
    unfold Char.isDigit at h
    simp only [Bool.and_eq_true, decide_eq_true_eq] at h
    constructor
    · have h3 := h.1
      rw [ge_iff_le, UInt32.le_def, BitVec.le_def] at h3
      exact h3
    · have h3 := h.2
      rw [UInt32.le_def, BitVec.le_def] at h3
      exact h3
  unfold Char.isWhitespace
  have : c ≠ ' ' ∧ c ≠ '\t' ∧ c ≠ '\r' ∧ c ≠ '\n' := by
    refine ⟨?_, ?_, ?_, ?_⟩ <;> (intro he; subst he; exact absurd h (by decide))
  simp [this.1, this.2.1, this.2.2.1, this.2.2.2]

theorem ne_of_isDigit {c c' : Char} (h : c.isDigit = true)
    (h' : c'.isDigit = false) : c ≠ c' := by
  intro he
  subst he
  rw [h] at h'
  cases h'

theorem digitsValC_foldl_general (l : PyStr) (a : Nat) :
    l.foldl (fun acc c => 10 * acc + (c.toNat - 48)) a
      = a * 10 ^ l.length + digitsValC l := by
  induction l generalizing a with
  | nil => simp [digitsValC]
  | cons c t ih =>
    simp only [List.foldl_cons, digitsValC, List.length_cons]
    rw [ih (10 * a + (c.toNat - 48)), ih (10 * 0 + (c.toNat - 48))]
    ring

theorem digitsValC_append (a b : PyStr) :
    digitsValC (a ++ b) = digitsValC a * 10 ^ b.length + digitsValC b := by
  unfold digitsValC
  rw [List.foldl_append, digitsValC_foldl_general]
  rfl

theorem digitsValC_replicate_zero (z : Nat) (l : PyStr) :
    digitsValC (List.replicate z '0' ++ l) = digitsValC l := by
  rw [digitsValC_append]
  have hz : digitsValC (List.replicate z '0') = 0 := by
    induction z with
    | zero => rfl
    | succ n ih =>
      rw [List.replicate_succ]
      unfold digitsValC at ih ⊢
      simp only [List.foldl_cons]
      convert ih using 2
  rw [hz]
  ring

theorem char_ofNat_digit {n : Nat} (h : n < 10) :
    (Char.ofNat (48 + n)).toNat = 48 + n ∧ (Char.ofNat (48 + n)).isDigit = true := by
  interval_cases n <;> exact ⟨by decide, by decide⟩

theorem natDigitsAux_spec :
    ∀ (fuel n : Nat), n < fuel →
      digitsValC (natDigitsAux fuel n) = n ∧
      (natDigitsAux fuel n).all Char.isDigit = true ∧
      natDigitsAux fuel n ≠ [] := by
  intro fuel
  induction fuel with
  | zero => intro n h; omega
  | succ f ih =>
    intro n h
    by_cases h10 : n < 10
    · unfold natDigitsAux
      rw [if_pos h10]
      obtain ⟨hval, hdig⟩ := char_ofNat_digit h10
      refine ⟨?_, ?_, by simp⟩
      · unfold digitsValC
        simp only [List.foldl_cons, List.foldl_nil, hval]
        omega
      · simpa using hdig
    · unfold natDigitsAux
      rw [if_neg h10]
      have hdiv : n / 10 < f := by
        have h1 : 0 < n := by omega
        have h2 : n / 10 < n := Nat.div_lt_self h1 (by omega)
        omega
      obtain ⟨ihv, iha, ihne⟩ := ih (n / 10) hdiv
      obtain ⟨hval, hdig⟩ := char_ofNat_digit (Nat.mod_lt n (by omega) : n % 10 < 10)
      refine ⟨?_, ?_, by simp⟩
      · rw [digitsValC_append, ihv]
        unfold digitsValC
        simp only [List.foldl_cons, List.foldl_nil, List.length_cons,
          List.length_nil, hval]
        have := Nat.div_add_mod n 10
        simp only [pow_succ, pow_zero, one_mul]
        omega
      · rw [List.all_append, iha]
        simp [hdig]

theorem natDigits_val (n : Nat) : digitsValC (natDigits n) = n :=
  (natDigitsAux_spec (n + 1) n (by omega)).1

theorem natDigits_all_digits (n : Nat) : (natDigits n).all Char.isDigit = true :=
  (natDigitsAux_spec (n + 1) n (by omega)).2.1

theorem natDigits_ne_nil (n : Nat) : natDigits n ≠ [] :=
  (natDigitsAux_spec (n + 1) n (by omega)).2.2

theorem dropWhile_eq_self_of_head {p : Char → Bool} {s : PyStr}
    (h : ∀ c, s.head? = some c → p c = false) : s.dropWhile p = s := by
  cases s with
  | nil => rfl
  | cons x t =>
    rw [List.dropWhile_cons, h x rfl]
    simp

theorem dropWhile_append_all {p : Char → Bool} {a : PyStr}
    (h : ∀ c ∈ a, p c = true) (t : PyStr) :
    (a ++ t).dropWhile p = t.dropWhile p := by
  induction a with
  | nil => rfl
  | cons x r ih =>
    rw [List.cons_append, List.dropWhile_cons, h x (List.mem_cons_self x r),
      if_pos rfl]
    exact ih (fun c hc => h c (List.mem_cons_of_mem x hc))

theorem pstripC_eq_self {s : PyStr}
    (h1 : ∀ c, s.head? = some c → c.isWhitespace = false)
    (h2 : ∀ c, s.getLast? = some c → c.isWhitespace = false) :
    pstripC s = s := by
  unfold pstripC
  rw [dropWhile_eq_self_of_head h1, dropWhile_eq_self_of_head (fun c hc =>
    h2 c (by rwa [List.head?_reverse] at hc)), List.reverse_reverse]

theorem pstripC_sandwich {a b s : PyStr}
    (ha : ∀ c ∈ a, c.isWhitespace = true) (hb : ∀ c ∈ b, c.isWhitespace = true)
    (h1 : ∀ c, s.head? = some c → c.isWhitespace = false)
    (h2 : ∀ c, s.getLast? = some c → c.isWhitespace = false) :
    pstripC (a ++ (s ++ b)) = s := by
  unfold pstripC
  rw [dropWhile_append_all ha]
  cases s with
  | nil =>
    simp only [List.nil_append]
    have hbnil : b.dropWhile Char.isWhitespace = [] :=
      List.dropWhile_eq_nil_iff.mpr (fun x hx => hb x hx)
    rw [hbnil]
    rfl
  | cons x t =>
    have hx : Char.isWhitespace x = false := h1 x rfl
    rw [show ((x :: t) ++ b).dropWhile Char.isWhitespace = (x :: t) ++ b by
      rw [List.cons_append, List.dropWhile_cons, hx]; simp]
    rw [List.reverse_append, dropWhile_append_all
      (fun c hc => hb c (List.mem_reverse.mp hc)),
      dropWhile_eq_self_of_head (fun c hc =>
        h2 c (by rwa [List.head?_reverse] at hc)), List.reverse_reverse]

theorem stripAllC_neutral {c : Char} {s : PyStr}
    (h1 : s.head? ≠ some c) (h2 : s.getLast? ≠ some c) :
    stripAllC c s = s := by
  unfold stripAllC
  have hh : ∀ x, s.head? = some x → decide (x = c) = false := by
    intro x hx
    simp only [decide_eq_false_iff_not]
    intro he
    exact h1 (he ▸ hx)
  have hl : ∀ x, s.reverse.head? = some x → decide (x = c) = false := by
    intro x hx
    rw [List.head?_reverse] at hx
    simp only [decide_eq_false_iff_not]
    intro he
    exact h2 (he ▸ hx)
  rw [dropWhile_eq_self_of_head hh, dropWhile_eq_self_of_head hl,
    List.reverse_reverse]

theorem stripAllC_quoted {c : Char} {k : PyStr}
    (h1 : k.head? ≠ some c) (h2 : k.getLast? ≠ some c) :
    stripAllC c (c :: (k ++ [c])) = k := by
  unfold stripAllC
  rw [List.dropWhile_cons, if_pos (by simp)]
  cases k with
  | nil => simp
  | cons x t =>
    have hx : x ≠ c := by
      intro he
      exact h1 (by simp [he])
    rw [show ((x :: t) ++ [c]).dropWhile (fun y => decide (y = c)) = (x :: t) ++ [c] by
      rw [List.cons_append, List.dropWhile_cons, if_neg (by simp [hx])]]
    rw [List.reverse_append, List.reverse_singleton, List.singleton_append,
      List.dropWhile_cons, if_pos (by simp)]
    rw [dropWhile_eq_self_of_head (fun y hy => by
      rw [List.head?_reverse] at hy
      simp only [decide_eq_false_iff_not]
      intro he
      exact h2 (he ▸ hy)), List.reverse_reverse]

theorem takeWhile_append_stop {p : Char → Bool} {a : PyStr} {c : Char}
    (ha : ∀ x ∈ a, p x = true) (hc : p c = false) (b : PyStr) :
    (a ++ c :: b).takeWhile p = a ∧ (a ++ c :: b).dropWhile p = c :: b := by
  induction a with
  | nil => simp [List.takeWhile_cons, List.dropWhile_cons, hc]
  | cons x r ih =>
    have hx := ha x (List.mem_cons_self x r)
    obtain ⟨iht, ihd⟩ := ih (fun y hy => ha y (List.mem_cons_of_mem x hy))
    constructor
    · rw [List.cons_append, List.takeWhile_cons, hx, if_pos rfl, iht]
    · rw [List.cons_append, List.dropWhile_cons, hx, if_pos rfl, ihd]

theorem takeWhile_all_self {p : Char → Bool} {a : PyStr}
    (ha : ∀ x ∈ a, p x = true) :
    a.takeWhile p = a ∧ a.dropWhile p = [] := by
  induction a with
  | nil => simp
  | cons x r ih =>
    have hx := ha x (List.mem_cons_self x r)
    obtain ⟨iht, ihd⟩ := ih (fun y hy => ha y (List.mem_cons_of_mem x hy))
    constructor
    · rw [List.takeWhile_cons, hx, if_pos rfl, iht]
    · rw [List.dropWhile_cons, hx, if_pos rfl, ihd]

theorem splitFirstC_append {c : Char} {a : PyStr} (ha : ¬ c ∈ a) (b : PyStr) :
    splitFirstC c (a ++ c :: b) = some (a, b) := by
  induction a with
  | nil => simp [splitFirstC]
  | cons x r ih =>
    simp only [List.mem_cons, not_or] at ha
    simp only [List.cons_append, splitFirstC, if_neg (Ne.symm ha.1),
      List.append_eq, ih ha.2]

theorem all_isDigit_facts {s : PyStr} (hdig : s.all Char.isDigit = true) :
    (∀ c, s.head? = some c → c.isDigit = true) ∧
    (∀ c, s.getLast? = some c → c.isDigit = true) := by
  rw [List.all_eq_true] at hdig
  exact ⟨fun c hc => hdig c (List.mem_of_mem_head? (hc ▸ rfl)),
    fun c hc => hdig c (List.mem_of_getLast?_eq_some hc)⟩

theorem not_bool_token_of_head {s : PyStr} {c : Char} (h : s.head? = some c)
    (ht : c.toLower ≠ 't') (hf : c.toLower ≠ 'f') :
    ¬ (lowerC s = "true".data ∨ lowerC s = "false".data) := by
  cases s with
  | nil => simp at h
  | cons x t =>
    simp only [List.head?_cons, Option.some.injEq] at h
    subst h
    rintro (he | he) <;>
      (injection he with h1 _; exact absurd h1 (by assumption))

theorem isdigitC_false_of_head {s : PyStr} {c : Char} (h : s.head? = some c)
    (hc : c.isDigit = false) : isdigitC s = false := by
  cases s with
  | nil => rfl
  | cons x t =>
    simp only [List.head?_cons, Option.some.injEq] at h
    subst h
    unfold isdigitC
    simp [List.all_cons, hc]

theorem isdigitC_false_of_mem {s : PyStr} {c : Char} (h : c ∈ s)
    (hc : c.isDigit = false) : isdigitC s = false := by
  unfold isdigitC
  have : s.all Char.isDigit = false := by
    rw [List.all_eq_false]
    exact ⟨c, h, by simp [hc]⟩
  simp [this]

theorem pySign_no_sign {s : PyStr} {c : Char} (h : s.head? = some c)
    (hp : c ≠ '+') (hm : c ≠ '-') : pySign s = (false, s) := by
  unfold pySign
  rw [if_neg (by rw [h]; simp [hp]), if_neg (by rw [h]; simp [hm])]

theorem pyFloat_none_of_head {s : PyStr} {c : Char} (h : s.head? = some c)
    (hd : c.isDigit = false) (hp : c ≠ '+') (hm : c ≠ '-') (hdot : c ≠ '.') :
    pyFloat s = none := by
  cases s with
  | nil => simp at h
  | cons x t =>
    simp only [List.head?_cons, Option.some.injEq] at h
    subst h
    unfold pyFloat
    rw [pySign_no_sign List.head?_cons hp hm]
    simp [List.takeWhile_cons, List.dropWhile_cons, hd, hdot]

theorem convert_token_true (fuel : Nat) :
    convertValueF (fuel + 1) "true".data = .bool true := rfl

theorem convert_token_false (fuel : Nat) :
    convertValueF (fuel + 1) "false".data = .bool false := rfl

theorem convert_digits {fuel : Nat} {s : PyStr} (hne : s ≠ [])
    (hdig : s.all Char.isDigit = true) :
    convertValueF (fuel + 1) s = .int (digitsValC s) := by
  obtain ⟨hhead, hlast⟩ := all_isDigit_facts hdig
  have hstrip : pstripC s = s :=
    pstripC_eq_self (fun c hc => not_isWhitespace_of_isDigit (hhead c hc))
      (fun c hc => not_isWhitespace_of_isDigit (hlast c hc))
  cases s with
  | nil => exact absurd rfl hne
  | cons x t =>
    have hx : x.isDigit = true := hhead x rfl
    have hxl : x.toLower = x := toLower_eq_self_of_isDigit hx
    have hdigC : isdigitC (x :: t) = true := by
      unfold isdigitC
      simp [hdig]
    unfold convertValueF
    rw [hstrip,
      if_neg (not_bool_token_of_head List.head?_cons
        (by rw [hxl]; exact ne_of_isDigit hx (by decide))
        (by rw [hxl]; exact ne_of_isDigit hx (by decide))),
      hdigC, if_pos rfl]

theorem quoted_getLast (s : PyStr) (c : Char) :
    (c :: (s ++ [c])).getLast? = some c := by
  rw [show c :: (s ++ [c]) = (c :: s) ++ [c] by simp, List.getLast?_concat]

theorem convert_quoted {fuel : Nat} {s : PyStr}
    (h1 : s.head? ≠ some '"') (h2 : s.getLast? ≠ some '"') :
    convertValueF (fuel + 1) ('"' :: (s ++ ['"'])) = .str s := by
  have hstrip : pstripC ('"' :: (s ++ ['"'])) = '"' :: (s ++ ['"']) := by
    apply pstripC_eq_self
    · intro c hc
      simp only [List.head?_cons, Option.some.injEq] at hc
      subst hc
      decide
    · intro c hc
      rw [quoted_getLast] at hc
      injection hc with hc
      subst hc
      decide
  unfold convertValueF
  rw [hstrip,
    if_neg (not_bool_token_of_head List.head?_cons (by decide) (by decide)),
    isdigitC_false_of_head List.head?_cons (by decide),
    pyFloat_none_of_head List.head?_cons (by decide) (by decide) (by decide)
      (by decide)]
  simp only [Bool.false_eq_true, if_false]
  rw [if_neg (fun hand => by
    have := hand.1
    rw [List.head?_cons] at this
    injection this with this
    exact absurd this (by decide))]
  rw [if_neg (fun hand => by
    have := hand.1
    rw [List.head?_cons] at this
    injection this with this
    exact absurd this (by decide))]
  rw [stripAllC_quoted h1 h2]

theorem pySign_minus (t : PyStr) : pySign ('-' :: t) = (true, t) := by
  unfold pySign
  rw [if_neg (by simp), if_pos (by simp)]
  rfl

theorem pyFloat_neg_digits {ds : PyStr} (hne : ds ≠ [])
    (hdig : ds.all Char.isDigit = true) :
    pyFloat ('-' :: ds) = some (mkRat (-(digitsValC ds : Int)) 1) := by
  unfold pyFloat
  rw [pySign_minus]
  obtain ⟨htw, hdw⟩ := takeWhile_all_self (fun x hx =>
    (List.all_eq_true.mp hdig) x hx)
  dsimp only
  rw [htw, hdw]
  rw [if_neg ((by simp) : ¬(([] : PyStr).head? = some '.'))]
  dsimp only
  rw [if_neg (by
    simp only [Bool.and_eq_true, List.isEmpty_eq_true]
    rintro ⟨h, -⟩
    exact hne h)]
  norm_num [digitsValC]

theorem convert_intStr {fuel : Nat} (n : Int) :
    pyEqV (convertValueF (fuel + 1) (intStr n)) (.int n) = true := by
  by_cases hn : n < 0
  · unfold intStr
    rw [if_pos hn]
    have hne := natDigits_ne_nil n.natAbs
    have hdig := natDigits_all_digits n.natAbs
    obtain ⟨hhead, hlast⟩ := all_isDigit_facts hdig
    have hstrip : pstripC ('-' :: natDigits n.natAbs) = '-' :: natDigits n.natAbs := by
      apply pstripC_eq_self
      · intro c hc
        simp only [List.head?_cons, Option.some.injEq] at hc
        subst hc
        decide
      · intro c hc
        cases hds : natDigits n.natAbs with
        | nil => exact absurd hds hne
        | cons d t =>
          rw [hds, List.getLast?_cons_cons] at hc
          exact not_isWhitespace_of_isDigit (hlast c (by rw [hds]; exact hc))
    unfold convertValueF
    rw [hstrip,
      if_neg (not_bool_token_of_head List.head?_cons (by decide) (by decide)),
      isdigitC_false_of_head List.head?_cons (by decide),
      pyFloat_neg_digits hne hdig]
    simp only [Bool.false_eq_true, if_false]
    rw [natDigits_val]
    simp only [pyEqV, numVal?]
    rw [beq_iff_eq]
    congr 1
    omega
  · unfold intStr
    rw [if_neg hn]
    rw [convert_digits (natDigits_ne_nil _) (natDigits_all_digits _),
      natDigits_val]
    simp only [pyEqV, numVal?]
    rw [beq_iff_eq]
    congr 1
    omega

theorem pyFloat_parse_shape (neg : Bool) (ip fp : PyStr) (hip : ip ≠ [])
    (hipd : ip.all Char.isDigit = true) (hfpd : fp.all Char.isDigit = true) :
    pyFloat ((if neg then ['-'] else []) ++ (ip ++ '.' :: fp)) =
      some (mkRat
        (if neg then
          -((digitsValC ip * 10 ^ fp.length + digitsValC fp : Nat) : Int)
        else ((digitsValC ip * 10 ^ fp.length + digitsValC fp : Nat) : Int))
        (10 ^ fp.length)) := by
  obtain ⟨i0, ipt, hi⟩ := List.exists_cons_of_ne_nil hip
  have hi0 : i0.isDigit = true := by
    rw [List.all_eq_true] at hipd
    exact hipd i0 (by rw [hi]; exact List.mem_cons_self i0 ipt)
  have hsign : pySign ((if neg then ['-'] else []) ++ (ip ++ '.' :: fp)) =
      (neg, ip ++ '.' :: fp) := by
    cases neg
    · simp only [if_neg (Bool.false_ne_true), List.nil_append]
      apply pySign_no_sign (c := i0)
      · rw [hi]; rfl
      · exact ne_of_isDigit hi0 (by decide)
      · exact ne_of_isDigit hi0 (by decide)
    · simp only [if_pos rfl, List.singleton_append]
      exact pySign_minus _
  unfold pyFloat
  rw [hsign]
  dsimp only
  obtain ⟨htw, hdw⟩ := takeWhile_append_stop (c := '.')
    (List.all_eq_true.mp hipd) (by decide) fp
  rw [htw, hdw]
  rw [if_pos (List.head?_cons)]
  obtain ⟨htw2, hdw2⟩ := takeWhile_all_self (List.all_eq_true.mp hfpd)
  simp only [List.tail_cons]
  rw [htw2, hdw2]
  rw [if_neg (by
    simp only [Bool.and_eq_true, List.isEmpty_eq_true]
    rintro ⟨h, -⟩
    exact hip h)]

theorem digitsValC_replicate (z : Nat) :
    digitsValC (List.replicate z '0') = 0 := by
  have := digitsValC_replicate_zero z []
  simpa [digitsValC] using this

theorem stripTrailingZeros_decomp (s : PyStr) :
    s = stripTrailingZeros s ++
      List.replicate (s.reverse.takeWhile (fun c => decide (c = '0'))).length '0' := by
  unfold stripTrailingZeros
  conv_lhs => rw [← s.reverse_reverse]
  conv_lhs =>
    rw [← List.takeWhile_append_dropWhile (fun c => decide (c = '0')) s.reverse]
  rw [List.reverse_append]
  congr 1
  have hmem : ∀ c ∈ (s.reverse.takeWhile (fun c => decide (c = '0'))).reverse,
      c = '0' := by
    intro c hc
    have := List.mem_takeWhile_imp (List.mem_reverse.mp hc)
    simpa using this
  have := List.eq_replicate_of_mem hmem
  rwa [List.length_reverse] at this

theorem stripTrailingZeros_sub (s : PyStr) :
    ∀ c ∈ stripTrailingZeros s, c ∈ s := by
  intro c hc
  unfold stripTrailingZeros at hc
  exact (List.dropWhile_sublist _).subset (List.mem_reverse.mp hc) |> List.mem_reverse.mp

theorem floatRepr_decomp {q : Rat} (hq : decimalOkB q = true) :
    ∃ ip fp, floatRepr q = (if q.num < 0 then ['-'] else []) ++ (ip ++ '.' :: fp) ∧
      ip ≠ [] ∧ ip.all Char.isDigit = true ∧
      fp ≠ [] ∧ fp.all Char.isDigit = true ∧
      (digitsValC ip * 10 ^ fp.length + digitsValC fp) * q.den
        = q.num.natAbs * 10 ^ fp.length := by
  rw [decimalOkB, beq_iff_eq] at hq
  unfold floatRepr
  dsimp only
  set k := countFactor 2 q.den + countFactor 5 q.den with hk
  set m := q.num.natAbs * 10 ^ k / q.den with hmdef
  set ds := natDigits m with hds
  set ds' := List.replicate (k + 1 - ds.length) '0' ++ ds with hds'
  set ip := ds'.take (ds'.length - k) with hip
  set fpRaw := ds'.drop (ds'.length - k) with hfpRaw
  set fp0 := stripTrailingZeros fpRaw with hfp0
  have hdl : 1 ≤ ds.length := List.length_pos.mpr (by rw [hds]; exact natDigits_ne_nil m)
  have hlen' : ds'.length = (k + 1 - ds.length) + ds.length := by
    rw [hds']
    simp
  have hlk : k + 1 ≤ ds'.length := by omega
  have hiplen : ip.length = ds'.length - k := by
    rw [hip, List.length_take]
    omega
  have hipne : ip ≠ [] := by
    intro h
    have := congrArg List.length h
    rw [hiplen] at this
    simp at this
    omega
  have hfplen : fpRaw.length = k := by
    rw [hfpRaw, List.length_drop]
    omega
  have hsplit : ip ++ fpRaw = ds' := by
    rw [hip, hfpRaw, List.take_append_drop]
  have hds'dig : ds'.all Char.isDigit = true := by
    rw [hds', List.all_append, Bool.and_eq_true]
    refine ⟨?_, by rw [hds]; exact natDigits_all_digits m⟩
    rw [List.all_eq_true]
    intro c hc
    rw [List.mem_replicate] at hc
    rw [hc.2]
    decide
  have hipdig : ip.all Char.isDigit = true := by
    rw [List.all_eq_true]
    intro c hc
    exact List.all_eq_true.mp hds'dig c
      ((List.take_sublist _ _).subset (hip ▸ hc))
  have hfpdig : fpRaw.all Char.isDigit = true := by
    rw [List.all_eq_true]
    intro c hc
    exact List.all_eq_true.mp hds'dig c
      ((List.drop_sublist _ _).subset (hfpRaw ▸ hc))
  have hdv' : digitsValC ds' = m := by
    rw [hds', digitsValC_replicate_zero, hds, natDigits_val]
  have hdvsplit : digitsValC ip * 10 ^ k + digitsValC fpRaw = m := by
    have happ := digitsValC_append ip fpRaw
    rw [hsplit, hdv', hfplen] at happ
    exact happ.symm
  have hstripd := stripTrailingZeros_decomp fpRaw
  rw [← hfp0] at hstripd
  set z := (fpRaw.reverse.takeWhile (fun c => decide (c = '0'))).length with hz0
  have hzlen : fp0.length + z = k := by
    have := congrArg List.length hstripd
    simp only [List.length_append, List.length_replicate] at this
    omega
  have hdvRaw : digitsValC fpRaw = digitsValC fp0 * 10 ^ z := by
    conv_lhs => rw [hstripd]
    rw [digitsValC_append, digitsValC_replicate, List.length_replicate]
    ring
  have hdvd : q.den ∣ 10 ^ k := by
    have h10 : (10 : Nat) ^ k = 2 ^ k * 5 ^ k := by
      rw [← Nat.mul_pow]
    rw [h10, hq]
    exact Nat.mul_dvd_mul (pow_dvd_pow 2 (by omega)) (pow_dvd_pow 5 (by omega))
  have hmden : m * q.den = q.num.natAbs * 10 ^ k := by
    rw [hmdef]
    exact Nat.div_mul_cancel (hdvd.mul_left _)
  refine ⟨ip, if fp0.isEmpty then ['0'] else fp0, by simp, hipne, hipdig, ?_, ?_, ?_⟩
  · split
    · simp
    · next hfe => simpa using hfe
  · split
    · decide
    · rw [List.all_eq_true]
      intro c hc
      exact List.all_eq_true.mp hfpdig c (stripTrailingZeros_sub fpRaw c (hfp0 ▸ hc))
  · by_cases hfe : fp0.isEmpty
    · rw [if_pos hfe]
      have hfp0nil : fp0 = [] := by simpa using hfe
      have hzk : z = k := by
        rw [hfp0nil] at hzlen
        simpa using hzlen
      have hraw0 : digitsValC fpRaw = 0 := by
        rw [hdvRaw, hfp0nil]
        simp [digitsValC]
      have hm2 : digitsValC ip * 10 ^ k = m := by
        rw [hraw0] at hdvsplit
        simpa using hdvsplit
      have hcancel : digitsValC ip * q.den = q.num.natAbs := by
        apply Nat.eq_of_mul_eq_mul_right (show 0 < 10 ^ k by positivity)
        calc digitsValC ip * q.den * 10 ^ k
            = digitsValC ip * 10 ^ k * q.den := by ring
          _ = m * q.den := by rw [hm2]
          _ = q.num.natAbs * 10 ^ k := hmden
      have : digitsValC ['0'] = 0 := by decide
      rw [this]
      simp only [List.length_singleton, pow_one, add_zero]
      calc (digitsValC ip * 10) * q.den = (digitsValC ip * q.den) * 10 := by ring
        _ = q.num.natAbs * 10 := by rw [hcancel]
    · rw [if_neg hfe]
      apply Nat.eq_of_mul_eq_mul_right (show 0 < 10 ^ z by positivity)
      calc (digitsValC ip * 10 ^ fp0.length + digitsValC fp0) * q.den * 10 ^ z
          = (digitsValC ip * (10 ^ fp0.length * 10 ^ z)
              + digitsValC fp0 * 10 ^ z) * q.den := by ring
        _ = (digitsValC ip * 10 ^ k + digitsValC fpRaw) * q.den := by
            rw [← pow_add, hzlen, hdvRaw]
        _ = m * q.den := by rw [hdvsplit]
        _ = q.num.natAbs * 10 ^ k := hmden
        _ = q.num.natAbs * 10 ^ fp0.length * 10 ^ z := by
            rw [← hzlen, pow_add]
            ring

theorem pyFloat_floatRepr {q : Rat} (hq : decimalOkB q = true) :
    pyFloat (floatRepr q) = some q := by
  obtain ⟨ip, fp, hrepr, hipne, hipd, hfpne, hfpd, harith⟩ := floatRepr_decomp hq
  have hne : (if (decide (q.num < 0)) = true then ['-'] else ([] : PyStr))
      = (if q.num < 0 then ['-'] else []) := by
    by_cases h : q.num < 0 <;> simp [h]
  rw [hrepr, ← hne, pyFloat_parse_shape (decide (q.num < 0)) ip fp hipne hipd hfpd]
  congr 1
  have hZ : ((digitsValC ip * 10 ^ fp.length + digitsValC fp : Nat) : Int) * q.den
      = (q.num.natAbs : Int) * ((10 ^ fp.length : Nat) : Int) := by exact_mod_cast harith
  conv_rhs => rw [← Rat.mkRat_self q]
  rw [Rat.mkRat_eq_iff (by positivity) q.den_nz]
  by_cases h : q.num < 0
  · rw [if_pos (by simpa using h)]
    have hnum : q.num = -((q.num.natAbs : Int)) := by omega
    rw [hnum, neg_mul, neg_mul]
    exact congrArg Neg.neg hZ
  · rw [if_neg (by simpa using h)]
    have hnum : ((q.num.natAbs : Int)) = q.num := Int.natAbs_of_nonneg (le_of_not_lt h)
    rw [← hnum]
    exact hZ

theorem convert_floatRepr {q : Rat} (fuel : Nat) (hq : decimalOkB q = true) :
    convertValueF (fuel + 1) (floatRepr q) = .float q := by
  obtain ⟨ip, fp, hrepr, hipne, hipd, hfpne, hfpd, _⟩ := floatRepr_decomp hq
  obtain ⟨i0, ipt, hi⟩ := List.exists_cons_of_ne_nil hipne
  have hi0 : i0.isDigit = true := by
    rw [List.all_eq_true] at hipd
    exact hipd i0 (by rw [hi]; exact List.mem_cons_self i0 ipt)
  rcases fp.eq_nil_or_concat with hcon | ⟨L, b, hLb⟩
  · exact absurd hcon hfpne
  have hb : b.isDigit = true := by
    rw [List.all_eq_true] at hfpd
    exact hfpd b (by rw [hLb]; simp)
  have hhead : ∃ c, (floatRepr q).head? = some c ∧ c.isWhitespace = false ∧
      c.toLower ≠ 't' ∧ c.toLower ≠ 'f' := by
    rw [hrepr]
    by_cases hneg : q.num < 0
    · refine ⟨'-', ?_, by decide, by decide, by decide⟩
      rw [if_pos hneg]
      rfl
    · refine ⟨i0, ?_, not_isWhitespace_of_isDigit hi0, ?_, ?_⟩
      · rw [if_neg hneg, List.nil_append, hi]
        rfl
      · rw [toLower_eq_self_of_isDigit hi0]
        exact ne_of_isDigit hi0 (by decide)
      · rw [toLower_eq_self_of_isDigit hi0]
        exact ne_of_isDigit hi0 (by decide)
  obtain ⟨c0, hc0, hc0w, hc0t, hc0f⟩ := hhead
  have hlast : (floatRepr q).getLast? = some b := by
    rw [hrepr, hLb]
    simp only [List.concat_eq_append, List.getLast?_append]
    have : ('.' :: (L ++ [b])) = ('.' :: L) ++ [b] := rfl
    rw [this, List.getLast?_append]
    simp
  have hstrip : pstripC (floatRepr q) = floatRepr q := by
    apply pstripC_eq_self
    · intro c hc
      rw [hc0] at hc
      injection hc with h1
      rw [← h1]
      exact hc0w
    · intro c hc
      rw [hlast] at hc
      injection hc with h1
      rw [← h1]
      exact not_isWhitespace_of_isDigit hb
  have hdot : ('.' : Char) ∈ floatRepr q := by
    rw [hrepr]
    simp
  unfold convertValueF
  rw [hstrip,
    if_neg (not_bool_token_of_head hc0 hc0t hc0f),
    isdigitC_false_of_mem hdot (by decide),
    pyFloat_floatRepr hq]
  simp

theorem processLines_append (a b : List PyStr) : ∀ st : ConfigState,
    processLines st (a ++ b) =
      match processLines st a with
      | .ok st' => processLines st' b
      | .error e => .error e := by
  induction a with
  | nil => intro st; rfl
  | cons l ls ih =>
    intro st
    have h1 : processLines st ((l :: ls) ++ b) =
        match processLine st l with
        | .ok st' => processLines st' (ls ++ b)
        | .error e => .error e := rfl
    have h2 : processLines st (l :: ls) =
        match processLine st l with
        | .ok st' => processLines st' ls
        | .error e => .error e := rfl
    rw [h1, h2]
    cases hpl : processLine st l with
    | ok st' => exact ih st'
    | error e => rfl

theorem processLine_blank (st : ConfigState) : processLine st [] = .ok st := rfl

theorem alistAssign_append_last {α : Type} {d : List (PyStr × α)} {k : PyStr}
    (h : alistGet? d k = none) (w w' : α) :
    alistAssign (d ++ [(k, w)]) k w' = d ++ [(k, w')] := by
  induction d with
  | nil => simp [alistAssign]
  | cons kv rest ih =>
    obtain ⟨k', v'⟩ := kv
    by_cases h1 : k' = k
    · simp [alistGet?, h1] at h
    · simp only [alistGet?, if_neg h1] at h
      simp [alistAssign, h1, ih h]

theorem alistAssign_assign {α : Type} (d : List (PyStr × α)) (k : PyStr)
    (w w' : α) :
    alistAssign (alistAssign d k w) k w' = alistAssign d k w' := by
  induction d with
  | nil => simp [alistAssign]
  | cons kv rest ih =>
    obtain ⟨k', v'⟩ := kv
    by_cases h1 : k' = k
    · simp [alistAssign, h1]
    · simp [alistAssign, h1, ih]

theorem alistGet?_of_mem_unique {α : Type} : ∀ {d : List (PyStr × α)}
    {kv : PyStr × α}, keysUniqueB (d.map Prod.fst) = true → kv ∈ d →
    alistGet? d kv.1 = some kv.2 := by
  intro d
  induction d with
  | nil => intro kv _ hm; simp at hm
  | cons kv0 rest ih =>
    intro kv hu hm
    obtain ⟨k0, v0⟩ := kv0
    simp only [List.map_cons, keysUniqueB, Bool.and_eq_true] at hu
    rcases List.mem_cons.mp hm with he | hm'
    · subst he
      simp [alistGet?]
    · have hne : k0 ≠ kv.1 := by
        intro he
        have hc : (rest.map Prod.fst).contains k0 = true := by
          rw [he]
          have hmm : kv.1 ∈ rest.map Prod.fst := List.mem_map.mpr ⟨kv, hm', rfl⟩
          exact List.elem_iff.mpr hmm
        rw [hc] at hu
        simp at hu
      simp only [alistGet?, if_neg hne]
      exact ih hu.2 hm'

theorem alistGet?_eq_none_of_forall {α : Type} {d : List (PyStr × α)}
    {k : PyStr} (h : ∀ kv ∈ d, kv.1 ≠ k) : alistGet? d k = none := by
  induction d with
  | nil => rfl
  | cons kv0 rest ih =>
    simp only [alistGet?]
    rw [if_neg (h kv0 (List.mem_cons_self kv0 rest))]
    exact ih (fun kv hm => h kv (List.mem_cons_of_mem kv0 hm))

theorem mem_of_alistGet?_eq_some {α : Type} : ∀ {d : List (PyStr × α)}
    {k : PyStr} {v : α}, alistGet? d k = some v → (k, v) ∈ d := by
  intro d
  induction d with
  | nil => intro k v h; simp [alistGet?] at h
  | cons kv0 rest ih =>
    intro k v h
    obtain ⟨k0, v0⟩ := kv0
    by_cases h1 : k0 = k
    · subst h1
      simp only [alistGet?, if_pos rfl] at h
      injection h with h
      subst h
      exact List.mem_cons_self _ _
    · simp only [alistGet?, if_neg h1] at h
      exact List.mem_cons_of_mem _ (ih h)

theorem keysUniqueB_sublist : ∀ {l₁ l₂ : List PyStr}, List.Sublist l₁ l₂ →
    keysUniqueB l₂ = true → keysUniqueB l₁ = true := by
  intro l₁ l₂ hsub
  induction hsub with
  | slnil => intro h; exact h
  | cons a hs ih =>
    intro h
    simp only [keysUniqueB, Bool.and_eq_true] at h
    exact ih h.2
  | cons₂ a hs ih =>
    rename_i l₁x l₂x
    intro h
    simp only [keysUniqueB, Bool.and_eq_true] at h ⊢
    refine ⟨?_, ih h.2⟩
    have h1 := h.1
    simp only [Bool.not_eq_true'] at h1 ⊢
    by_cases hc : l₁x.contains a = true
    · exfalso
      have hmem : a ∈ l₁x := List.elem_iff.mp hc
      have hmem2 : a ∈ l₂x := hs.subset hmem
      rw [show l₂x.contains a = true from List.elem_iff.mpr hmem2] at h1
      cases h1
    · simpa using hc

theorem length_filter_partition {α : Type} (p : α → Bool) (l : List α) :
    (l.filter p).length + (l.filter (fun x => !(p x))).length = l.length := by
  induction l with
  | nil => rfl
  | cons x rest ih =>
    by_cases h : p x = true <;> simp [List.filter_cons, h, ← ih] <;> omega

theorem pyEqEntries_of_pointwise : ∀ {d e : List (PyStr × Value)},
    (∀ kv ∈ d, ∃ w, alistGet? e kv.1 = some w ∧ pyEqV kv.2 w = true) →
    pyEqEntries d e = true := by
  intro d
  induction d with
  | nil => intro e _; rfl
  | cons kv rest ih =>
    intro e h
    obtain ⟨k, v⟩ := kv
    obtain ⟨w, hw, hpe⟩ := h (k, v) (List.mem_cons_self _ _)
    have hrest := ih (fun kv hm => h kv (List.mem_cons_of_mem _ hm))
    unfold pyEqEntries
    rw [hw]
    dsimp only
    rw [(show pyEqV v w = true from hpe), hrest]
    rfl

theorem dropWhile_self_head {p : Char → Bool} {s : PyStr}
    (h : s.dropWhile p = s) : ∀ c, s.head? = some c → p c = false := by
  intro c hc
  cases s with
  | nil => simp at hc
  | cons x t =>
    rw [List.head?_cons] at hc
    injection hc with hc
    subst hc
    by_contra hws
    rw [Bool.not_eq_false] at hws
    rw [List.dropWhile_cons] at h
    simp only [hws, if_true] at h
    have hlen := congrArg List.length h
    have hle := (List.dropWhile_sublist (l := t) p).length_le
    simp only [List.length_cons] at hlen
    omega

theorem pstripC_self_dropWhile {s : PyStr} (h : pstripC s = s) :
    s.dropWhile Char.isWhitespace = s := by
  have hsub := List.dropWhile_sublist (l := s) Char.isWhitespace
  apply hsub.eq_of_length
  have h1 : (pstripC s).length ≤ (s.dropWhile Char.isWhitespace).length := by
    unfold pstripC
    rw [List.length_reverse]
    calc (List.dropWhile Char.isWhitespace
            (s.dropWhile Char.isWhitespace).reverse).length
        ≤ (s.dropWhile Char.isWhitespace).reverse.length :=
          (List.dropWhile_sublist _).length_le
      _ = (s.dropWhile Char.isWhitespace).length := List.length_reverse _
  have h2 := hsub.length_le
  rw [h] at h1
  omega

theorem pstripC_self_dropWhile_rev {s : PyStr} (h : pstripC s = s) :
    s.reverse.dropWhile Char.isWhitespace = s.reverse := by
  have hd := pstripC_self_dropWhile h
  have h2 : pstripC s = (s.reverse.dropWhile Char.isWhitespace).reverse := by
    unfold pstripC
    rw [hd]
  rw [h] at h2
  have := congrArg List.reverse h2
  rw [List.reverse_reverse] at this
  exact this.symm

theorem pstripC_self_head {s : PyStr} (h : pstripC s = s) :
    ∀ c, s.head? = some c → c.isWhitespace = false :=
  dropWhile_self_head (pstripC_self_dropWhile h)

theorem pstripC_self_last {s : PyStr} (h : pstripC s = s) :
    ∀ c, s.getLast? = some c → c.isWhitespace = false := by
  intro c hc
  refine dropWhile_self_head (pstripC_self_dropWhile_rev h) c ?_
  rw [List.head?_reverse]
  exact hc

theorem pstripC_trail {k : PyStr} (h : pstripC k = k) :
    pstripC (k ++ [' ']) = k := by
  have := pstripC_sandwich (a := []) (b := [' ']) (s := k)
    (by intro c hc; simp at hc) (by intro c hc; simp at hc; subst hc; decide)
    (fun c hc => by rw [pstripC_self_head h c hc])
    (fun c hc => by rw [pstripC_self_last h c hc])
  simpa using this

theorem pstripC_lead {v : PyStr}
    (h1 : ∀ c, v.head? = some c → c.isWhitespace = false)
    (h2 : ∀ c, v.getLast? = some c → c.isWhitespace = false) :
    pstripC (' ' :: v) = v := by
  have := pstripC_sandwich (a := [' ']) (b := []) (s := v)
    (by intro c hc; simp at hc; subst hc; decide) (by intro c hc; simp at hc)
    h1 h2
  simpa using this

theorem splitlinesC_cons_eq (x : Char) (r : PyStr) :
    splitlinesC (x :: r) = if x = '\n' then [] :: splitlinesC r
      else match splitlinesC r with
        | [] => [[x]]
        | p :: ps => (x :: p) :: ps := rfl

theorem splitlinesC_line {l : PyStr} (h : ¬ '\n' ∈ l) (rest : PyStr) :
    splitlinesC (l ++ '\n' :: rest) = l :: splitlinesC rest := by
  induction l with
  | nil =>
    show splitlinesC ('\n' :: rest) = [] :: splitlinesC rest
    rw [splitlinesC_cons_eq, if_pos rfl]
  | cons x t ih =>
    have hx : ¬ (x = '\n') := fun he => h (he ▸ List.mem_cons_self x t)
    have ht : ¬ '\n' ∈ t := fun hm => h (List.mem_cons_of_mem _ hm)
    show splitlinesC (x :: (t ++ '\n' :: rest)) = _
    rw [splitlinesC_cons_eq, if_neg hx, ih ht]

theorem splitlinesC_join : ∀ {ls : List PyStr}, (∀ l ∈ ls, ¬ '\n' ∈ l) →
    splitlinesC (ls.foldr (fun l acc => l ++ '\n' :: acc) []) = ls := by
  intro ls
  induction ls with
  | nil => intro _; rfl
  | cons l rest ih =>
    intro h
    show splitlinesC (l ++ '\n' :: rest.foldr (fun l acc => l ++ '\n' :: acc) [])
        = l :: rest
    rw [splitlinesC_line (h l (List.mem_cons_self l rest)),
      ih (fun l' hm => h l' (List.mem_cons_of_mem _ hm))]

def withSpaces : List PyStr → List PyStr
  | [] => []
  | p :: rest => p :: rest.map (fun q => ' ' :: q)

theorem splitOnC_joinSepC : ∀ {pieces : List PyStr},
    (∀ p ∈ pieces, ¬ ',' ∈ p) → pieces ≠ [] →
    splitOnC ',' (joinSepC ", ".data pieces) = withSpaces pieces := by
  intro pieces
  induction pieces with
  | nil => intro _ hne; exact absurd rfl hne
  | cons p rest ih =>
    intro h _
    cases rest with
    | nil =>
      show splitOnC ',' p = [p]
      exact splitOnC_not_mem (h p (List.mem_cons_self p []))
    | cons q rest' =>
      have hp : ¬ ',' ∈ p := h p (List.mem_cons_self _ _)
      have hrest : ∀ x ∈ q :: rest', ¬ ',' ∈ x :=
        fun x hm => h x (List.mem_cons_of_mem _ hm)
      have hjoin : joinSepC ", ".data (p :: q :: rest') =
          p ++ ',' :: ' ' :: joinSepC ", ".data (q :: rest') := by
        show p ++ ", ".data ++ joinSepC ", ".data (q :: rest') = _
        simp
      rw [hjoin, splitOnC_append_cons hp]
      have hs : splitOnC ',' (' ' :: joinSepC ", ".data (q :: rest')) =
          (' ' :: q) :: rest'.map (fun x => ' ' :: x) := by
        unfold splitOnC
        rw [if_neg (by decide), ih hrest (by simp)]
        rfl
      rw [hs]
      rfl

theorem mem_joinSepC {c : Char} {sep : PyStr} : ∀ {pieces : List PyStr},
    c ∈ joinSepC sep pieces → c ∈ sep ∨ ∃ p ∈ pieces, c ∈ p := by
  intro pieces
  induction pieces with
  | nil => intro h; simp [joinSepC] at h
  | cons p rest ih =>
    cases rest with
    | nil =>
      intro h
      exact Or.inr ⟨p, List.mem_cons_self p [], h⟩
    | cons q rest' =>
      intro h
      have : joinSepC sep (p :: q :: rest') =
          p ++ sep ++ joinSepC sep (q :: rest') := rfl
      rw [this] at h
      rcases List.mem_append.mp h with h1 | h2
      · rcases List.mem_append.mp h1 with h3 | h4
        · exact Or.inr ⟨p, List.mem_cons_self _ _, h3⟩
        · exact Or.inl h4
      · rcases ih h2 with h3 | ⟨x, hx, hcx⟩
        · exact Or.inl h3
        · exact Or.inr ⟨x, List.mem_cons_of_mem _ hx, hcx⟩

theorem intStr_chars {n : Int} {c : Char} (h : c ∈ intStr n) :
    c = '-' ∨ c.isDigit = true := by
  unfold intStr at h
  split at h
  · rcases List.mem_cons.mp h with he | hm
    · exact Or.inl he
    · exact Or.inr (List.all_eq_true.mp (natDigits_all_digits _) c hm)
  · exact Or.inr (List.all_eq_true.mp (natDigits_all_digits _) c h)

theorem intStr_ne_nil (n : Int) : intStr n ≠ [] := by
  unfold intStr
  split
  · simp
  · exact natDigits_ne_nil _

theorem floatRepr_chars {q : Rat} (hq : decimalOkB q = true) {c : Char}
    (h : c ∈ floatRepr q) : c = '-' ∨ c = '.' ∨ c.isDigit = true := by
  obtain ⟨ip, fp, hrepr, _, hipd, _, hfpd, _⟩ := floatRepr_decomp hq
  rw [hrepr] at h
  rcases List.mem_append.mp h with h1 | h2
  · split at h1
    · rcases List.mem_singleton.mp h1 with he
      exact Or.inl he
    · simp at h1
  · rcases List.mem_append.mp h2 with h3 | h4
    · exact Or.inr (Or.inr (List.all_eq_true.mp hipd c h3))
    · rcases List.mem_cons.mp h4 with he | hm
      · exact Or.inr (Or.inl he)
      · exact Or.inr (Or.inr (List.all_eq_true.mp hfpd c hm))

theorem floatRepr_ne_nil {q : Rat} (hq : decimalOkB q = true) :
    floatRepr q ≠ [] := by
  obtain ⟨ip, fp, hrepr, hipne, _, _, _, _⟩ := floatRepr_decomp hq
  rw [hrepr]
  intro hnil
  rcases List.append_eq_nil.mp hnil with ⟨_, h2⟩
  rcases List.append_eq_nil.mp h2 with ⟨h3, _⟩
  exact hipne h3

theorem scalarCommaFreeB_ok {v : Value} (h : scalarCommaFreeB v = true) :
    scalarOkB v = true := by
  cases v with
  | str s =>
    simp only [scalarCommaFreeB, Bool.and_eq_true] at h
    simp only [scalarOkB]
    exact h.1
  | bool b => rfl
  | int n => rfl
  | float q => exact h
  | list xs => exact h
  | dict d => exact h

theorem scalar_enc_facts {v : Value} (h : scalarOkB v = true) :
    _value_to_string v ≠ [] ∧
    (∀ c, (_value_to_string v).head? = some c → c.isWhitespace = false) ∧
    (∀ c, (_value_to_string v).getLast? = some c → c.isWhitespace = false) ∧
    ¬ '\n' ∈ _value_to_string v := by
  cases v with
  | bool b =>
    cases b
    · refine ⟨by decide, ?_, ?_, by decide⟩
      · intro c hc
        rw [show List.head? (_value_to_string (Value.bool false)) = some 'f'
          by decide] at hc
        injection hc with hc
        subst hc
        decide
      · intro c hc
        rw [show List.getLast? (_value_to_string (Value.bool false)) = some 'e'
          by decide] at hc
        injection hc with hc
        subst hc
        decide
    · refine ⟨by decide, ?_, ?_, by decide⟩
      · intro c hc
        rw [show List.head? (_value_to_string (Value.bool true)) = some 't'
          by decide] at hc
        injection hc with hc
        subst hc
        decide
      · intro c hc
        rw [show List.getLast? (_value_to_string (Value.bool true)) = some 'e'
          by decide] at hc
        injection hc with hc
        subst hc
        decide
  | int n =>
    have hnws : ∀ c ∈ intStr n, c.isWhitespace = false := by
      intro c hc
      rcases intStr_chars hc with he | hd
      · subst he; decide
      · exact not_isWhitespace_of_isDigit hd
    refine ⟨intStr_ne_nil n, ?_, ?_, ?_⟩
    · exact fun c hc => hnws c (List.mem_of_mem_head? (hc ▸ rfl))
    · exact fun c hc => hnws c (List.mem_of_getLast?_eq_some hc)
    · intro hm
      rcases intStr_chars hm with he | hd
      · exact absurd he (by decide)
      · exact absurd hd (by decide)
  | float q =>
    have hq : decimalOkB q = true := h
    have hnws : ∀ c ∈ floatRepr q, c.isWhitespace = false := by
      intro c hc
      rcases floatRepr_chars hq hc with he | he | hd
      · subst he; decide
      · subst he; decide
      · exact not_isWhitespace_of_isDigit hd
    refine ⟨floatRepr_ne_nil hq, ?_, ?_, ?_⟩
    · exact fun c hc => hnws c (List.mem_of_mem_head? (hc ▸ rfl))
    · exact fun c hc => hnws c (List.mem_of_getLast?_eq_some hc)
    · intro hm
      rcases floatRepr_chars hq hm with he | he | hd
      · exact absurd he (by decide)
      · exact absurd he (by decide)
      · exact absurd hd (by decide)
  | str s =>
    simp only [scalarOkB, strOkTopB, Bool.and_eq_true, bne_iff_ne,
      Bool.not_eq_true'] at h
    obtain ⟨⟨hnl, _⟩, _⟩ := h
    refine ⟨by simp [_value_to_string], ?_, ?_, ?_⟩
    · intro c hc
      have : ('"' :: (s ++ ['"'])).head? = some '"' := rfl
      rw [show _value_to_string (.str s) = '"' :: (s ++ ['"']) from rfl, this]
        at hc
      injection hc with hc
      subst hc
      decide
    · intro c hc
      rw [show _value_to_string (.str s) = '"' :: (s ++ ['"']) from rfl,
        quoted_getLast] at hc
      injection hc with hc
      subst hc
      decide
    · intro hm
      rw [show _value_to_string (.str s) = '"' :: (s ++ ['"']) from rfl] at hm
      rcases List.mem_cons.mp hm with he | hm2
      · exact absurd he (by decide)
      · rcases List.mem_append.mp hm2 with h3 | h4
        · rw [containsC_iff.mpr h3] at hnl
          cases hnl
        · exact absurd (List.mem_singleton.mp h4) (by decide)
  | list xs => exact absurd h (by simp [scalarOkB])
  | dict d => exact absurd h (by simp [scalarOkB])

theorem scalar_enc_comma {v : Value} (h : scalarCommaFreeB v = true) :
    ¬ ',' ∈ _value_to_string v := by
  cases v with
  | bool b => cases b <;> decide
  | int n =>
    intro hm
    rcases intStr_chars hm with he | hd
    · exact absurd he (by decide)
    · exact absurd hd (by decide)
  | float q =>
    intro hm
    rcases floatRepr_chars h hm with he | he | hd
    · exact absurd he (by decide)
    · exact absurd he (by decide)
    · exact absurd hd (by decide)
  | str s =>
    simp only [scalarCommaFreeB, Bool.and_eq_true, Bool.not_eq_true'] at h
    intro hm
    rw [show _value_to_string (.str s) = '"' :: (s ++ ['"']) from rfl] at hm
    rcases List.mem_cons.mp hm with he | hm2
    · exact absurd he (by decide)
    · rcases List.mem_append.mp hm2 with h3 | h4
      · have h2 := h.2
        rw [containsC_iff.mpr h3] at h2
        cases h2
      · exact absurd (List.mem_singleton.mp h4) (by decide)
  | list xs => exact absurd h (by simp [scalarCommaFreeB, scalarOkB])
  | dict d => exact absurd h (by simp [scalarCommaFreeB, scalarOkB])

theorem encList_eq_map : ∀ xs : List Value,
    encList xs = xs.map _value_to_string := by
  intro xs
  induction xs with
  | nil => rfl
  | cons x rest ih =>
    show _value_to_string x :: encList rest = _
    rw [ih]
    rfl

theorem mem_encEntries {p : PyStr} : ∀ {d : List (PyStr × Value)},
    p ∈ encEntries d →
    ∃ kv ∈ d, p = '"' :: kv.1 ++ "\" = ".data ++ _value_to_string kv.2 := by
  intro d
  induction d with
  | nil => intro h; simp [encEntries] at h
  | cons kv0 rest ih =>
    intro h
    obtain ⟨k, v⟩ := kv0
    rcases List.mem_cons.mp h with he | hm
    · exact ⟨(k, v), List.mem_cons_self _ _, he⟩
    · obtain ⟨kv, hkv, he⟩ := ih hm
      exact ⟨kv, List.mem_cons_of_mem _ hkv, he⟩

theorem enc_facts {v : Value} (h : propValOkB v = true) :
    _value_to_string v ≠ [] ∧
    (∀ c, (_value_to_string v).head? = some c → c.isWhitespace = false) ∧
    (∀ c, (_value_to_string v).getLast? = some c → c.isWhitespace = false) ∧
    ¬ '\n' ∈ _value_to_string v := by
  cases v with
  | bool b => exact scalar_enc_facts h
  | int n => exact scalar_enc_facts h
  | float q => exact scalar_enc_facts h
  | str s => exact scalar_enc_facts h
  | list xs =>
    have henc : _value_to_string (.list xs) =
        '[' :: joinSepC ", ".data (encList xs) ++ [']'] := rfl
    refine ⟨by rw [henc]; simp, ?_, ?_, ?_⟩
    · intro c hc
      rw [henc, header_head] at hc
      injection hc with hc
      subst hc
      decide
    · intro c hc
      rw [henc, header_getLast] at hc
      injection hc with hc
      subst hc
      decide
    · intro hm
      rw [henc] at hm
      rcases List.mem_cons.mp hm with he | hm2
      · exact absurd he (by decide)
      rcases List.mem_append.mp hm2 with h3 | h4
      · rcases mem_joinSepC h3 with hs | ⟨piece, hp, hcp⟩
        · exact absurd hs (by decide)
        · rw [encList_eq_map] at hp
          obtain ⟨x, hx, hpe⟩ := List.mem_map.mp hp
          have hok : scalarCommaFreeB x = true :=
            List.all_eq_true.mp h x hx
          have := (scalar_enc_facts (scalarCommaFreeB_ok hok)).2.2.2
          rw [hpe] at this
          exact this hcp
      · exact absurd (List.mem_singleton.mp h4) (by decide)
  | dict d =>
    simp only [propValOkB, Bool.and_eq_true] at h
    have henc : _value_to_string (.dict d) =
        "\x7b ".data ++ joinSepC ", ".data (encEntries d) ++ " \x7d".data := rfl
    have hshape : _value_to_string (.dict d) =
        '{' :: (' ' :: joinSepC ", ".data (encEntries d) ++ [' ']) ++ ['}'] := by
      rw [henc]
      simp
    refine ⟨by rw [hshape]; simp, ?_, ?_, ?_⟩
    · intro c hc
      rw [hshape] at hc
      rw [List.cons_append, List.head?_cons] at hc
      injection hc with hc
      subst hc
      decide
    · intro c hc
      rw [hshape, List.getLast?_concat] at hc
      injection hc with hc
      subst hc
      decide
    · intro hm
      rw [hshape] at hm
      rcases List.mem_append.mp hm with hm1 | hm2
      swap
      · exact absurd (List.mem_singleton.mp hm2) (by decide)
      rcases List.mem_cons.mp hm1 with he | hm3
      · exact absurd he (by decide)
      rcases List.mem_cons.mp hm3 with he | hm4
      · exact absurd he (by decide)
      rcases List.mem_append.mp hm4 with h3 | h4
      swap
      · exact absurd (List.mem_singleton.mp h4) (by decide)
      rcases mem_joinSepC h3 with hs | ⟨piece, hp, hcp⟩
      · exact absurd hs (by decide)
      obtain ⟨kv, hkv, hpe⟩ := mem_encEntries hp
      have hok : (dictKeyOkB kv.1 && scalarCommaFreeB kv.2) = true :=
        List.all_eq_true.mp h.1 kv hkv
      rw [Bool.and_eq_true] at hok
      rw [hpe] at hcp
      rcases List.mem_cons.mp hcp with he | hm5
      · exact absurd he (by decide)
      rcases List.mem_append.mp hm5 with h5 | h6
      · rcases List.mem_append.mp h5 with h7 | h8
        · have hk := hok.1
          simp only [dictKeyOkB, Bool.and_eq_true, Bool.not_eq_true'] at hk
          rw [containsC_iff.mpr h7] at hk
          simp at hk
        · exact absurd h8 (by decide)
      · exact (scalar_enc_facts (scalarCommaFreeB_ok hok.2)).2.2.2 h6

theorem propLine_no_newline {k : PyStr} {v : Value} (hk : propKeyOkB k = true)
    (hv : propValOkB v = true) : ¬ '\n' ∈ propLine (k, v) := by
  simp only [propKeyOkB, Bool.and_eq_true, Bool.not_eq_true'] at hk
  intro hm
  unfold propLine at hm
  rcases List.mem_append.mp hm with h1 | h2
  · rcases List.mem_append.mp h1 with h3 | h4
    · have hknl := hk.1.1.1.2
      rw [containsC_iff.mpr h3] at hknl
      cases hknl
    · exact absurd h4 (by decide)
  · exact (enc_facts hv).2.2.2 h2

theorem convert_scalar {v : Value} (fuel : Nat) (h : scalarOkB v = true) :
    pyEqV (convertValueF (fuel + 1) (_value_to_string v)) v = true := by
  cases v with
  | bool b =>
    cases b
    · rw [show _value_to_string (Value.bool false) = "false".data from rfl,
        convert_token_false]
      decide
    · rw [show _value_to_string (Value.bool true) = "true".data from rfl,
        convert_token_true]
      decide
  | int n => exact convert_intStr n
  | float q =>
    rw [show _value_to_string (Value.float q) = floatRepr q from rfl,
      convert_floatRepr fuel h]
    simp [pyEqV, numVal?]
  | str s =>
    simp only [scalarOkB, strOkTopB, Bool.and_eq_true, bne_iff_ne] at h
    rw [show _value_to_string (Value.str s) = '"' :: (s ++ ['"']) from rfl,
      convert_quoted h.1.2 h.2]
    simp [pyEqV]
  | list xs => exact absurd h (by simp [scalarOkB])
  | dict d => exact absurd h (by simp [scalarOkB])

theorem pyEqL_map {g : Value → Value} : ∀ {xs : List Value},
    (∀ x ∈ xs, pyEqV (g x) x = true) → pyEqL (xs.map g) xs = true := by
  intro xs
  induction xs with
  | nil => intro _; rfl
  | cons x rest ih =>
    intro h
    show pyEqL (g x :: rest.map g) (x :: rest) = true
    unfold pyEqL
    rw [h x (List.mem_cons_self _ _),
      ih (fun y hy => h y (List.mem_cons_of_mem _ hy))]
    rfl

theorem innerC_wrap2 (x y : Char) (a : PyStr) : innerC (x :: a ++ [y]) = a := by
  simp [innerC]

theorem joinSepC_head? {sep : PyStr} {pieces : List PyStr} {p0 : PyStr}
    (h : pieces.head? = some p0) (hne : p0 ≠ []) :
    (joinSepC sep pieces).head? = p0.head? := by
  cases pieces with
  | nil => simp at h
  | cons p rest =>
    rw [List.head?_cons] at h
    injection h with h
    subst h
    cases rest with
    | nil => rfl
    | cons q rest' =>
      show (p ++ sep ++ joinSepC sep (q :: rest')).head? = p.head?
      rw [List.append_assoc, List.head?_append]
      cases hp : p.head? with
      | none => exact absurd (List.head?_eq_none_iff.mp hp) hne
      | some c => rfl

theorem joinSepC_getLast? {sep : PyStr} : ∀ {pieces : List PyStr} {pn : PyStr},
    pieces.getLast? = some pn → pn ≠ [] →
    (joinSepC sep pieces).getLast? = pn.getLast? := by
  intro pieces
  induction pieces with
  | nil => intro pn h _; simp at h
  | cons p rest ih =>
    intro pn h hne
    cases rest with
    | nil =>
      simp only [List.getLast?_singleton, Option.some.injEq] at h
      subst h
      rfl
    | cons q rest' =>
      rw [List.getLast?_cons_cons] at h
      have hrec := ih h hne
      show (p ++ sep ++ joinSepC sep (q :: rest')).getLast? = pn.getLast?
      rw [List.getLast?_append, hrec]
      rcases pn.eq_nil_or_concat with hn | ⟨L, b, hLb⟩
      · exact absurd hn hne
      · rw [hLb, List.concat_eq_append, List.getLast?_concat]
        rfl

theorem encEntries_eq_map : ∀ d : List (PyStr × Value),
    encEntries d = d.map
      (fun kv => '"' :: kv.1 ++ "\" = ".data ++ _value_to_string kv.2) := by
  intro d
  induction d with
  | nil => rfl
  | cons kv rest ih =>
    obtain ⟨k, v⟩ := kv
    show ('"' :: k ++ "\" = ".data ++ _value_to_string v) :: encEntries rest = _
    rw [ih]
    rfl

theorem map_congr_mem {α β : Type} {f g : α → β} : ∀ {l : List α},
    (∀ a ∈ l, f a = g a) → l.map f = l.map g := by
  intro l
  induction l with
  | nil => intro _; rfl
  | cons a rest ih =>
    intro h
    rw [List.map_cons, List.map_cons, h a (List.mem_cons_self _ _),
      ih (fun y hy => h y (List.mem_cons_of_mem _ hy))]

theorem convertValueF_succ (fuel : Nat) (value : PyStr) :
    convertValueF (fuel + 1) value =
      (if lowerC (pstripC value) = "true".data ∨
          lowerC (pstripC value) = "false".data then
        Value.bool (lowerC (pstripC value) == "true".data)
      else if isdigitC (pstripC value) then
        Value.int (digitsValC (pstripC value))
      else match pyFloat (pstripC value) with
      | some q => Value.float q
      | none =>
        if (pstripC value).head? = some '[' ∧
            (pstripC value).getLast? = some ']' then
          Value.list (((splitOnC ',' (innerC (pstripC value))).filter
              (fun item => !(pstripC item).isEmpty)).map
            (fun item => convertValueF fuel (pstripC item)))
        else if (pstripC value).head? = some '{' ∧
            (pstripC value).getLast? = some '}' then
          parseInlineDictF fuel (pstripC value)
        else Value.str (stripAllC '"' (pstripC value))) := rfl

theorem convert_listEnc {xs : List Value} (fuel : Nat)
    (h : xs.all scalarCommaFreeB = true) :
    convertValueF (fuel + 2) (_value_to_string (Value.list xs)) =
      Value.list (xs.map
        (fun x => convertValueF (fuel + 1) (pstripC (_value_to_string x)))) := by
  have henc : _value_to_string (Value.list xs) =
      '[' :: joinSepC ", ".data (encList xs) ++ [']'] := rfl
  rw [henc]
  have hstrip : pstripC ('[' :: joinSepC ", ".data (encList xs) ++ [']']) =
      '[' :: joinSepC ", ".data (encList xs) ++ [']'] := by
    apply pstripC_eq_self
    · intro c hc
      rw [header_head] at hc
      injection hc with hc
      subst hc
      decide
    · intro c hc
      rw [header_getLast] at hc
      injection hc with hc
      subst hc
      decide
  show convertValueF ((fuel + 1) + 1) _ = _
  rw [convertValueF_succ]
  rw [hstrip,
    if_neg (not_bool_token_of_head (header_head _) (by decide) (by decide)),
    isdigitC_false_of_head (header_head _) (by decide),
    pyFloat_none_of_head (header_head _) (by decide) (by decide) (by decide)
      (by decide)]
  simp only [Bool.false_eq_true, if_false]
  rw [if_pos ⟨header_head _, header_getLast _⟩, innerC_wrap]
  cases xs with
  | nil => rfl
  | cons x rest =>
    have hscal : ∀ y ∈ x :: rest, scalarOkB y = true := by
      intro y hy
      exact scalarCommaFreeB_ok (List.all_eq_true.mp h y hy)
    have hpstrip : ∀ y ∈ x :: rest,
        pstripC (_value_to_string y) = _value_to_string y := by
      intro y hy
      have hf := scalar_enc_facts (hscal y hy)
      exact pstripC_eq_self hf.2.1 hf.2.2.1
    have hpieces : ∀ p ∈ encList (x :: rest), ¬ ',' ∈ p := by
      intro p hp
      rw [encList_eq_map] at hp
      obtain ⟨y, hy, hpe⟩ := List.mem_map.mp hp
      rw [← hpe]
      exact scalar_enc_comma (List.all_eq_true.mp h y hy)
    rw [splitOnC_joinSepC hpieces (by
      rw [show encList (x :: rest) = _value_to_string x :: encList rest
        from rfl]
      simp)]
    rw [show encList (x :: rest) = _value_to_string x :: encList rest from rfl,
      show withSpaces (_value_to_string x :: encList rest) =
        _value_to_string x :: (encList rest).map (fun q => ' ' :: q) from rfl]
    have hkeep : ∀ item ∈ _value_to_string x ::
        (encList rest).map (fun q => ' ' :: q),
        (!(pstripC item).isEmpty) = true := by
      intro item hitem
      rcases List.mem_cons.mp hitem with he | hm
      · subst he
        rw [hpstrip x (List.mem_cons_self _ _)]
        simp [List.isEmpty_eq_false.mpr
          (scalar_enc_facts (hscal x (List.mem_cons_self _ _))).1]
      · obtain ⟨q, hq, hqe⟩ := List.mem_map.mp hm
        rw [encList_eq_map] at hq
        obtain ⟨y, hy, hye⟩ := List.mem_map.mp hq
        have hyr : y ∈ x :: rest := List.mem_cons_of_mem _ hy
        have hf := scalar_enc_facts (hscal y hyr)
        rw [← hqe, ← hye, pstripC_lead hf.2.1 hf.2.2.1]
        simp [List.isEmpty_eq_false.mpr hf.1]
    rw [List.filter_eq_self.mpr hkeep]
    rw [List.map_cons, List.map_cons, List.map_map, encList_eq_map,
      List.map_map]
    congr 2

theorem parseInlineDictF_succ (fuel : Nat) (value : PyStr) :
    parseInlineDictF (fuel + 1) value =
      .dict (if (pstripC (innerC value)).isEmpty then []
        else (splitOnC ',' (pstripC (innerC value))).foldl
          (fun result part =>
            match splitFirstC '=' part with
            | some (k0, v0) =>
              alistAssign result
                (stripAllC '\'' (stripAllC '"' (pstripC k0)))
                (convertValueF fuel (pstripC v0))
            | none => result) []) := rfl

theorem dict_part_step (fuel : Nat) {sp : PyStr}
    (hsp : ∀ c ∈ sp, c.isWhitespace = true) {k : PyStr} {v : Value}
    (hk : dictKeyOkB k = true) (hv : scalarCommaFreeB v = true)
    (r : List (PyStr × Value)) :
    (match splitFirstC '='
        (sp ++ ('"' :: k ++ "\" = ".data ++ _value_to_string v)) with
     | some (k0, v0) =>
       alistAssign r (stripAllC '\'' (stripAllC '"' (pstripC k0)))
         (convertValueF fuel (pstripC v0))
     | none => r) =
    alistAssign r k (convertValueF fuel (_value_to_string v)) := by
  simp only [dictKeyOkB, Bool.and_eq_true, bne_iff_ne] at hk
  obtain ⟨⟨⟨⟨⟨⟨hnl, hcm⟩, heq⟩, hh1⟩, hl1⟩, hh2⟩, hl2⟩ := hk
  have henc := scalar_enc_facts (scalarCommaFreeB_ok hv)
  have hassoc : sp ++ ('"' :: k ++ "\" = ".data ++ _value_to_string v) =
      (sp ++ '"' :: (k ++ ['"', ' '])) ++ '=' :: (' ' :: _value_to_string v) := by
    simp
  have hnotin : ¬ '=' ∈ sp ++ '"' :: (k ++ ['"', ' ']) := by
    intro hm
    rcases List.mem_append.mp hm with h1 | h2
    · exact absurd (hsp '=' h1) (by decide)
    rcases List.mem_cons.mp h2 with he | h3
    · exact absurd he (by decide)
    rcases List.mem_append.mp h3 with h4 | h5
    · rw [Bool.not_eq_true'] at heq
      rw [containsC_iff.mpr h4] at heq
      cases heq
    · rcases List.mem_cons.mp h5 with he | h6
      · exact absurd he (by decide)
      · exact absurd (List.mem_singleton.mp h6) (by decide)
  rw [hassoc, splitFirstC_append hnotin]
  have hquote : sp ++ '"' :: (k ++ ['"', ' ']) =
      sp ++ (('"' :: (k ++ ['"'])) ++ [' ']) := by simp
  have hstrips : pstripC (sp ++ '"' :: (k ++ ['"', ' '])) = '"' :: (k ++ ['"']) := by
    rw [hquote]
    apply pstripC_sandwich hsp (by intro c hc; simp at hc; subst hc; decide)
    · intro c hc
      rw [List.head?_cons] at hc
      injection hc with hc
      subst hc
      decide
    · intro c hc
      rw [quoted_getLast] at hc
      injection hc with hc
      subst hc
      decide
  show alistAssign r
      (stripAllC '\'' (stripAllC '"'
        (pstripC (sp ++ '"' :: (k ++ ['"', ' '])))))
      (convertValueF fuel (pstripC (' ' :: _value_to_string v))) = _
  rw [hstrips, stripAllC_quoted hh1 hl1, stripAllC_neutral hh2 hl2,
    pstripC_lead henc.2.1 henc.2.2.1]

theorem dict_fold (fuel : Nat) : ∀ (entries : List (PyStr × Value))
    (r : List (PyStr × Value)),
    (entries.all fun kv => dictKeyOkB kv.1 && scalarCommaFreeB kv.2) = true →
    keysUniqueB (entries.map Prod.fst) = true →
    (∀ kv ∈ entries, alistGet? r kv.1 = none) →
    ((encEntries entries).map (fun q => ' ' :: q)).foldl
      (fun result part =>
        match splitFirstC '=' part with
        | some (k0, v0) =>
          alistAssign result (stripAllC '\'' (stripAllC '"' (pstripC k0)))
            (convertValueF fuel (pstripC v0))
        | none => result) r =
    r ++ entries.map
      (fun kv => (kv.1, convertValueF fuel (_value_to_string kv.2))) := by
  intro entries
  induction entries with
  | nil => intro r _ _ _; simp [encEntries]
  | cons kv rest ih =>
    intro r hok hu hfresh
    obtain ⟨k, v⟩ := kv
    rw [List.all_cons, Bool.and_eq_true] at hok
    rw [List.map_cons, keysUniqueB, Bool.and_eq_true] at hu
    rw [Bool.and_eq_true] at *
    have hkv := hok.1
    rw [show encEntries ((k, v) :: rest) =
      ('"' :: k ++ "\" = ".data ++ _value_to_string v) :: encEntries rest
      from rfl]
    rw [List.map_cons, List.foldl_cons]
    rw [show (' ' :: ('"' :: k ++ "\" = ".data ++ _value_to_string v)) =
      [' '] ++ ('"' :: k ++ "\" = ".data ++ _value_to_string v) from rfl]
    rw [dict_part_step fuel
      (by intro c hc; rw [List.mem_singleton.mp hc]; rfl) hkv.1 hkv.2 r]
    have hfr : alistGet? r k = none := hfresh (k, v) (List.mem_cons_self _ _)
    rw [alistAssign_absent hfr]
    rw [ih (r ++ [(k, convertValueF fuel (_value_to_string v))]) hok.2 hu.2
      (by
        intro kv2 hm2
        rw [alistGet?_append_none (hfresh kv2 (List.mem_cons_of_mem _ hm2))]
        have hne : k ≠ kv2.1 := by
          intro he
          have h1 := hu.1
          rw [Bool.not_eq_true'] at h1
          rw [show (rest.map Prod.fst).contains k = true from
            List.elem_iff.mpr (he ▸ List.mem_map.mpr ⟨kv2, hm2, rfl⟩)] at h1
          cases h1
        show (if k = kv2.1 then _ else _) = none
        rw [if_neg hne]
        rfl)]
    simp

theorem convert_dictEnc {d : List (PyStr × Value)} (fuel : Nat)
    (h : (d.all fun kv => dictKeyOkB kv.1 && scalarCommaFreeB kv.2) = true)
    (hu : keysUniqueB (d.map Prod.fst) = true) :
    convertValueF (fuel + 3) (_value_to_string (Value.dict d)) =
      Value.dict (d.map (fun kv =>
        (kv.1, convertValueF (fuel + 1) (_value_to_string kv.2)))) := by
  have hall := List.all_eq_true.mp h
  have hshape : _value_to_string (Value.dict d) =
      '{' :: ((' ' :: joinSepC ", ".data (encEntries d) ++ [' ']) ++ ['}']) := by
    rw [show _value_to_string (Value.dict d) =
      "\x7b ".data ++ joinSepC ", ".data (encEntries d) ++ " \x7d".data from rfl]
    simp
  have hhead : (_value_to_string (Value.dict d)).head? = some '{' := by
    rw [hshape]
    rfl
  have hlast : (_value_to_string (Value.dict d)).getLast? = some '}' := by
    rw [hshape, show '{' :: ((' ' :: joinSepC ", ".data (encEntries d)
      ++ [' ']) ++ ['}']) = ('{' :: (' ' :: joinSepC ", ".data (encEntries d)
      ++ [' '])) ++ ['}'] from rfl, List.getLast?_concat]
  have hstrip : pstripC (_value_to_string (Value.dict d)) =
      _value_to_string (Value.dict d) := by
    apply pstripC_eq_self
    · intro c hc
      rw [hhead] at hc
      injection hc with hc
      subst hc
      decide
    · intro c hc
      rw [hlast] at hc
      injection hc with hc
      subst hc
      decide
  have hinner : innerC (_value_to_string (Value.dict d)) =
      ' ' :: joinSepC ", ".data (encEntries d) ++ [' '] := by
    rw [hshape]
    exact innerC_wrap2 '{' '}' _
  show convertValueF (((fuel + 1) + 1) + 1) _ = _
  rw [convertValueF_succ]
  rw [hstrip,
    if_neg (not_bool_token_of_head hhead (by decide) (by decide)),
    isdigitC_false_of_head hhead (by decide),
    pyFloat_none_of_head hhead (by decide) (by decide) (by decide) (by decide)]
  simp only [Bool.false_eq_true, if_false]
  rw [if_neg (fun hand => by
    have h1 := hand.1
    rw [hhead] at h1
    injection h1 with h1
    exact absurd h1 (by decide))]
  rw [if_pos ⟨hhead, hlast⟩]
  rw [parseInlineDictF_succ, hinner]
  cases d with
  | nil => rfl
  | cons kv rest =>
    obtain ⟨k, v⟩ := kv
    have hkv0 := hall (k, v) (List.mem_cons_self _ _)
    rw [Bool.and_eq_true] at hkv0
    have hpieces0 : encEntries ((k, v) :: rest) =
        ('"' :: k ++ "\" = ".data ++ _value_to_string v) :: encEntries rest :=
      rfl
    have hJhead : (joinSepC ", ".data (encEntries ((k, v) :: rest))).head? =
        some '"' := by
      rw [joinSepC_head? (by rw [hpieces0]; rfl) (by simp)]
      rfl
    obtain ⟨L, kvN, hLN⟩ : ∃ L kvN, (k, v) :: rest = L ++ [kvN] := by
      rcases ((k, v) :: rest).eq_nil_or_concat with hn | ⟨L, b, hLb⟩
      · cases hn
      · exact ⟨L, b, by rw [hLb, List.concat_eq_append]⟩
    have hkvNmem : kvN ∈ (k, v) :: rest := by
      rw [hLN]
      simp
    have hkvNok := hall kvN hkvNmem
    rw [Bool.and_eq_true] at hkvNok
    have hN := scalar_enc_facts (scalarCommaFreeB_ok hkvNok.2)
    obtain ⟨cN, hcN⟩ : ∃ c, (_value_to_string kvN.2).getLast? = some c := by
      rcases (_value_to_string kvN.2).eq_nil_or_concat with hn | ⟨L2, b2, hb2⟩
      · exact absurd hn hN.1
      · exact ⟨b2, by rw [hb2, List.concat_eq_append, List.getLast?_concat]⟩
    have hcNw : cN.isWhitespace = false := hN.2.2.1 cN hcN
    have hentN : ('"' :: kvN.1 ++ "\" = ".data
        ++ _value_to_string kvN.2).getLast? = some cN := by
      rw [show '"' :: kvN.1 ++ "\" = ".data ++ _value_to_string kvN.2 =
        ('"' :: kvN.1 ++ "\" = ".data) ++ _value_to_string kvN.2 from by simp,
        List.getLast?_append, hcN]
      rfl
    have hJlast : (joinSepC ", ".data
        (encEntries ((k, v) :: rest))).getLast? = some cN := by
      have hpl : (encEntries ((k, v) :: rest)).getLast? =
          some ('"' :: kvN.1 ++ "\" = ".data ++ _value_to_string kvN.2) := by
        rw [encEntries_eq_map, hLN, List.map_append, List.map_singleton,
          List.getLast?_concat]
      rw [joinSepC_getLast? hpl (by simp), hentN]
    have hpstripJ : pstripC (' ' :: joinSepC ", ".data
        (encEntries ((k, v) :: rest)) ++ [' ']) =
        joinSepC ", ".data (encEntries ((k, v) :: rest)) := by
      rw [show (' ' :: joinSepC ", ".data (encEntries ((k, v) :: rest))
        ++ [' ']) = [' '] ++ (joinSepC ", ".data (encEntries ((k, v) :: rest))
        ++ [' ']) from by simp]
      apply pstripC_sandwich
        (by intro c hc; rw [List.mem_singleton.mp hc]; rfl)
        (by intro c hc; rw [List.mem_singleton.mp hc]; rfl)
      · intro c hc
        rw [hJhead] at hc
        injection hc with hc
        subst hc
        decide
      · intro c hc
        rw [hJlast] at hc
        injection hc with hc
        subst hc
        exact hcNw
    rw [hpstripJ]
    have hJne : (joinSepC ", ".data
        (encEntries ((k, v) :: rest))).isEmpty = false := by
      rw [List.isEmpty_eq_false]
      intro hn
      rw [hn] at hJhead
      cases hJhead
    rw [hJne]
    simp only [Bool.false_eq_true, if_false]
    have hcommafree : ∀ p ∈ encEntries ((k, v) :: rest), ¬ ',' ∈ p := by
      intro p hp
      obtain ⟨kv2, hkv2, hpe⟩ := mem_encEntries hp
      have hok2 := hall kv2 hkv2
      rw [Bool.and_eq_true] at hok2
      have hdk := hok2.1
      simp only [dictKeyOkB, Bool.and_eq_true, Bool.not_eq_true'] at hdk
      rw [hpe]
      intro hm
      rcases List.mem_cons.mp hm with he | hm2
      · exact absurd he (by decide)
      rcases List.mem_append.mp hm2 with h3 | h4
      · rcases List.mem_append.mp h3 with h5 | h6
        · have hc2 := hdk.1.1.1.1.1.2
          rw [containsC_iff.mpr h5] at hc2
          cases hc2
        · exact absurd h6 (by decide)
      · exact scalar_enc_comma hok2.2 h4
    rw [splitOnC_joinSepC hcommafree (by rw [hpieces0]; simp)]
    rw [hpieces0]
    rw [show withSpaces (('"' :: k ++ "\" = ".data ++ _value_to_string v)
      :: encEntries rest) = ('"' :: k ++ "\" = ".data ++ _value_to_string v)
      :: (encEntries rest).map (fun q => ' ' :: q) from rfl]
    rw [List.foldl_cons]
    rw [show ('"' :: k ++ "\" = ".data ++ _value_to_string v) =
      [] ++ ('"' :: k ++ "\" = ".data ++ _value_to_string v) from rfl]
    rw [dict_part_step (fuel + 1) (by intro c hc; simp at hc)
      hkv0.1 hkv0.2 []]
    rw [show alistAssign ([] : List (PyStr × Value)) k
      (convertValueF (fuel + 1) (_value_to_string v)) =
      [(k, convertValueF (fuel + 1) (_value_to_string v))] from rfl]
    rw [List.map_cons, keysUniqueB, Bool.and_eq_true] at hu
    rw [dict_fold (fuel + 1) rest
      [(k, convertValueF (fuel + 1) (_value_to_string v))]
      (by
        rw [List.all_cons, Bool.and_eq_true] at h
        exact h.2)
      hu.2
      (by
        intro kv2 hm2
        have hne : k ≠ kv2.1 := by
          intro he
          have h1 := hu.1
          rw [Bool.not_eq_true'] at h1
          rw [show (rest.map Prod.fst).contains k = true from
            List.elem_iff.mpr (he ▸ List.mem_map.mpr ⟨kv2, hm2, rfl⟩)] at h1
          cases h1
        show (if k = kv2.1 then _ else _) = none
        rw [if_neg hne]
        rfl)]
    simp

theorem convert_propVal {v : Value} {F : Nat}
    (hF : (_value_to_string v).length < F) (h : propValOkB v = true) :
    pyEqV (convertValueF F (_value_to_string v)) v = true := by
  cases v with
  | bool b =>
    obtain ⟨fuel, rfl⟩ : ∃ fuel, F = fuel + 1 := ⟨F - 1, by omega⟩
    exact convert_scalar fuel h
  | int n =>
    obtain ⟨fuel, rfl⟩ : ∃ fuel, F = fuel + 1 := ⟨F - 1, by omega⟩
    exact convert_scalar fuel h
  | float q =>
    obtain ⟨fuel, rfl⟩ : ∃ fuel, F = fuel + 1 := ⟨F - 1, by omega⟩
    exact convert_scalar fuel h
  | str s =>
    obtain ⟨fuel, rfl⟩ : ∃ fuel, F = fuel + 1 := ⟨F - 1, by omega⟩
    exact convert_scalar fuel h
  | list xs =>
    have hlen : 2 ≤ (_value_to_string (Value.list xs)).length := by
      rw [show _value_to_string (Value.list xs) =
        '[' :: joinSepC ", ".data (encList xs) ++ [']'] from rfl]
      simp
    obtain ⟨fuel, rfl⟩ : ∃ fuel, F = fuel + 2 := ⟨F - 2, by omega⟩
    rw [convert_listEnc fuel h]
    show pyEqL _ _ = true
    apply pyEqL_map
    intro x hx
    have hok := List.all_eq_true.mp h x hx
    have hf := scalar_enc_facts (scalarCommaFreeB_ok hok)
    rw [pstripC_eq_self hf.2.1 hf.2.2.1]
    exact convert_scalar fuel (scalarCommaFreeB_ok hok)
  | dict d =>
    have hlen : 4 ≤ (_value_to_string (Value.dict d)).length := by
      rw [show _value_to_string (Value.dict d) =
        "\x7b ".data ++ joinSepC ", ".data (encEntries d) ++ " \x7d".data from rfl]
      simp
    obtain ⟨fuel, rfl⟩ : ∃ fuel, F = fuel + 3 := ⟨F - 3, by omega⟩
    simp only [propValOkB, Bool.and_eq_true] at h
    rw [convert_dictEnc fuel h.1 h.2]
    show ((d.map (fun kv =>
        (kv.1, convertValueF (fuel + 1) (_value_to_string kv.2)))).length
        == d.length
      && pyEqEntries (d.map (fun kv =>
        (kv.1, convertValueF (fuel + 1) (_value_to_string kv.2)))) d) = true
    rw [Bool.and_eq_true]
    refine ⟨by simp, ?_⟩
    apply pyEqEntries_of_pointwise
    intro kv hm
    obtain ⟨kv0, hkv0, he⟩ := List.mem_map.mp hm
    subst he
    refine ⟨kv0.2, alistGet?_of_mem_unique h.2 hkv0, ?_⟩
    have hok := List.all_eq_true.mp h.1 kv0 hkv0
    rw [Bool.and_eq_true] at hok
    exact convert_scalar fuel (scalarCommaFreeB_ok hok.2)

/-- The value a serialized property decodes back to on re-parse. -/
def decVal (v : Value) : Value := _convert_value (_value_to_string v)

def decEntry (kv : PyStr × Value) : PyStr × Value := (kv.1, decVal kv.2)

theorem decVal_pyEq {v : Value} (h : propValOkB v = true) :
    pyEqV (decVal v) v = true :=
  convert_propVal (Nat.lt_succ_self _) h

theorem isClass_false_of_head {line : PyStr} {c : Char}
    (h : line.head? = some c) (hc : c ≠ '[') : _isClass line = false := by
  unfold _isClass
  simp [h, hc]

theorem isSubClass_false_of_head {line : PyStr} {c : Char}
    (h : line.head? = some c) (hc : c ≠ '[') : _isSubClass line = false := by
  unfold _isSubClass
  simp [h, hc]

theorem propLine_eq (k : PyStr) (v : Value) :
    propLine (k, v) = (k ++ [' ']) ++ '=' :: (' ' :: _value_to_string v) := by
  show k ++ " = ".data ++ _value_to_string v = _
  simp

theorem propLine_head_facts {k : PyStr} (hk : propKeyOkB k = true) :
    ∃ c, (propLine (k, v₀)).head? = some c ∧ c ≠ '#' ∧ c ≠ '[' := by
  simp only [propKeyOkB, Bool.and_eq_true, bne_iff_ne] at hk
  cases k with
  | nil => exact ⟨' ', rfl, by decide, by decide⟩
  | cons c t =>
    refine ⟨c, rfl, ?_, ?_⟩
    · intro he
      exact hk.1.2 (by rw [List.head?_cons, he])
    · intro he
      exact hk.2 (by rw [List.head?_cons, he])

theorem propLine_mem_eq (k : PyStr) (v : Value) : '=' ∈ propLine (k, v) := by
  rw [propLine_eq]
  exact List.mem_append.mpr (Or.inr (List.mem_cons_self _ _))

theorem processLine_prop {st : ConfigState} {k : PyStr} {v : Value}
    (hk : propKeyOkB k = true) :
    processLine st (propLine (k, v)) = _newProperty st (propLine (k, v)) := by
  obtain ⟨c, hc, hch, hcb⟩ := propLine_head_facts hk
  have hcom := isComment_false_of_head hc hch
  have hbl : _isBlank (propLine (k, v)) = false := by
    unfold _isBlank
    rw [List.isEmpty_eq_false]
    intro hnil
    exact absurd (pstripC_eq_nil_iff.mp hnil '=' (propLine_mem_eq k v))
      (by decide)
  have hcls := isClass_false_of_head hc hcb
  have hsub := isSubClass_false_of_head hc hcb
  have hprop : _isProperty (propLine (k, v)) = true :=
    containsC_iff.mpr (propLine_mem_eq k v)
  unfold processLine
  rw [hcom, hbl, hcls, hsub, hprop]
  simp

theorem propKeyOkB_strip {k : PyStr} (hk : propKeyOkB k = true) :
    pstripC k = k := by
  simp only [propKeyOkB, Bool.and_eq_true, beq_iff_eq] at hk
  exact hk.1.1.1.1

theorem propKeyOkB_no_eq {k : PyStr} (hk : propKeyOkB k = true) :
    ¬ '=' ∈ k ++ [' '] := by
  simp only [propKeyOkB, Bool.and_eq_true, Bool.not_eq_true'] at hk
  intro hm
  rcases List.mem_append.mp hm with h1 | h2
  · have hc := hk.1.1.2
    rw [containsC_iff.mpr h1] at hc
    cases hc
  · exact absurd (List.mem_singleton.mp h2) (by decide)

theorem propLine_split {k : PyStr} {v : Value} (hk : propKeyOkB k = true) :
    splitFirstC '=' (propLine (k, v)) =
      some (k ++ [' '], ' ' :: _value_to_string v) := by
  rw [propLine_eq]
  exact splitFirstC_append (propKeyOkB_no_eq hk) _

theorem newProperty_propLine_class {st : ConfigState} {cls : PyStr}
    {d : List (PyStr × Value)} {k : PyStr} {v : Value}
    (hcur : st.current_class = some (cls, none, false))
    (hfo : alistGet? st.file_object cls = some (Value.dict d))
    (hk : propKeyOkB k = true) (hv : propValOkB v = true) :
    _newProperty st (propLine (k, v)) =
      .ok { st with
             file_object := alistAssign st.file_object cls
               (Value.dict (alistSetdefault d k (decVal v))) } := by
  have hf := enc_facts hv
  simp only [_newProperty, hcur, propLine_split hk, hfo]
  rw [pstripC_trail (propKeyOkB_strip hk), pstripC_lead hf.2.1 hf.2.2.1]
  rfl

theorem newProperty_propLine_sub {st : ConfigState} {cls sub : PyStr}
    {d sd : List (PyStr × Value)} {k : PyStr} {v : Value}
    (hcur : st.current_class = some (cls, some sub, true))
    (hfo : alistGet? st.file_object cls = some (Value.dict d))
    (hsd : alistGet? d sub = some (Value.dict sd))
    (hk : propKeyOkB k = true) (hv : propValOkB v = true) :
    _newProperty st (propLine (k, v)) =
      .ok { st with
             file_object := alistAssign st.file_object cls
               (Value.dict (alistAssign d sub
                 (Value.dict (alistSetdefault sd k (decVal v))))) } := by
  have hf := enc_facts hv
  simp only [_newProperty, hcur, propLine_split hk, hfo, hsd]
  rw [pstripC_trail (propKeyOkB_strip hk), pstripC_lead hf.2.1 hf.2.2.1]
  rfl

theorem contains_false_of_not_mem {l : PyStr} {c : Char} (h : ¬ c ∈ l) :
    l.contains c = false := by
  cases hc : l.contains c with
  | false => rfl
  | true => exact absurd (containsC_iff.mp hc) h

theorem processLine_classHeader_fresh {st : ConfigState} {name : PyStr}
    (hdot : ¬ '.' ∈ name)
    (hfresh : alistGet? st.file_object name = none) :
    processLine st ('[' :: name ++ [']']) =
      .ok ⟨st.file_object ++ [(name, Value.dict [])],
           some (name, none, false),
           alistAssign st.subclasses name []⟩ := by
  have hcom := isComment_false_of_head (header_head name) (by decide)
  have hbl := isBlank_false_of_head (header_head name) (by decide)
  have hcls : _isClass ('[' :: name ++ [']']) = true := by
    unfold _isClass
    rw [header_contains_dot, contains_false_of_not_mem hdot, header_getLast]
    simp [header_head]
  have h1 : processLine st ('[' :: name ++ [']']) =
      .ok (_newClass st ('[' :: name ++ [']'])) := by
    unfold processLine
    rw [hcom, hbl, hcls]
    simp
  rw [h1]
  have hex : _classExists st name = false := by
    simp [_classExists, hfresh]
  unfold _newClass
  rw [innerC_wrap]
  simp only [hex, Bool.false_eq_true, if_false]
  rw [alistSetdefault_absent hfresh]

theorem subheader_classify {cls sub : PyStr} (hc : ¬ '.' ∈ cls)
    (hs : ¬ '.' ∈ sub) {st : ConfigState} :
    processLine st ('[' :: (cls ++ '.' :: sub) ++ [']']) =
      _newSubClass st ('[' :: (cls ++ '.' :: sub) ++ [']']) := by
  have hcom := isComment_false_of_head (header_head (cls ++ '.' :: sub))
    (by decide)
  have hbl := isBlank_false_of_head (header_head (cls ++ '.' :: sub))
    (by decide)
  have hdotmem : ('.' : Char) ∈ '[' :: (cls ++ '.' :: sub) ++ [']'] := by
    rw [List.cons_append]
    exact List.mem_cons_of_mem _ (List.mem_append.mpr (Or.inl
      (List.mem_append.mpr (Or.inr (List.mem_cons_self _ _)))))
  have hcont : ('[' :: (cls ++ '.' :: sub) ++ [']']).contains '.' = true :=
    containsC_iff.mpr hdotmem
  have hcls : _isClass ('[' :: (cls ++ '.' :: sub) ++ [']']) = false := by
    unfold _isClass
    rw [hcont]
    simp
  have hsubc : _isSubClass ('[' :: (cls ++ '.' :: sub) ++ [']']) = true := by
    unfold _isSubClass
    rw [hcont, header_getLast]
    simp [header_head]
  unfold processLine
  rw [hcom, hbl, hcls, hsubc]
  simp

theorem getClassSubClass_two {cls sub : PyStr} (hc : ¬ '.' ∈ cls)
    (hs : ¬ '.' ∈ sub) :
    _getClassSubClass ('[' :: (cls ++ '.' :: sub) ++ [']']) = [cls, sub] := by
  unfold _getClassSubClass
  rw [innerC_wrap]
  exact splitOnC_two hc hs

theorem newSubClass_present {st : ConfigState} {cls sub : PyStr}
    {d : List (PyStr × Value)} {L : List PyStr}
    (hc : ¬ '.' ∈ cls) (hs : ¬ '.' ∈ sub)
    (hfo : alistGet? st.file_object cls = some (Value.dict d))
    (hsc : alistGet? st.subclasses cls = some L) :
    _newSubClass st ('[' :: (cls ++ '.' :: sub) ++ [']']) =
      .ok ⟨alistAssign st.file_object cls
             (Value.dict (alistSetdefault d sub (Value.dict []))),
           some (cls, some sub, true),
           alistAssign st.subclasses cls (addToSet L sub)⟩ := by
  have hex : _classExists { st with
      current_class := some (cls, some sub, true) } cls = true := by
    simp [_classExists, hfo]
  simp only [_newSubClass, getClassSubClass_two hc hs, hex, if_true, hsc, hfo]

theorem newSubClass_fresh {st : ConfigState} {cls sub : PyStr}
    (hc : ¬ '.' ∈ cls) (hs : ¬ '.' ∈ sub)
    (hfo : alistGet? st.file_object cls = none) :
    _newSubClass st ('[' :: (cls ++ '.' :: sub) ++ [']']) =
      .ok ⟨st.file_object ++ [(cls, Value.dict [(sub, Value.dict [])])],
           some (cls, some sub, true),
           alistAssign st.subclasses cls [sub]⟩ := by
  have hex : _classExists { st with
      current_class := some (cls, some sub, true) } cls = false := by
    simp [_classExists, hfo]
  have hget2 : alistGet? (alistAssign st.subclasses cls []) cls =
      some [] := by
    rw [alistGet?_assign]
    simp
  have hget3 : alistGet? (alistSetdefault st.file_object cls (Value.dict []))
      cls = some (Value.dict []) := by
    rw [alistSetdefault_absent hfo, alistGet?_append_none hfo]
    simp [alistGet?]
  simp only [_newSubClass, getClassSubClass_two hc hs, hex, Bool.false_eq_true,
    if_false, hget2, hget3]
  rw [alistSetdefault_absent hfo, alistAssign_append_last hfo,
    alistAssign_assign]
  rfl

theorem classProps_replay : ∀ (props : List (PyStr × Value)) (st : ConfigState)
    (cls : PyStr) (d : List (PyStr × Value)),
    st.current_class = some (cls, none, false) →
    alistGet? st.file_object cls = some (Value.dict d) →
    (props.all fun kv => propKeyOkB kv.1 && propValOkB kv.2) = true →
    (∀ kv ∈ props, alistGet? d kv.1 = none) →
    keysUniqueB (props.map Prod.fst) = true →
    processLines st (props.map propLine) =
      .ok { st with
             file_object := alistAssign st.file_object cls
               (Value.dict (d ++ props.map decEntry)) } := by
  intro props
  induction props with
  | nil =>
    intro st cls d hcur hfo _ _ _
    show Except.ok st = _
    rw [List.map_nil, List.append_nil, alistAssign_present_self hfo]
  | cons kv props' ih =>
    intro st cls d hcur hfo hok hfresh huniq
    obtain ⟨k, v⟩ := kv
    rw [List.all_cons, Bool.and_eq_true] at hok
    have hkv := hok.1
    rw [Bool.and_eq_true] at hkv
    have hstep : processLine st (propLine (k, v)) = .ok { st with
        file_object := alistAssign st.file_object cls
          (Value.dict (d ++ [(k, decVal v)])) } := by
      rw [processLine_prop hkv.1,
        newProperty_propLine_class hcur hfo hkv.1 hkv.2,
        alistSetdefault_absent (hfresh (k, v) (List.mem_cons_self _ _))]
    rw [List.map_cons]
    have h1 : processLines st (propLine (k, v) :: props'.map propLine) =
        processLines { st with
          file_object := alistAssign st.file_object cls
            (Value.dict (d ++ [(k, decVal v)])) } (props'.map propLine) := by
      show (match processLine st (propLine (k, v)) with
        | .ok st' => processLines st' (props'.map propLine)
        | .error e => .error e) = _
      rw [hstep]
    rw [h1]
    rw [List.map_cons, keysUniqueB, Bool.and_eq_true] at huniq
    rw [ih { st with
          file_object := alistAssign st.file_object cls
            (Value.dict (d ++ [(k, decVal v)])) } cls (d ++ [(k, decVal v)])
      hcur
      (by rw [alistGet?_assign]; simp)
      hok.2
      (by
        intro kv2 hm2
        rw [alistGet?_append_none (hfresh kv2 (List.mem_cons_of_mem _ hm2))]
        have hne : k ≠ kv2.1 := by
          intro he
          have h2 := huniq.1
          rw [Bool.not_eq_true'] at h2
          rw [show (props'.map Prod.fst).contains k = true from
            List.elem_iff.mpr (he ▸ List.mem_map.mpr ⟨kv2, hm2, rfl⟩)] at h2
          cases h2
        show (if k = kv2.1 then _ else _) = none
        rw [if_neg hne]
        rfl)
      huniq.2]
    rw [alistAssign_assign, List.append_assoc]
    rfl

theorem subProps_replay : ∀ (props : List (PyStr × Value)) (st : ConfigState)
    (cls sub : PyStr) (d sd : List (PyStr × Value)),
    st.current_class = some (cls, some sub, true) →
    alistGet? st.file_object cls = some (Value.dict d) →
    alistGet? d sub = some (Value.dict sd) →
    (props.all fun kv => propKeyOkB kv.1 && propValOkB kv.2) = true →
    (∀ kv ∈ props, alistGet? sd kv.1 = none) →
    keysUniqueB (props.map Prod.fst) = true →
    processLines st (props.map propLine) =
      .ok { st with
             file_object := alistAssign st.file_object cls
               (Value.dict (alistAssign d sub
                 (Value.dict (sd ++ props.map decEntry)))) } := by
  intro props
  induction props with
  | nil =>
    intro st cls sub d sd hcur hfo hsd _ _ _
    show Except.ok st = _
    rw [List.map_nil, List.append_nil, alistAssign_present_self hsd,
      alistAssign_present_self hfo]
  | cons kv props' ih =>
    intro st cls sub d sd hcur hfo hsd hok hfresh huniq
    obtain ⟨k, v⟩ := kv
    rw [List.all_cons, Bool.and_eq_true] at hok
    have hkv := hok.1
    rw [Bool.and_eq_true] at hkv
    have hstep : processLine st (propLine (k, v)) = .ok { st with
        file_object := alistAssign st.file_object cls
          (Value.dict (alistAssign d sub
            (Value.dict (sd ++ [(k, decVal v)])))) } := by
      rw [processLine_prop hkv.1,
        newProperty_propLine_sub hcur hfo hsd hkv.1 hkv.2,
        alistSetdefault_absent (hfresh (k, v) (List.mem_cons_self _ _))]
    rw [List.map_cons]
    have h1 : processLines st (propLine (k, v) :: props'.map propLine) =
        processLines { st with
          file_object := alistAssign st.file_object cls
            (Value.dict (alistAssign d sub
              (Value.dict (sd ++ [(k, decVal v)])))) }
          (props'.map propLine) := by
      show (match processLine st (propLine (k, v)) with
        | .ok st' => processLines st' (props'.map propLine)
        | .error e => .error e) = _
      rw [hstep]
    rw [h1]
    rw [List.map_cons, keysUniqueB, Bool.and_eq_true] at huniq
    rw [ih { st with
          file_object := alistAssign st.file_object cls
            (Value.dict (alistAssign d sub
              (Value.dict (sd ++ [(k, decVal v)])))) } cls sub
      (alistAssign d sub (Value.dict (sd ++ [(k, decVal v)])))
      (sd ++ [(k, decVal v)]) hcur
      (by rw [alistGet?_assign]; simp)
      (by rw [alistGet?_assign]; simp)
      hok.2
      (by
        intro kv2 hm2
        rw [alistGet?_append_none (hfresh kv2 (List.mem_cons_of_mem _ hm2))]
        have hne : k ≠ kv2.1 := by
          intro he
          have h2 := huniq.1
          rw [Bool.not_eq_true'] at h2
          rw [show (props'.map Prod.fst).contains k = true from
            List.elem_iff.mpr (he ▸ List.mem_map.mpr ⟨kv2, hm2, rfl⟩)] at h2
          cases h2
        show (if k = kv2.1 then _ else _) = none
        rw [if_neg hne]
        rfl)
      huniq.2]
    rw [alistAssign_assign, alistAssign_assign, List.append_assoc]
    rfl

/-- The value a serialized sub-table decodes back to on re-parse. -/
def decSub (kv : PyStr × Value) : PyStr × Value :=
  (kv.1, match kv.2 with
    | Value.dict sd => Value.dict (sd.map decEntry)
    | v => v)

theorem subValOkB_dict {v : Value} (h : subValOkB v = true) :
    ∃ sd, v = Value.dict sd ∧ keysUniqueB (sd.map Prod.fst) = true ∧
      (sd.all fun kv => propKeyOkB kv.1 && propValOkB kv.2) = true := by
  cases v with
  | dict sd =>
    simp only [subValOkB, Bool.and_eq_true] at h
    exact ⟨sd, rfl, h.1, h.2⟩
  | bool b => cases h
  | int n => cases h
  | float q => cases h
  | str s => cases h
  | list xs => cases h

theorem header_assoc (cls sub : PyStr) :
    '[' :: cls ++ '.' :: sub ++ [']'] = '[' :: (cls ++ '.' :: sub) ++ [']'] := by
  simp

theorem subBlocks_replay_present : ∀ (subs : List (PyStr × Value))
    (st : ConfigState) (cls : PyStr) (D : List (PyStr × Value))
    (L : List PyStr),
    ¬ '.' ∈ cls →
    (subs.all fun kv => !kv.1.contains '.' && subValOkB kv.2) = true →
    keysUniqueB (subs.map Prod.fst) = true →
    (∀ kv ∈ subs, alistGet? D kv.1 = none) →
    alistGet? st.file_object cls = some (Value.dict D) →
    alistGet? st.subclasses cls = some L →
    ∃ lines st', subBlocks cls subs = .ok lines ∧
      processLines st lines = .ok st' ∧
      st'.file_object = alistAssign st.file_object cls
        (Value.dict (D ++ subs.map decSub)) ∧
      ∃ L', alistGet? st'.subclasses cls = some L' := by
  intro subs
  induction subs with
  | nil =>
    intro st cls D L hcls _ _ _ hfo hsc
    refine ⟨[], st, rfl, rfl, ?_, L, hsc⟩
    rw [List.map_nil, List.append_nil, alistAssign_present_self hfo]
  | cons kv rest ih =>
    intro st cls D L hcls hok huniq hfresh hfo hsc
    obtain ⟨sub, v⟩ := kv
    rw [List.all_cons, Bool.and_eq_true] at hok
    have hkv := hok.1
    rw [Bool.and_eq_true] at hkv
    obtain ⟨sd, rfl, hsdu, hsdok⟩ := subValOkB_dict hkv.2
    have hsubdot : ¬ '.' ∈ sub := by
      intro hm
      have h1 := hkv.1
      rw [Bool.not_eq_true'] at h1
      rw [containsC_iff.mpr hm] at h1
      cases h1
    have hsubfresh : alistGet? D sub = none :=
      hfresh (sub, Value.dict sd) (List.mem_cons_self _ _)
    -- the header line creates the empty sub-table
    have hstep1 : processLine st ('[' :: (cls ++ '.' :: sub) ++ [']']) =
        .ok ⟨alistAssign st.file_object cls
              (Value.dict (D ++ [(sub, Value.dict [])])),
             some (cls, some sub, true),
             alistAssign st.subclasses cls (addToSet L sub)⟩ := by
      rw [subheader_classify hcls hsubdot,
        newSubClass_present hcls hsubdot hfo hsc,
        alistSetdefault_absent hsubfresh]
    -- the property lines fill it
    have hstep2 : processLines
        ⟨alistAssign st.file_object cls
            (Value.dict (D ++ [(sub, Value.dict [])])),
          some (cls, some sub, true),
          alistAssign st.subclasses cls (addToSet L sub)⟩
        (sd.map propLine) =
        .ok ⟨alistAssign st.file_object cls
              (Value.dict (D ++ [(sub, Value.dict (sd.map decEntry))])),
             some (cls, some sub, true),
             alistAssign st.subclasses cls (addToSet L sub)⟩ := by
      rw [subProps_replay sd _ cls sub (D ++ [(sub, Value.dict [])]) [] rfl
        (by rw [alistGet?_assign]; simp)
        (by
          rw [alistGet?_append_none hsubfresh]
          show (if sub = sub then _ else _) = _
          rw [if_pos rfl])
        hsdok
        (by intro kv2 _; rfl)
        hsdu]
      rw [alistAssign_assign, List.nil_append,
        alistAssign_append_last hsubfresh]
    obtain ⟨lsRest, st', hblocks, hproc, hfo', L', hsc'⟩ :=
      ih ⟨alistAssign st.file_object cls
            (Value.dict (D ++ [(sub, Value.dict (sd.map decEntry))])),
          some (cls, some sub, true),
          alistAssign st.subclasses cls (addToSet L sub)⟩
        cls (D ++ [(sub, Value.dict (sd.map decEntry))]) (addToSet L sub)
        hcls hok.2
        (by
          rw [List.map_cons, keysUniqueB, Bool.and_eq_true] at huniq
          exact huniq.2)
        (by
          intro kv2 hm2
          rw [alistGet?_append_none (hfresh kv2 (List.mem_cons_of_mem _ hm2))]
          have hne : sub ≠ kv2.1 := by
            intro he
            rw [List.map_cons, keysUniqueB, Bool.and_eq_true] at huniq
            have h2 := huniq.1
            rw [Bool.not_eq_true'] at h2
            rw [show (rest.map Prod.fst).contains sub = true from
              List.elem_iff.mpr (he ▸ List.mem_map.mpr ⟨kv2, hm2, rfl⟩)] at h2
            cases h2
          show (if sub = kv2.1 then _ else _) = none
          rw [if_neg hne]
          rfl)
        (by rw [alistGet?_assign]; simp)
        (by rw [alistGet?_assign]; simp)
    refine ⟨(('[' :: cls ++ '.' :: sub ++ [']']) ::
        sd.map propLine ++ [[]]) ++ lsRest, st', ?_, ?_, ?_, L', hsc'⟩
    · show (match subBlocks cls rest with
        | Except.ok ls => Except.ok ((('[' :: cls ++ '.' :: sub ++ [']']) ::
            sd.map propLine ++ [[]]) ++ ls)
        | Except.error e => Except.error e) = _
      rw [hblocks]
    · rw [processLines_append]
      have hfirst : processLines st
          (('[' :: cls ++ '.' :: sub ++ [']']) :: sd.map propLine ++ [[]]) =
          .ok ⟨alistAssign st.file_object cls
                (Value.dict (D ++ [(sub, Value.dict (sd.map decEntry))])),
               some (cls, some sub, true),
               alistAssign st.subclasses cls (addToSet L sub)⟩ := by
        rw [header_assoc]
        show (match processLine st ('[' :: (cls ++ '.' :: sub) ++ [']']) with
          | Except.ok st1 => processLines st1 (sd.map propLine ++ [[]])
          | Except.error e => Except.error e) = _
        rw [hstep1]
        dsimp only
        rw [processLines_append, hstep2]
        rfl
      rw [hfirst]
      exact hproc
    · rw [hfo', alistAssign_assign, List.append_assoc]
      rfl

theorem subBlocks_replay_fresh {st : ConfigState} {cls : PyStr}
    {kv0 : PyStr × Value} {rest : List (PyStr × Value)}
    (hcls : ¬ '.' ∈ cls)
    (hok : ((kv0 :: rest).all
      fun kv => !kv.1.contains '.' && subValOkB kv.2) = true)
    (huniq : keysUniqueB ((kv0 :: rest).map Prod.fst) = true)
    (hfo : alistGet? st.file_object cls = none) :
    ∃ lines st', subBlocks cls (kv0 :: rest) = .ok lines ∧
      processLines st lines = .ok st' ∧
      st'.file_object = st.file_object ++
        [(cls, Value.dict ((kv0 :: rest).map decSub))] ∧
      ∃ L', alistGet? st'.subclasses cls = some L' := by
  obtain ⟨sub, v⟩ := kv0
  rw [List.all_cons, Bool.and_eq_true] at hok
  have hkv := hok.1
  rw [Bool.and_eq_true] at hkv
  obtain ⟨sd, rfl, hsdu, hsdok⟩ := subValOkB_dict hkv.2
  have hsubdot : ¬ '.' ∈ sub := by
    intro hm
    have h1 := hkv.1
    rw [Bool.not_eq_true'] at h1
    rw [containsC_iff.mpr hm] at h1
    cases h1
  have hstep1 : processLine st ('[' :: (cls ++ '.' :: sub) ++ [']']) =
      .ok ⟨st.file_object ++ [(cls, Value.dict [(sub, Value.dict [])])],
           some (cls, some sub, true),
           alistAssign st.subclasses cls [sub]⟩ := by
    rw [subheader_classify hcls hsubdot, newSubClass_fresh hcls hsubdot hfo]
  have hget1 : alistGet? (st.file_object
      ++ [(cls, Value.dict [(sub, Value.dict [])])]) cls =
      some (Value.dict [(sub, Value.dict [])]) := by
    rw [alistGet?_append_none hfo]
    show (if cls = cls then _ else _) = _
    rw [if_pos rfl]
  have hstep2 : processLines
      ⟨st.file_object ++ [(cls, Value.dict [(sub, Value.dict [])])],
        some (cls, some sub, true),
        alistAssign st.subclasses cls [sub]⟩
      (sd.map propLine) =
      .ok ⟨st.file_object
            ++ [(cls, Value.dict [(sub, Value.dict (sd.map decEntry))])],
           some (cls, some sub, true),
           alistAssign st.subclasses cls [sub]⟩ := by
    rw [subProps_replay sd _ cls sub [(sub, Value.dict [])] [] rfl hget1
      (by
        show (if sub = sub then _ else _) = _
        rw [if_pos rfl])
      hsdok
      (by intro kv2 _; rfl)
      hsdu]
    rw [List.nil_append,
      show alistAssign [(sub, Value.dict [])] sub
        (Value.dict (sd.map decEntry)) =
        [(sub, Value.dict (sd.map decEntry))] from by
          show (if sub = sub then _ else _) = _
          rw [if_pos rfl],
      alistAssign_append_last hfo]
  obtain ⟨lsRest, st', hblocks, hproc, hfo', L', hsc'⟩ :=
    subBlocks_replay_present rest
      ⟨st.file_object
          ++ [(cls, Value.dict [(sub, Value.dict (sd.map decEntry))])],
        some (cls, some sub, true),
        alistAssign st.subclasses cls [sub]⟩
      cls [(sub, Value.dict (sd.map decEntry))] [sub]
      hcls hok.2
      (by
        rw [List.map_cons, keysUniqueB, Bool.and_eq_true] at huniq
        exact huniq.2)
      (by
        intro kv2 hm2
        have hne : sub ≠ kv2.1 := by
          intro he
          rw [List.map_cons, keysUniqueB, Bool.and_eq_true] at huniq
          have h2 := huniq.1
          rw [Bool.not_eq_true'] at h2
          rw [show (rest.map Prod.fst).contains sub = true from
            List.elem_iff.mpr (he ▸ List.mem_map.mpr ⟨kv2, hm2, rfl⟩)] at h2
          cases h2
        show (if sub = kv2.1 then _ else _) = none
        rw [if_neg hne]
        rfl)
      (by
        rw [alistGet?_append_none hfo]
        show (if cls = cls then _ else _) = _
        rw [if_pos rfl])
      (by rw [alistGet?_assign]; simp)
  refine ⟨(('[' :: cls ++ '.' :: sub ++ [']']) ::
      sd.map propLine ++ [[]]) ++ lsRest, st', ?_, ?_, ?_, L', hsc'⟩
  · show (match subBlocks cls rest with
      | Except.ok ls => Except.ok ((('[' :: cls ++ '.' :: sub ++ [']']) ::
          sd.map propLine ++ [[]]) ++ ls)
      | Except.error e => Except.error e) = _
    rw [hblocks]
  · rw [processLines_append]
    have hfirst : processLines st
        (('[' :: cls ++ '.' :: sub ++ [']']) :: sd.map propLine ++ [[]]) =
        .ok ⟨st.file_object
              ++ [(cls, Value.dict [(sub, Value.dict (sd.map decEntry))])],
             some (cls, some sub, true),
             alistAssign st.subclasses cls [sub]⟩ := by
      rw [header_assoc]
      show (match processLine st ('[' :: (cls ++ '.' :: sub) ++ [']']) with
        | Except.ok st1 => processLines st1 (sd.map propLine ++ [[]])
        | Except.error e => Except.error e) = _
      rw [hstep1]
      dsimp only
      rw [processLines_append, hstep2]
      rfl
    rw [hfirst]
    exact hproc
  · rw [hfo', alistAssign_append_last hfo, List.map_cons]
    rfl

/-- The decoded body of one serialized section: properties first, then the
sub-tables, each entry re-decoded. -/
def secVal (subsS : List PyStr) (data : List (PyStr × Value)) : Value :=
  Value.dict ((data.filter (fun kv => !subsS.contains kv.1)).map decEntry
    ++ (data.filter (fun kv => subsS.contains kv.1)).map decSub)

theorem eq_of_mem_unique_keys {d : List (PyStr × Value)}
    {kv1 kv2 : PyStr × Value} (hu : keysUniqueB (d.map Prod.fst) = true)
    (h1 : kv1 ∈ d) (h2 : kv2 ∈ d) (he : kv1.1 = kv2.1) : kv1 = kv2 := by
  have g1 := alistGet?_of_mem_unique hu h1
  have g2 := alistGet?_of_mem_unique hu h2
  rw [he, g2] at g1
  injection g1 with g1
  obtain ⟨k1, v1⟩ := kv1
  obtain ⟨k2, v2⟩ := kv2
  simp only at he g1
  rw [he, g1]

theorem processLines_cons (st : ConfigState) (l : PyStr) (ls : List PyStr) :
    processLines st (l :: ls) =
      match processLine st l with
      | Except.ok st2 => processLines st2 ls
      | Except.error e => Except.error e := rfl

theorem section_replay {st : ConfigState} {cls : PyStr}
    {data : List (PyStr × Value)} (subsS : List PyStr)
    (hcls : ¬ '.' ∈ cls)
    (hdata : sectionDataOkB subsS data = true)
    (hfo : alistGet? st.file_object cls = none) :
    ∃ lines st', sectionLines subsS cls data = .ok lines ∧
      processLines st lines = .ok st' ∧
      st'.file_object = st.file_object ++ [(cls, secVal subsS data)] := by
  simp only [sectionDataOkB, Bool.and_eq_true] at hdata
  obtain ⟨⟨hne, huniq⟩, hall0⟩ := hdata
  have hall := List.all_eq_true.mp hall0
  have hpropsOk : ((data.filter (fun kv => !subsS.contains kv.1)).all
      fun kv => propKeyOkB kv.1 && propValOkB kv.2) = true := by
    rw [List.all_eq_true]
    intro kv hm
    rw [List.mem_filter] at hm
    have h1 := hall kv hm.1
    unfold sectionEntryOkB at h1
    rw [if_neg (by
      intro hcc
      have h2 := hm.2
      rw [hcc] at h2
      cases h2)] at h1
    exact h1
  have hsubsOk : ((data.filter (fun kv => subsS.contains kv.1)).all
      fun kv => !kv.1.contains '.' && subValOkB kv.2) = true := by
    rw [List.all_eq_true]
    intro kv hm
    rw [List.mem_filter] at hm
    have h1 := hall kv hm.1
    unfold sectionEntryOkB at h1
    rw [if_pos hm.2] at h1
    rw [Bool.and_eq_true, Bool.and_eq_true] at h1
    rw [Bool.and_eq_true]
    exact ⟨h1.1.1, h1.2⟩
  have hpropsUniq : keysUniqueB ((data.filter
      (fun kv => !subsS.contains kv.1)).map Prod.fst) = true :=
    keysUniqueB_sublist ((List.filter_sublist data).map Prod.fst) huniq
  have hsubsUniq : keysUniqueB ((data.filter
      (fun kv => subsS.contains kv.1)).map Prod.fst) = true :=
    keysUniqueB_sublist ((List.filter_sublist data).map Prod.fst) huniq
  have hdisj : ∀ kv ∈ data.filter (fun kv => subsS.contains kv.1),
      alistGet? ((data.filter (fun kv => !subsS.contains kv.1)).map decEntry)
        kv.1 = none := by
    intro kv hm
    apply alistGet?_eq_none_of_forall
    intro kv' hm'
    obtain ⟨e, he, rfl⟩ := List.mem_map.mp hm'
    show e.1 ≠ kv.1
    intro heq
    rw [List.mem_filter] at hm he
    have := eq_of_mem_unique_keys huniq he.1 hm.1 heq
    subst this
    have h2 := he.2
    rw [hm.2] at h2
    cases h2
  by_cases hpe : (data.filter (fun kv => !subsS.contains kv.1)).isEmpty = true
  · -- no plain properties: the sub-table blocks run against a fresh name
    have hpnil : data.filter (fun kv => !subsS.contains kv.1) = [] := by
      rwa [List.isEmpty_iff] at hpe
    have hsne : data.filter (fun kv => subsS.contains kv.1) ≠ [] := by
      intro hnil
      have hlen := length_filter_partition
        (fun kv => subsS.contains kv.1) data
      rw [hnil] at hlen
      have : data.filter (fun kv => !subsS.contains kv.1) =
          data.filter (fun kv => !(fun kv => subsS.contains kv.1) kv) := rfl
      rw [← this] at hlen
      rw [hpnil] at hlen
      simp only [List.length_nil] at hlen
      have hd0 : data = [] := List.length_eq_zero.mp (by omega)
      rw [hd0] at hne
      exact absurd hne (by decide)
    obtain ⟨kv0, rest, hsplit⟩ :
        ∃ kv0 rest, data.filter (fun kv => subsS.contains kv.1) =
          kv0 :: rest := by
      cases hd : data.filter (fun kv => subsS.contains kv.1) with
      | nil => exact absurd hd hsne
      | cons kv0 rest => exact ⟨kv0, rest, rfl⟩
    obtain ⟨lines, st', hblocks, hproc, hfo', _, _⟩ :=
      subBlocks_replay_fresh hcls (hsplit ▸ hsubsOk) (hsplit ▸ hsubsUniq) hfo
    refine ⟨lines, st', ?_, hproc, ?_⟩
    · simp only [sectionLines]
      rw [hpe]
      simp only [if_true]
      rw [hsplit, hblocks]
      rfl
    · rw [hfo', ← hsplit]
      simp only [secVal]
      rw [hpnil]
      rfl
  · -- the [cls] header and its properties come first
    rw [Bool.not_eq_true] at hpe
    have hstep1 : processLine st ('[' :: cls ++ [']']) =
        .ok ⟨st.file_object ++ [(cls, Value.dict [])],
             some (cls, none, false),
             alistAssign st.subclasses cls []⟩ :=
      processLine_classHeader_fresh hcls hfo
    have hget1 : alistGet? (st.file_object ++ [(cls, Value.dict [])]) cls =
        some (Value.dict []) := by
      rw [alistGet?_append_none hfo]
      show (if cls = cls then _ else _) = _
      rw [if_pos rfl]
    have hstep2 := classProps_replay
      (data.filter (fun kv => !subsS.contains kv.1))
      ⟨st.file_object ++ [(cls, Value.dict [])],
        some (cls, none, false),
        alistAssign st.subclasses cls []⟩
      cls [] rfl hget1 hpropsOk (by intro kv2 _; rfl) hpropsUniq
    rw [List.nil_append, alistAssign_append_last hfo] at hstep2
    obtain ⟨lsSubs, st', hblocks, hproc, hfo', _, _⟩ :=
      subBlocks_replay_present (data.filter (fun kv => subsS.contains kv.1))
        ⟨st.file_object ++ [(cls, Value.dict ((data.filter
              (fun kv => !subsS.contains kv.1)).map decEntry))],
          some (cls, none, false),
          alistAssign st.subclasses cls []⟩
        cls ((data.filter (fun kv => !subsS.contains kv.1)).map decEntry) []
        hcls hsubsOk hsubsUniq hdisj
        (by
          rw [alistGet?_append_none hfo]
          show (if cls = cls then _ else _) = _
          rw [if_pos rfl])
        (by rw [alistGet?_assign]; simp)
    refine ⟨('[' :: cls ++ [']']) :: (data.filter
        (fun kv => !subsS.contains kv.1)).map propLine ++ [[]] ++ lsSubs,
      st', ?_, ?_, ?_⟩
    · simp only [sectionLines]
      rw [hpe]
      simp only [Bool.false_eq_true, if_false]
      rw [hblocks]
    · have hshape : ('[' :: cls ++ [']']) :: (data.filter
          (fun kv => !subsS.contains kv.1)).map propLine ++ [[]] ++ lsSubs =
          (('[' :: cls ++ [']']) :: (data.filter
            (fun kv => !subsS.contains kv.1)).map propLine) ++
          ([[]] ++ lsSubs) := by simp
      rw [hshape, processLines_append]
      have hfirst : processLines st (('[' :: cls ++ [']']) :: (data.filter
          (fun kv => !subsS.contains kv.1)).map propLine) =
          .ok ⟨st.file_object ++ [(cls, Value.dict ((data.filter
                (fun kv => !subsS.contains kv.1)).map decEntry))],
               some (cls, none, false),
               alistAssign st.subclasses cls []⟩ := by
        rw [processLines_cons, hstep1]
        dsimp only
        exact hstep2
      rw [hfirst]
      dsimp only
      rw [show ([[]] : List PyStr) ++ lsSubs = [] :: lsSubs from rfl,
        processLines_cons, processLine_blank]
      exact hproc
    · rw [hfo', alistAssign_append_last hfo]
      rfl

/-- The top-level entry a serialized section decodes back to on re-parse. -/
def secDec (scs : List (PyStr × List PyStr)) (kv : PyStr × Value) :
    PyStr × Value :=
  (kv.1, match kv.2 with
    | Value.dict data => secVal ((alistGet? scs kv.1).getD []) data
    | v => v)

theorem sections_replay (scs : List (PyStr × List PyStr)) :
    ∀ (sections : List (PyStr × Value)) (st : ConfigState),
    (sections.all (sectionOkB scs)) = true →
    keysUniqueB (sections.map Prod.fst) = true →
    (∀ kv ∈ sections, alistGet? st.file_object kv.1 = none) →
    ∃ lines st', saveSections scs sections = .ok lines ∧
      processLines st lines = .ok st' ∧
      st'.file_object = st.file_object ++ sections.map (secDec scs) := by
  intro sections
  induction sections with
  | nil =>
    intro st _ _ _
    exact ⟨[], st, rfl, rfl, by simp⟩
  | cons kv rest ih =>
    intro st hok huniq hfresh
    obtain ⟨cls, v⟩ := kv
    rw [List.all_cons, Bool.and_eq_true] at hok
    have hsec := hok.1
    unfold sectionOkB at hsec
    rw [Bool.and_eq_true, Bool.and_eq_true] at hsec
    obtain ⟨⟨hdot, _⟩, hval⟩ := hsec
    have hdotn : ¬ '.' ∈ cls := by
      intro hm
      rw [Bool.not_eq_true'] at hdot
      rw [containsC_iff.mpr hm] at hdot
      cases hdot
    obtain ⟨data, rfl⟩ : ∃ data, v = Value.dict data := by
      cases hv : v with
      | dict data => exact ⟨data, rfl⟩
      | bool b => rw [hv] at hval; cases hval
      | int n => rw [hv] at hval; cases hval
      | float q => rw [hv] at hval; cases hval
      | str s2 => rw [hv] at hval; cases hval
      | list xs => rw [hv] at hval; cases hval
    obtain ⟨lines1, st1, hsl, hpl, hfo1⟩ :=
      section_replay ((alistGet? scs cls).getD []) hdotn hval
        (hfresh (cls, Value.dict data) (List.mem_cons_self _ _))
    rw [List.map_cons, keysUniqueB, Bool.and_eq_true] at huniq
    obtain ⟨lines2, st2, hsl2, hpl2, hfo2⟩ := ih st1 hok.2 huniq.2
      (by
        intro kv2 hm2
        rw [hfo1, alistGet?_append_none
          (hfresh kv2 (List.mem_cons_of_mem _ hm2))]
        have hne : cls ≠ kv2.1 := by
          intro he
          have h2 := huniq.1
          rw [Bool.not_eq_true'] at h2
          rw [show (rest.map Prod.fst).contains cls = true from
            List.elem_iff.mpr (he ▸ List.mem_map.mpr ⟨kv2, hm2, rfl⟩)] at h2
          cases h2
        show (if cls = kv2.1 then _ else _) = none
        rw [if_neg hne]
        rfl)
    refine ⟨lines1 ++ lines2, st2, ?_, ?_, ?_⟩
    · show (match sectionLines ((alistGet? scs cls).getD []) cls data with
        | Except.ok ls =>
          (match saveSections scs rest with
           | Except.ok ls2 => Except.ok (ls ++ ls2)
           | Except.error e => Except.error e)
        | Except.error e => Except.error e) = _
      rw [hsl, hsl2]
    · rw [processLines_append, hpl]
      exact hpl2
    · rw [hfo2, hfo1, List.map_cons, List.append_assoc]
      rfl

theorem subDec_pyEq {sd : List (PyStr × Value)}
    (hu : keysUniqueB (sd.map Prod.fst) = true)
    (hok : (sd.all fun kv => propKeyOkB kv.1 && propValOkB kv.2) = true) :
    pyEqV (Value.dict (sd.map decEntry)) (Value.dict sd) = true := by
  show ((sd.map decEntry).length == sd.length
    && pyEqEntries (sd.map decEntry) sd) = true
  rw [Bool.and_eq_true]
  refine ⟨by simp, ?_⟩
  apply pyEqEntries_of_pointwise
  intro kv hm
  obtain ⟨kv0, hkv0, rfl⟩ := List.mem_map.mp hm
  refine ⟨kv0.2, alistGet?_of_mem_unique hu hkv0, ?_⟩
  have h1 := List.all_eq_true.mp hok kv0 hkv0
  rw [Bool.and_eq_true] at h1
  exact decVal_pyEq h1.2

theorem secVal_pyEq {subsS : List PyStr} {data : List (PyStr × Value)}
    (hdata : sectionDataOkB subsS data = true) :
    pyEqV (secVal subsS data) (Value.dict data) = true := by
  simp only [sectionDataOkB, Bool.and_eq_true] at hdata
  obtain ⟨⟨_, huniq⟩, hall0⟩ := hdata
  have hall := List.all_eq_true.mp hall0
  unfold secVal
  show (((data.filter (fun kv => !subsS.contains kv.1)).map decEntry
      ++ (data.filter (fun kv => subsS.contains kv.1)).map decSub).length
      == data.length
    && pyEqEntries ((data.filter (fun kv => !subsS.contains kv.1)).map decEntry
      ++ (data.filter (fun kv => subsS.contains kv.1)).map decSub) data) = true
  rw [Bool.and_eq_true]
  constructor
  · rw [beq_iff_eq, List.length_append, List.length_map, List.length_map]
    have hlen := length_filter_partition
      (fun kv => subsS.contains kv.1) data
    have heq2 : data.filter (fun kv => !subsS.contains kv.1) =
        data.filter (fun kv => !(fun kv => subsS.contains kv.1) kv) := rfl
    rw [← heq2] at hlen
    omega
  · apply pyEqEntries_of_pointwise
    intro kv hm
    rcases List.mem_append.mp hm with hm1 | hm2
    · obtain ⟨e, he, rfl⟩ := List.mem_map.mp hm1
      rw [List.mem_filter] at he
      refine ⟨e.2, alistGet?_of_mem_unique huniq he.1, ?_⟩
      have h1 := hall e he.1
      unfold sectionEntryOkB at h1
      rw [if_neg (by
        intro hcc
        have h2 := he.2
        rw [hcc] at h2
        cases h2)] at h1
      rw [Bool.and_eq_true] at h1
      exact decVal_pyEq h1.2
    · obtain ⟨e, he, rfl⟩ := List.mem_map.mp hm2
      rw [List.mem_filter] at he
      have h1 := hall e he.1
      unfold sectionEntryOkB at h1
      rw [if_pos he.2] at h1
      rw [Bool.and_eq_true, Bool.and_eq_true] at h1
      obtain ⟨sd, he2, hsdu, hsdok⟩ := subValOkB_dict h1.2
      obtain ⟨k, v⟩ := e
      simp only at he2
      subst he2
      refine ⟨Value.dict sd, alistGet?_of_mem_unique huniq he.1, ?_⟩
      exact subDec_pyEq hsdu hsdok

theorem sections_dec_pyEq {scs : List (PyStr × List PyStr)}
    {sections : List (PyStr × Value)}
    (hok : (sections.all (sectionOkB scs)) = true)
    (huniq : keysUniqueB (sections.map Prod.fst) = true) :
    pyEqD (sections.map (secDec scs)) sections = true := by
  unfold pyEqD
  rw [Bool.and_eq_true]
  refine ⟨by simp, ?_⟩
  apply pyEqEntries_of_pointwise
  intro kv hm
  obtain ⟨kv0, hkv0, rfl⟩ := List.mem_map.mp hm
  have h1 := List.all_eq_true.mp hok kv0 hkv0
  unfold sectionOkB at h1
  rw [Bool.and_eq_true, Bool.and_eq_true] at h1
  obtain ⟨k, v⟩ := kv0
  obtain ⟨data, rfl⟩ : ∃ data, v = Value.dict data := by
    cases hv : v with
    | dict data => exact ⟨data, rfl⟩
    | bool b => rw [hv] at h1; rcases h1 with ⟨_, h2⟩; cases h2
    | int n => rw [hv] at h1; rcases h1 with ⟨_, h2⟩; cases h2
    | float q => rw [hv] at h1; rcases h1 with ⟨_, h2⟩; cases h2
    | str s2 => rw [hv] at h1; rcases h1 with ⟨_, h2⟩; cases h2
    | list xs => rw [hv] at h1; rcases h1 with ⟨_, h2⟩; cases h2
  refine ⟨Value.dict data, alistGet?_of_mem_unique huniq hkv0, ?_⟩
  exact secVal_pyEq h1.2

theorem subBlocks_nl {cls : PyStr} (hcnl : ¬ '\n' ∈ cls) :
    ∀ (subs : List (PyStr × Value)) (lines : List PyStr),
    (subs.all fun kv => !kv.1.contains '\n' && subValOkB kv.2) = true →
    subBlocks cls subs = .ok lines → ∀ l ∈ lines, ¬ '\n' ∈ l := by
  intro subs
  induction subs with
  | nil =>
    intro lines _ hsb l hl
    injection hsb with hsb
    rw [← hsb] at hl
    simp at hl
  | cons kv rest ih =>
    intro lines hok hsb l hl
    obtain ⟨sub, v⟩ := kv
    rw [List.all_cons, Bool.and_eq_true] at hok
    have hkv := hok.1
    rw [Bool.and_eq_true] at hkv
    obtain ⟨sd, rfl, hsdu, hsdok⟩ := subValOkB_dict hkv.2
    have hsubnl : ¬ '\n' ∈ sub := by
      intro hm
      have h1 := hkv.1
      rw [Bool.not_eq_true'] at h1
      rw [containsC_iff.mpr hm] at h1
      cases h1
    simp only [subBlocks] at hsb
    cases hr : subBlocks cls rest with
    | error e => rw [hr] at hsb; cases hsb
    | ok ls =>
      rw [hr] at hsb
      injection hsb with hsb
      rw [← hsb] at hl
      rcases List.mem_append.mp hl with h1 | h2
      · rcases List.mem_cons.mp h1 with he | h3
        · subst he
          intro hm
          rcases List.mem_cons.mp hm with he2 | hm2
          · exact absurd he2 (by decide)
          rcases List.mem_append.mp hm2 with h4 | h5
          · rcases List.mem_append.mp h4 with h6 | h7
            · exact hcnl h6
            · rcases List.mem_cons.mp h7 with he3 | h8
              · exact absurd he3 (by decide)
              · exact hsubnl h8
          · exact absurd (List.mem_singleton.mp h5) (by decide)
        · rcases List.mem_append.mp h3 with h4 | h5
          · obtain ⟨e, he, rfl⟩ := List.mem_map.mp h4
            have h6 := List.all_eq_true.mp hsdok e he
            rw [Bool.and_eq_true] at h6
            obtain ⟨ek, ev⟩ := e
            exact propLine_no_newline h6.1 h6.2
          · rw [List.mem_singleton.mp h5]
            simp
      · exact ih ls hok.2 hr l h2

theorem sectionLines_nl {subsS : List PyStr} {cls : PyStr}
    {data : List (PyStr × Value)} {lines : List PyStr}
    (hcnl : ¬ '\n' ∈ cls)
    (hdata : (data.all (sectionEntryOkB subsS)) = true)
    (hsl : sectionLines subsS cls data = .ok lines) :
    ∀ l ∈ lines, ¬ '\n' ∈ l := by
  have hall := List.all_eq_true.mp hdata
  have hsubs : ((data.filter (fun kv => subsS.contains kv.1)).all
      fun kv => !kv.1.contains '\n' && subValOkB kv.2) = true := by
    rw [List.all_eq_true]
    intro kv hm
    rw [List.mem_filter] at hm
    have h1 := hall kv hm.1
    unfold sectionEntryOkB at h1
    rw [if_pos hm.2] at h1
    rw [Bool.and_eq_true, Bool.and_eq_true] at h1
    rw [Bool.and_eq_true]
    exact ⟨h1.1.2, h1.2⟩
  simp only [sectionLines] at hsl
  cases hsb : subBlocks cls (data.filter (fun kv => subsS.contains kv.1)) with
  | error e => rw [hsb] at hsl; cases hsl
  | ok ls =>
    rw [hsb] at hsl
    injection hsl with hsl
    intro l hl
    rw [← hsl] at hl
    rcases List.mem_append.mp hl with h1 | h2
    · by_cases hpe : (data.filter
          (fun kv => !subsS.contains kv.1)).isEmpty = true
      · rw [if_pos hpe] at h1
        simp at h1
      · rw [if_neg hpe] at h1
        rcases List.mem_cons.mp h1 with he | h3
        · subst he
          intro hm
          rcases List.mem_cons.mp hm with he2 | hm2
          · exact absurd he2 (by decide)
          rcases List.mem_append.mp hm2 with h4 | h5
          · exact hcnl h4
          · exact absurd (List.mem_singleton.mp h5) (by decide)
        · rcases List.mem_append.mp h3 with h4 | h5
          · obtain ⟨e, he, rfl⟩ := List.mem_map.mp h4
            rw [List.mem_filter] at he
            have h6 := hall e he.1
            unfold sectionEntryOkB at h6
            rw [if_neg (by
              intro hcc
              have h7 := he.2
              rw [hcc] at h7
              cases h7)] at h6
            rw [Bool.and_eq_true] at h6
            obtain ⟨ek, ev⟩ := e
            exact propLine_no_newline h6.1 h6.2
          · rw [List.mem_singleton.mp h5]
            simp
    · exact subBlocks_nl hcnl _ ls hsubs hsb l h2

theorem saveSections_nl {scs : List (PyStr × List PyStr)} :
    ∀ {sections : List (PyStr × Value)} {lines : List PyStr},
    (sections.all (sectionOkB scs)) = true →
    saveSections scs sections = .ok lines →
    ∀ l ∈ lines, ¬ '\n' ∈ l := by
  intro sections
  induction sections with
  | nil =>
    intro lines _ hsv l hl
    injection hsv with hsv
    rw [← hsv] at hl
    simp at hl
  | cons kv rest ih =>
    intro lines hok hsv l hl
    obtain ⟨cls, v⟩ := kv
    rw [List.all_cons, Bool.and_eq_true] at hok
    have hsec := hok.1
    unfold sectionOkB at hsec
    rw [Bool.and_eq_true, Bool.and_eq_true] at hsec
    obtain ⟨⟨_, hnl⟩, hval⟩ := hsec
    have hcnl : ¬ '\n' ∈ cls := by
      intro hm
      rw [Bool.not_eq_true'] at hnl
      rw [containsC_iff.mpr hm] at hnl
      cases hnl
    obtain ⟨data, rfl⟩ : ∃ data, v = Value.dict data := by
      cases hv : v with
      | dict data => exact ⟨data, rfl⟩
      | bool b => rw [hv] at hval; cases hval
      | int n => rw [hv] at hval; cases hval
      | float q => rw [hv] at hval; cases hval
      | str s2 => rw [hv] at hval; cases hval
      | list xs => rw [hv] at hval; cases hval
    simp only [saveSections] at hsv
    cases hsl : sectionLines ((alistGet? scs cls).getD []) cls data with
    | error e => rw [hsl] at hsv; cases hsv
    | ok ls1 =>
      rw [hsl] at hsv
      cases hsv2 : saveSections scs rest with
      | error e => rw [hsv2] at hsv; cases hsv
      | ok ls2 =>
        rw [hsv2] at hsv
        injection hsv with hsv
        rw [← hsv] at hl
        have hdata : (data.all (sectionEntryOkB
            ((alistGet? scs cls).getD []))) = true := by
          simp only [sectionDataOkB, Bool.and_eq_true] at hval
          exact hval.2
        rcases List.mem_append.mp hl with h1 | h2
        · exact sectionLines_nl hcnl hdata hsl l h1
        · exact ih hok.2 hsv2 l h2

/-- The state parsed from `[unit]\nx = 5\n[unit.test]\ny = true\n`. -/
def C1WitnessState : ConfigState :=
  ConfigState.mk
    [("unit".data, Value.dict
      [("x".data, Value.int 5),
       ("test".data, Value.dict [("y".data, Value.bool true)])])]
    (some ("unit".data, some "test".data, true))
    [("unit".data, ["test".data])]

/-- **C1 (amended).**  The round trip holds for well-formed parsed states:
if construction-time parsing succeeds and the resulting state satisfies
`WFState` (unique section names; every section a nonempty dictionary whose
keys re-parse as themselves and whose values are scalars, flat lists of
comma-free scalars, or flat inline tables with clean keys, floats having
decimal denominators), then `_save` succeeds and re-parsing the saved text
yields a Document equal to the original under Python `==` (`pyEqD`).  The
unconditional claim is refuted by `C1_counterexample_empty_section_dropped`:
a section with no properties and no sub-tables is dropped entirely by
`_save`. -/
theorem C1_amended_wf_round_trip (t : String) (st : ConfigState)
    (h1 : parseConfig t = .ok st) (h2 : WFState st = true) :
    ∃ txt st2, saveText st = .ok txt ∧ parseConfig txt = .ok st2 ∧
      pyEqD st2.file_object st.file_object = true := by
  unfold WFState at h2
  rw [Bool.and_eq_true] at h2
  obtain ⟨huniq, hok⟩ := h2
  obtain ⟨lines, st2, hsave, hproc, hfo2⟩ :=
    sections_replay st.subclasses st.file_object initState hok huniq
      (fun kv _ => rfl)
  refine ⟨String.mk (lines.foldr (fun l acc => l ++ '\n' :: acc) []), st2,
    ?_, ?_, ?_⟩
  · unfold saveText saveLines
    rw [hsave]
  · unfold parseConfig
    rw [show (String.mk (lines.foldr
        (fun l acc => l ++ '\n' :: acc) [])).data
      = lines.foldr (fun l acc => l ++ '\n' :: acc) [] from rfl]
    rw [splitlinesC_join (saveSections_nl hok hsave)]
    exact hproc
  · rw [hfo2]
    exact sections_dec_pyEq hok huniq

/-- Witness: the two hypotheses of `C1_amended_wf_round_trip` hold at the
concrete input `[unit]\nx = 5\n[unit.test]\ny = true\n`, and the round trip
follows by the theorem. -/
theorem C1_amended_witness :
    parseConfig "[unit]\nx = 5\n[unit.test]\ny = true\n"
      = .ok C1WitnessState ∧
    WFState C1WitnessState = true ∧
    (∃ txt st2, saveText C1WitnessState = .ok txt ∧
      parseConfig txt = .ok st2 ∧
      pyEqD st2.file_object C1WitnessState.file_object = true) :=
  ⟨by decide, by decide,
    C1_amended_wf_round_trip "[unit]\nx = 5\n[unit.test]\ny = true\n"
      C1WitnessState (by decide) (by decide)⟩
